import Mathlib

/-!
# Pathfinder-Visualizer: grid search and maze-generation engine, verified

A shallow embedding of the algorithmic core of the Pathfinder-Visualizer
repository: the Dijkstra and A* search engines (`Dijkstra.js` / `AStar.js`),
path reconstruction (`getNodesInShortestPathOrder`), the maze generators
(recursive division, stair, basic-random, density-random with clustering),
and the grid-mutating UI operations (`handleDrop`, `randomizeNodes`).

JavaScript `Infinity` distances are modelled by `WithTop ℕ`; the in-place
mutation of node objects is modelled by explicit state records mapping a
cell position to its search fields.  `Array.prototype.sort` with the
comparator `(a, b) => a.distance - b.distance` is a stable sort by the
distance key (ES2019 mandates sort stability, and a comparator returning
`NaN` — `Infinity - Infinity` — counts as equality), and the output of a
stable sort is uniquely determined, so it is modelled by
`List.insertionSort` by `≤` on keys, which is stable.  The `while` loops of
the source are modelled by iterating an explicit one-iteration step
function; each iteration removes one element from the node array, so
iterating `rows*cols + 1` times runs any loop to completion.  DOM updates
and animation delays do not touch the engine state and are omitted (the
spec places rendering out of scope).
-/

/-- A cell position `(row, col)`, the identity of a grid node. -/
abbrev Pos : Type := ℕ × ℕ

/-- Extended natural numbers: distance values, with `⊤` for JS `Infinity`. -/
abbrev DVal : Type := WithTop ℕ

/-- The immutable part of a grid for a single search call: its dimensions and
which cells are walls (`isWall` is never mutated by a search). -/
structure GridSpec where
  rows : ℕ
  cols : ℕ
  wall : Pos → Bool

/-- `p` is inside the grid. -/
def GridSpec.inB (g : GridSpec) (p : Pos) : Prop :=
  p.1 < g.rows ∧ p.2 < g.cols

instance (g : GridSpec) (p : Pos) : Decidable (g.inB p) := by
  unfold GridSpec.inB; infer_instance

/-- Pointwise update of a state field (assignment to one node object's field). -/
def setF {α : Type} (f : Pos → α) (p : Pos) (v : α) : Pos → α :=
  fun q => if q = p then v else f q

@[simp] theorem setF_same {α : Type} (f : Pos → α) (p : Pos) (v : α) :
    setF f p v p = v := by
  simp [setF]

theorem setF_other {α : Type} (f : Pos → α) (p q : Pos) (v : α) (h : q ≠ p) :
    setF f p v q = f q := by
  simp [setF, h]

/-- `getAllNodes`: the flat row-major list of all grid positions
(source: `Dijkstra.js` lines 383-391 / `AStar.js` lines 189-197). -/
def getAllNodes (g : GridSpec) : List Pos :=
  (List.range g.rows).flatMap fun r => (List.range g.cols).map fun c => (r, c)

theorem getAllNodes_eq_product (g : GridSpec) :
    getAllNodes g = List.range g.rows ×ˢ List.range g.cols := rfl

theorem mem_getAllNodes (g : GridSpec) (p : Pos) :
    p ∈ getAllNodes g ↔ g.inB p := by
  cases p with
  | mk r c => rw [getAllNodes_eq_product]; simp [List.mem_product, GridSpec.inB]

theorem nodup_getAllNodes (g : GridSpec) : (getAllNodes g).Nodup := by
  rw [getAllNodes_eq_product]
  exact (List.nodup_range g.rows).product (List.nodup_range g.cols)

/-- The neighbour candidates of a node, in the source's fixed order
up, down, left, right (`getUnvisitedNeighbors` before its `filter`). -/
def nbrList (g : GridSpec) (p : Pos) : List Pos :=
  (if 0 < p.1 then [(p.1 - 1, p.2)] else []) ++
  (if p.1 + 1 < g.rows then [(p.1 + 1, p.2)] else []) ++
  (if 0 < p.2 then [(p.1, p.2 - 1)] else []) ++
  (if p.2 + 1 < g.cols then [(p.1, p.2 + 1)] else [])

/-- 4-adjacency of two in-bounds cells. -/
def GridSpec.adj (g : GridSpec) (p q : Pos) : Prop :=
  g.inB p ∧ g.inB q ∧
    ((p.1 = q.1 ∧ (p.2 = q.2 + 1 ∨ q.2 = p.2 + 1)) ∨
     (p.2 = q.2 ∧ (p.1 = q.1 + 1 ∨ q.1 = p.1 + 1)))

instance (g : GridSpec) (p q : Pos) : Decidable (g.adj p q) := by
  unfold GridSpec.adj; infer_instance

theorem adj_symm {g : GridSpec} {p q : Pos} (h : g.adj p q) : g.adj q p := by
  obtain ⟨hp, hq, hd⟩ := h
  exact ⟨hq, hp, by tauto⟩

theorem mem_nbrList_iff_adj {g : GridSpec} {p q : Pos} (hp : g.inB p) :
    q ∈ nbrList g p ↔ g.adj p q := by
  obtain ⟨r, c⟩ := p
  obtain ⟨r', c'⟩ := q
  obtain ⟨hr, hc⟩ := hp
  simp only [nbrList, GridSpec.adj, GridSpec.inB, List.mem_append]
  constructor
  · intro h
    rcases h with ((h | h) | h) | h <;> split_ifs at h <;>
      simp_all <;> omega
  · rintro ⟨-, ⟨hr', hc'⟩, h⟩
    rcases h with ⟨he, hor | hor⟩ | ⟨he, hor | hor⟩ <;> simp_all

theorem nodup_nbrList (g : GridSpec) (p : Pos) : (nbrList g p).Nodup := by
  obtain ⟨r, c⟩ := p
  unfold nbrList
  split_ifs <;> simp_all [List.Nodup] <;> omega

/-- Adjacency flips the checkerboard parity of a cell. -/
theorem adj_parity {g : GridSpec} {p q : Pos} (h : g.adj p q) :
    (p.1 + p.2) % 2 ≠ (q.1 + q.2) % 2 := by
  obtain ⟨-, -, ⟨he, hor | hor⟩ | ⟨he, hor | hor⟩⟩ := h <;> omega

/-! ## Paths in the grid

Specification-side notions used in the theorem statements: a walk between
open (non-wall) in-bounds cells, its length, and reachability.  These are
the yardstick against which the engines are judged. -/

/-- A step of a walk: 4-adjacent cells that are both open. -/
def GridSpec.openAdj (g : GridSpec) (p q : Pos) : Prop :=
  g.adj p q ∧ g.wall p = false ∧ g.wall q = false

theorem openAdj_symm {g : GridSpec} {p q : Pos} (h : g.openAdj p q) : g.openAdj q p :=
  ⟨adj_symm h.1, h.2.2, h.2.1⟩

/-- `PathLen g p q n`: there is a walk of `n` unit steps from `p` to `q`
through open in-bounds cells. -/
inductive PathLen (g : GridSpec) : Pos → Pos → ℕ → Prop
  | refl (p : Pos) (hb : g.inB p) (hw : g.wall p = false) : PathLen g p p 0
  | step {p q r : Pos} {n : ℕ} (h : g.openAdj p q) (ht : PathLen g q r n) :
      PathLen g p r (n + 1)

/-- `q` is reachable from `p` through open cells. -/
def GridSpec.reach (g : GridSpec) (p q : Pos) : Prop :=
  ∃ n, PathLen g p q n

/-- `n` is the length of a shortest open walk from `p` to `q`. -/
def IsDist (g : GridSpec) (p q : Pos) (n : ℕ) : Prop :=
  PathLen g p q n ∧ ∀ m, PathLen g p q m → n ≤ m

theorem PathLen.src_open {g : GridSpec} {p q : Pos} {n : ℕ} (h : PathLen g p q n) :
    g.inB p ∧ g.wall p = false := by
  cases h with
  | refl _ hb hw => exact ⟨hb, hw⟩
  | step h ht => exact ⟨h.1.1, h.2.1⟩

theorem PathLen.dst_open {g : GridSpec} {p q : Pos} {n : ℕ} (h : PathLen g p q n) :
    g.inB q ∧ g.wall q = false := by
  induction h with
  | refl _ hb hw => exact ⟨hb, hw⟩
  | step _ _ ih => exact ih

theorem PathLen.parity {g : GridSpec} {p q : Pos} {n : ℕ} (h : PathLen g p q n) :
    (p.1 + p.2 + n) % 2 = (q.1 + q.2) % 2 := by
  induction h with
  | refl _ _ _ => simp
  | step hadj _ ih =>
    have := adj_parity hadj.1
    omega

theorem PathLen.zero_eq {g : GridSpec} {p q : Pos} (h : PathLen g p q 0) : p = q := by
  cases h; rfl

theorem reach_refl {g : GridSpec} {p : Pos} (hb : g.inB p) (hw : g.wall p = false) :
    g.reach p p :=
  ⟨0, .refl p hb hw⟩

theorem reach_trans {g : GridSpec} {p q r : Pos} (h1 : g.reach p q) (h2 : g.reach q r) :
    g.reach p r := by
  obtain ⟨n, hn⟩ := h1
  obtain ⟨m, hm⟩ := h2
  refine ⟨n + m, ?_⟩
  induction hn with
  | refl _ _ _ => simpa using hm
  | step h _ ih => exact Nat.add_right_comm _ 1 _ ▸ PathLen.step h (ih hm)

theorem reach_symm {g : GridSpec} {p q : Pos} (h : g.reach p q) : g.reach q p := by
  obtain ⟨n, hn⟩ := h
  induction hn with
  | refl p hb hw => exact ⟨0, .refl p hb hw⟩
  | step h ht ih =>
    exact reach_trans ih ⟨1, .step (openAdj_symm h) (.refl _ h.1.1 h.2.1)⟩

theorem reach_of_openAdj {g : GridSpec} {p q : Pos} (h : g.openAdj p q) : g.reach p q :=
  ⟨1, .step h (.refl _ h.1.2.1 h.2.2)⟩

/-- Reachability with a target distinct from the source needs an open
neighbour of the target. -/
theorem reach_ne_has_nbr {g : GridSpec} {p q : Pos} (h : g.reach p q) (hne : p ≠ q) :
    ∃ c, g.openAdj c q := by
  obtain ⟨n, hn⟩ := h
  induction hn with
  | refl _ _ _ => exact absurd rfl hne
  | step hadj ht ih =>
    rename_i p' q' r' n'
    by_cases hq : q' = r'
    · subst hq; exact ⟨p', hadj⟩
    · exact ih hq

/-! ## The Dijkstra engine (`Dijkstra.js`) -/

/-- The mutable search fields of the grid's nodes during a Dijkstra run:
`distance`, `previousNode` and `isVisited` of every node. -/
structure DState where
  dist : Pos → DVal
  prev : Pos → Option Pos
  visited : Pos → Bool

/-- `sortNodesByDistance` (`Dijkstra.js` lines 332-334): stable sort of the
node array by the `distance` key. -/
def sortNodesByDistance (σ : DState) (l : List Pos) : List Pos :=
  List.insertionSort (fun a b => σ.dist a ≤ σ.dist b) l

/-- `getUnvisitedNeighbors` (`Dijkstra.js` lines 360-375, duplicated verbatim
in `AStar.js` lines 168-181): the up/down/left/right in-bounds neighbours,
filtered to those not yet visited.  Walls are not excluded here. -/
def getUnvisitedNeighbors (g : GridSpec) (visited : Pos → Bool) (p : Pos) : List Pos :=
  (nbrList g p).filter fun q => !(visited q)

/-- `updateUnvisitedNeighbors` (`Dijkstra.js` lines 343-351): for every
unvisited neighbour, unconditionally assign
`neighbor.distance = node.distance + 1` and `neighbor.previousNode = node`. -/
def updateUnvisitedNeighbors (g : GridSpec) (p : Pos) (σ : DState) : DState :=
  (getUnvisitedNeighbors g σ.visited p).foldl
    (fun τ q =>
      { τ with
        dist := setF τ.dist q (τ.dist p + 1)
        prev := setF τ.prev q (some p) })
    σ

/-- One Dijkstra loop configuration: node search fields, the `unvisitedNodes`
array, the `visitedNodesInOrder` output, and whether the loop has returned. -/
structure DMach where
  st : DState
  queue : List Pos
  acc : List Pos
  halted : Bool

/-- One iteration of the `speed === 'instant'` while-loop of `dijkstra`
(`Dijkstra.js` lines 258-288): sort by distance, shift the closest node,
skip walls, stop at `Infinity`, mark visited, record, stop at the end node,
otherwise relax the neighbours.  (The DOM class update for non-special nodes
touches no engine state and is omitted.) -/
def dijkstraStepInstant (g : GridSpec) (endNode : Pos) (m : DMach) : DMach :=
  if m.halted then m
  else
    match sortNodesByDistance m.st m.queue with
    | [] => { m with halted := true }
    | closestNode :: rest =>
      if g.wall closestNode then { m with queue := rest }
      else if m.st.dist closestNode = ⊤ then { m with halted := true }
      else
        let st1 : DState := { m.st with visited := setF m.st.visited closestNode true }
        let acc1 := m.acc ++ [closestNode]
        if closestNode = endNode then
          { st := st1, queue := rest, acc := acc1, halted := true }
        else
          { st := updateUnvisitedNeighbors g closestNode st1
            queue := rest, acc := acc1, halted := false }

/-- One iteration of the animated (`'slow'`/`'fast'`) while-loop of `dijkstra`
(`Dijkstra.js` lines 295-322).  The body is the instant body plus an awaited
`setTimeout` delay, which changes no engine state. -/
def dijkstraStepAnimated (g : GridSpec) (endNode : Pos) (m : DMach) : DMach :=
  if m.halted then m
  else
    match sortNodesByDistance m.st m.queue with
    | [] => { m with halted := true }
    | closestNode :: rest =>
      if g.wall closestNode then { m with queue := rest }
      else if m.st.dist closestNode = ⊤ then { m with halted := true }
      else
        let st1 : DState := { m.st with visited := setF m.st.visited closestNode true }
        let acc1 := m.acc ++ [closestNode]
        if closestNode = endNode then
          { st := st1, queue := rest, acc := acc1, halted := true }
        else
          { st := updateUnvisitedNeighbors g closestNode st1
            queue := rest, acc := acc1, halted := false }

/-- The node state after the reset prologue of `dijkstra` (`Dijkstra.js`
lines 242-254): every node gets `distance = Infinity`, `previousNode = null`,
`isVisited = false`, and then `startNode.distance = 0`. -/
def dijkstraInit (startNode : Pos) : DState :=
  { dist := setF (fun _ => (⊤ : DVal)) startNode 0
    prev := fun _ => none
    visited := fun _ => false }

/-- The starting machine of a `dijkstra` call: freshly reset fields and the
flat `unvisitedNodes` array. -/
def dijkstraStart (g : GridSpec) (startNode : Pos) : DMach :=
  { st := dijkstraInit startNode, queue := getAllNodes g, acc := [], halted := false }

/-- The instant variant of `dijkstra`, run to completion (each iteration
shifts one node off the array, so `rows*cols + 1` iterations always reach a
`return`). -/
def dijkstraRunInstant (g : GridSpec) (startNode endNode : Pos) : DMach :=
  (dijkstraStepInstant g endNode)^[g.rows * g.cols + 1] (dijkstraStart g startNode)

/-- The animated variant of `dijkstra`, run to completion. -/
def dijkstraRunAnimated (g : GridSpec) (startNode endNode : Pos) : DMach :=
  (dijkstraStepAnimated g endNode)^[g.rows * g.cols + 1] (dijkstraStart g startNode)

/-- The `speed` parameter of the two engines. -/
inductive Speed
  | slow
  | fast
  | instant
deriving DecidableEq

/-- `dijkstra(grid, startNode, endNode, speed)` (`Dijkstra.js` lines 239-325):
dispatches on `speed` between the instant and the animated while-loop. -/
def dijkstra (g : GridSpec) (startNode endNode : Pos) (speed : Speed) : DMach :=
  match speed with
  | .instant => dijkstraRunInstant g startNode endNode
  | _ => dijkstraRunAnimated g startNode endNode

/-- Accumulator-passing core of `getNodesInShortestPathOrder`: one iteration
per `while (currentNode !== null)` step; `fuel` bounds the number of
iterations of the source's unbounded backtracking loop (with fuel at least
the chain length the result is exact). -/
def reconstructGo (prev : Pos → Option Pos) : ℕ → Option Pos → List Pos → List Pos
  | _, none, acc => acc
  | 0, some _, acc => acc
  | fuel + 1, some c, acc => reconstructGo prev fuel (prev c) (c :: acc)

/-- `getNodesInShortestPathOrder(finishNode)` (`Dijkstra.js` lines 399-409,
duplicated in `AStar.js` lines 206-216): walk the `previousNode` pointers
from the finish node, unshifting each node, producing start→finish order. -/
def getNodesInShortestPathOrder (fuel : ℕ) (prev : Pos → Option Pos)
    (finishNode : Pos) : List Pos :=
  reconstructGo prev fuel (some finishNode) []

/-! ## The A* engine (`AStar.js`) -/

/-- `manhattanDistance` (`AStar.js` lines 126-128). -/
def manhattanDistance (p q : Pos) : ℕ :=
  ((p.1 - q.1) + (q.1 - p.1)) + ((p.2 - q.2) + (q.2 - p.2))

/-- The mutable search fields during an A* run: `distance`, `totalDistance`,
`heuristic`, `previousNode`, `isVisited`. -/
structure AState where
  dist : Pos → DVal
  total : Pos → DVal
  heur : Pos → ℕ
  prev : Pos → Option Pos
  visited : Pos → Bool

/-- `sortNodesByTotalDistance` (`AStar.js` lines 135-137). -/
def sortNodesByTotalDistance (σ : AState) (l : List Pos) : List Pos :=
  List.insertionSort (fun a b => σ.total a ≤ σ.total b) l

/-- `updateUnvisitedNeighborsAstar` (`AStar.js` lines 147-159): relax each
unvisited neighbour only when `tentativeDistance < neighbor.distance`
(strict), updating `previousNode`, `distance` and `totalDistance`. -/
def updateUnvisitedNeighborsAstar (g : GridSpec) (p finishNode : Pos)
    (σ : AState) : AState :=
  (getUnvisitedNeighbors g σ.visited p).foldl
    (fun τ q =>
      let tentativeDistance := τ.dist p + 1
      if tentativeDistance < τ.dist q then
        { τ with
          prev := setF τ.prev q (some p)
          dist := setF τ.dist q tentativeDistance
          total := setF τ.total q
            (tentativeDistance + (manhattanDistance q finishNode : DVal)) }
      else τ)
    σ

/-- One A* loop configuration. -/
structure AMach where
  st : AState
  queue : List Pos
  acc : List Pos
  halted : Bool

/-- One iteration of the `speed === 'instant'` while-loop of `astar`
(`AStar.js` lines 49-80): sort by `totalDistance`, shift, skip walls, stop at
`Infinity`, visit, record, stop at the finish node, otherwise relax. -/
def astarStepInstant (g : GridSpec) (finishNode : Pos) (m : AMach) : AMach :=
  if m.halted then m
  else
    match sortNodesByTotalDistance m.st m.queue with
    | [] => { m with halted := true }
    | closestNode :: rest =>
      if g.wall closestNode then { m with queue := rest }
      else if m.st.total closestNode = ⊤ then { m with halted := true }
      else
        let st1 : AState := { m.st with visited := setF m.st.visited closestNode true }
        let acc1 := m.acc ++ [closestNode]
        if closestNode = finishNode then
          { st := st1, queue := rest, acc := acc1, halted := true }
        else
          { st := updateUnvisitedNeighborsAstar g closestNode finishNode st1
            queue := rest, acc := acc1, halted := false }

/-- One iteration of the animated while-loop of `astar` (`AStar.js` lines
87-113); the body is the instant body plus a delay that touches no state. -/
def astarStepAnimated (g : GridSpec) (finishNode : Pos) (m : AMach) : AMach :=
  if m.halted then m
  else
    match sortNodesByTotalDistance m.st m.queue with
    | [] => { m with halted := true }
    | closestNode :: rest =>
      if g.wall closestNode then { m with queue := rest }
      else if m.st.total closestNode = ⊤ then { m with halted := true }
      else
        let st1 : AState := { m.st with visited := setF m.st.visited closestNode true }
        let acc1 := m.acc ++ [closestNode]
        if closestNode = finishNode then
          { st := st1, queue := rest, acc := acc1, halted := true }
        else
          { st := updateUnvisitedNeighborsAstar g closestNode finishNode st1
            queue := rest, acc := acc1, halted := false }

/-- The node state after the reset prologue of `astar` (`AStar.js` lines
28-45): every node except the start is reset with its heuristic recomputed
against the current finish node, and the start node's fields are then set
explicitly (`distance = 0`, `totalDistance = heuristic`). -/
def astarInit (startNode finishNode : Pos) : AState :=
  { dist := setF (fun _ => (⊤ : DVal)) startNode 0
    total := setF (fun _ => (⊤ : DVal)) startNode (manhattanDistance startNode finishNode : ℕ)
    heur := fun p => manhattanDistance p finishNode
    prev := fun _ => none
    visited := fun _ => false }

/-- The starting machine of an `astar` call. -/
def astarStart (g : GridSpec) (startNode finishNode : Pos) : AMach :=
  { st := astarInit startNode finishNode, queue := getAllNodes g, acc := [], halted := false }

/-- The instant variant of `astar`, run to completion. -/
def astarRunInstant (g : GridSpec) (startNode finishNode : Pos) : AMach :=
  (astarStepInstant g finishNode)^[g.rows * g.cols + 1] (astarStart g startNode finishNode)

/-- The animated variant of `astar`, run to completion. -/
def astarRunAnimated (g : GridSpec) (startNode finishNode : Pos) : AMach :=
  (astarStepAnimated g finishNode)^[g.rows * g.cols + 1] (astarStart g startNode finishNode)

/-- `astar(grid, startNode, finishNode, speed)` (`AStar.js` lines 22-116). -/
def astar (g : GridSpec) (startNode finishNode : Pos) (speed : Speed) : AMach :=
  match speed with
  | .instant => astarRunInstant g startNode finishNode
  | _ => astarRunAnimated g startNode finishNode

/-! ## Properties of the sorting and relaxation primitives -/

theorem PathLen.comp {g : GridSpec} {a b c : Pos} {n m : ℕ}
    (h1 : PathLen g a b n) (h2 : PathLen g b c m) : PathLen g a c (n + m) := by
  induction h1 with
  | refl _ _ _ => simpa using h2
  | step h _ ih => exact Nat.add_right_comm _ 1 _ ▸ PathLen.step h (ih h2)

theorem PathLen.snoc {g : GridSpec} {a b c : Pos} {n : ℕ}
    (h1 : PathLen g a b n) (h2 : g.openAdj b c) : PathLen g a c (n + 1) :=
  h1.comp (.step h2 (.refl _ h2.1.2.1 h2.2.2))

theorem sortD_perm (σ : DState) (l : List Pos) :
    (sortNodesByDistance σ l).Perm l :=
  List.perm_insertionSort _ l

theorem sortD_sorted (σ : DState) (l : List Pos) :
    (sortNodesByDistance σ l).Sorted fun a b => σ.dist a ≤ σ.dist b := by
  haveI : IsTotal Pos fun a b => σ.dist a ≤ σ.dist b := ⟨fun a b => le_total _ _⟩
  haveI : IsTrans Pos fun a b => σ.dist a ≤ σ.dist b :=
    ⟨fun a b c hab hbc => le_trans hab hbc⟩
  exact List.sorted_insertionSort _ l

theorem sortD_head_min {σ : DState} {l : List Pos} {c : Pos} {rest : List Pos}
    (h : sortNodesByDistance σ l = c :: rest) :
    ∀ x ∈ l, σ.dist c ≤ σ.dist x := by
  intro x hx
  have hmem : x ∈ c :: rest := h ▸ ((sortD_perm σ l).mem_iff).mpr hx
  rcases List.mem_cons.mp hmem with rfl | hmem
  · exact le_refl _
  · have hs := sortD_sorted σ l
    rw [h, List.sorted_cons] at hs
    exact hs.1 x hmem

theorem sortA_perm (σ : AState) (l : List Pos) :
    (sortNodesByTotalDistance σ l).Perm l :=
  List.perm_insertionSort _ l

theorem sortA_sorted (σ : AState) (l : List Pos) :
    (sortNodesByTotalDistance σ l).Sorted fun a b => σ.total a ≤ σ.total b := by
  haveI : IsTotal Pos fun a b => σ.total a ≤ σ.total b := ⟨fun a b => le_total _ _⟩
  haveI : IsTrans Pos fun a b => σ.total a ≤ σ.total b :=
    ⟨fun a b c hab hbc => le_trans hab hbc⟩
  exact List.sorted_insertionSort _ l

theorem sortA_head_min {σ : AState} {l : List Pos} {c : Pos} {rest : List Pos}
    (h : sortNodesByTotalDistance σ l = c :: rest) :
    ∀ x ∈ l, σ.total c ≤ σ.total x := by
  intro x hx
  have hmem : x ∈ c :: rest := h ▸ ((sortA_perm σ l).mem_iff).mpr hx
  rcases List.mem_cons.mp hmem with rfl | hmem
  · exact le_refl _
  · have hs := sortA_sorted σ l
    rw [h, List.sorted_cons] at hs
    exact hs.1 x hmem

theorem not_mem_nbrList_self (g : GridSpec) (p : Pos) : p ∉ nbrList g p := by
  obtain ⟨r, c⟩ := p
  intro h
  simp only [nbrList, List.mem_append] at h
  rcases h with ((h | h) | h) | h <;> split_ifs at h <;>
    simp only [List.mem_singleton, Prod.mk.injEq, List.not_mem_nil] at h <;> omega

theorem mem_getUnvisitedNeighbors {g : GridSpec} {V : Pos → Bool} {p q : Pos} :
    q ∈ getUnvisitedNeighbors g V p ↔ q ∈ nbrList g p ∧ V q = false := by
  simp [getUnvisitedNeighbors, List.mem_filter]

theorem not_mem_getUnvisitedNeighbors_self (g : GridSpec) (V : Pos → Bool) (p : Pos) :
    p ∉ getUnvisitedNeighbors g V p := fun h =>
  not_mem_nbrList_self g p (mem_getUnvisitedNeighbors.mp h).1

theorem nodup_getUnvisitedNeighbors (g : GridSpec) (V : Pos → Bool) (p : Pos) :
    (getUnvisitedNeighbors g V p).Nodup :=
  (nodup_nbrList g p).filter _

/-- Pointwise description of the Dijkstra relaxation fold: every listed cell
gets distance `dist c + 1` and previous node `c`; everything else is
untouched; `visited` is untouched. -/
theorem foldD_char (c : Pos) (l : List Pos) (hc : c ∉ l) (τ : DState) :
    ∀ x, ((l.foldl (fun τ q =>
        { τ with dist := setF τ.dist q (τ.dist c + 1)
                 prev := setF τ.prev q (some c) }) τ).dist x
          = if x ∈ l then τ.dist c + 1 else τ.dist x) ∧
      ((l.foldl (fun τ q =>
        { τ with dist := setF τ.dist q (τ.dist c + 1)
                 prev := setF τ.prev q (some c) }) τ).prev x
          = if x ∈ l then some c else τ.prev x) ∧
      ((l.foldl (fun τ q =>
        { τ with dist := setF τ.dist q (τ.dist c + 1)
                 prev := setF τ.prev q (some c) }) τ).visited x = τ.visited x) := by
  induction l generalizing τ with
  | nil => simp
  | cons q l ih =>
    intro x
    have hcq : c ≠ q := fun h => hc (h ▸ List.mem_cons_self q l)
    have hcl : c ∉ l := fun h => hc (List.mem_cons_of_mem q h)
    have hstep := ih hcl
      { τ with dist := setF τ.dist q (τ.dist c + 1)
               prev := setF τ.prev q (some c) }
    obtain ⟨hd, hp, hv⟩ := hstep x
    simp only [List.foldl_cons]
    refine ⟨?_, ?_, ?_⟩
    · rw [hd]
      by_cases hxl : x ∈ l
      · simp [hxl, setF_other _ _ _ _ hcq, List.mem_cons]
      · by_cases hxq : x = q
        · subst hxq
          simp [hxl, setF_other _ _ _ _ hcq]
        · simp [hxl, hxq, setF_other _ _ _ _ hxq, List.mem_cons]
    · rw [hp]
      by_cases hxl : x ∈ l
      · simp [hxl, List.mem_cons]
      · by_cases hxq : x = q
        · subst hxq
          simp [hxl]
        · simp [hxl, hxq, setF_other _ _ _ _ hxq, List.mem_cons]
    · exact hv
  
theorem updateUnvisitedNeighbors_dist (g : GridSpec) (c : Pos) (σ : DState) (x : Pos) :
    (updateUnvisitedNeighbors g c σ).dist x
      = if x ∈ getUnvisitedNeighbors g σ.visited c then σ.dist c + 1 else σ.dist x :=
  ((foldD_char c _ (not_mem_getUnvisitedNeighbors_self g σ.visited c) σ) x).1

theorem updateUnvisitedNeighbors_prev (g : GridSpec) (c : Pos) (σ : DState) (x : Pos) :
    (updateUnvisitedNeighbors g c σ).prev x
      = if x ∈ getUnvisitedNeighbors g σ.visited c then some c else σ.prev x :=
  ((foldD_char c _ (not_mem_getUnvisitedNeighbors_self g σ.visited c) σ) x).2.1

theorem updateUnvisitedNeighbors_visited (g : GridSpec) (c : Pos) (σ : DState) (x : Pos) :
    (updateUnvisitedNeighbors g c σ).visited x = σ.visited x :=
  ((foldD_char c _ (not_mem_getUnvisitedNeighbors_self g σ.visited c) σ) x).2.2

/-- Pointwise description of the A* relaxation fold: a listed cell is updated
exactly when the tentative distance strictly improves on its current one. -/
theorem foldA_char (c e : Pos) (l : List Pos) (hc : c ∉ l)
    (hnd : l.Nodup) (τ : AState) :
    ∀ x, ((l.foldl (fun τ q =>
        if τ.dist c + 1 < τ.dist q then
          { τ with prev := setF τ.prev q (some c)
                   dist := setF τ.dist q (τ.dist c + 1)
                   total := setF τ.total q
                     (τ.dist c + 1 + (manhattanDistance q e : ℕ)) }
        else τ) τ).dist x
          = if x ∈ l ∧ τ.dist c + 1 < τ.dist x then τ.dist c + 1 else τ.dist x) ∧
      ((l.foldl (fun τ q =>
        if τ.dist c + 1 < τ.dist q then
          { τ with prev := setF τ.prev q (some c)
                   dist := setF τ.dist q (τ.dist c + 1)
                   total := setF τ.total q
                     (τ.dist c + 1 + (manhattanDistance q e : ℕ)) }
        else τ) τ).prev x
          = if x ∈ l ∧ τ.dist c + 1 < τ.dist x then some c else τ.prev x) ∧
      ((l.foldl (fun τ q =>
        if τ.dist c + 1 < τ.dist q then
          { τ with prev := setF τ.prev q (some c)
                   dist := setF τ.dist q (τ.dist c + 1)
                   total := setF τ.total q
                     (τ.dist c + 1 + (manhattanDistance q e : ℕ)) }
        else τ) τ).total x
          = if x ∈ l ∧ τ.dist c + 1 < τ.dist x then
              τ.dist c + 1 + (manhattanDistance x e : ℕ) else τ.total x) ∧
      ((l.foldl (fun τ q =>
        if τ.dist c + 1 < τ.dist q then
          { τ with prev := setF τ.prev q (some c)
                   dist := setF τ.dist q (τ.dist c + 1)
                   total := setF τ.total q
                     (τ.dist c + 1 + (manhattanDistance q e : ℕ)) }
        else τ) τ).visited x = τ.visited x) ∧
      ((l.foldl (fun τ q =>
        if τ.dist c + 1 < τ.dist q then
          { τ with prev := setF τ.prev q (some c)
                   dist := setF τ.dist q (τ.dist c + 1)
                   total := setF τ.total q
                     (τ.dist c + 1 + (manhattanDistance q e : ℕ)) }
        else τ) τ).heur x = τ.heur x) := by
  induction l generalizing τ with
  | nil => simp
  | cons q l ih =>
    intro x
    have hcq : c ≠ q := fun h => hc (h ▸ List.mem_cons_self q l)
    have hcl : c ∉ l := fun h => hc (List.mem_cons_of_mem q h)
    have hql : q ∉ l := (List.nodup_cons.mp hnd).1
    have hndl : l.Nodup := (List.nodup_cons.mp hnd).2
    set τ1 := if τ.dist c + 1 < τ.dist q then
          { τ with prev := setF τ.prev q (some c)
                   dist := setF τ.dist q (τ.dist c + 1)
                   total := setF τ.total q
                     (τ.dist c + 1 + (manhattanDistance q e : ℕ)) }
        else τ with hτ1
    have hτ1c : τ1.dist c = τ.dist c := by
      rw [hτ1]; split
      · exact setF_other _ _ _ _ hcq
      · rfl
    have hτ1l : ∀ y, y ∈ l → (τ1.dist y = τ.dist y ∧ τ1.prev y = τ.prev y ∧
        τ1.total y = τ.total y) := by
      intro y hy
      have hyq : y ≠ q := fun h => hql (h ▸ hy)
      rw [hτ1]; split
      · exact ⟨setF_other _ _ _ _ hyq, setF_other _ _ _ _ hyq, setF_other _ _ _ _ hyq⟩
      · exact ⟨rfl, rfl, rfl⟩
    obtain ⟨hd, hp, ht, hv, hh⟩ := ih hcl hndl τ1 x
    simp only [List.foldl_cons, ← hτ1]
    by_cases hxl : x ∈ l
    · obtain ⟨h1, h2, h3⟩ := hτ1l x hxl
      refine ⟨?_, ?_, ?_, ?_, ?_⟩
      · rw [hd, hτ1c, h1]
        simp [hxl, List.mem_cons]
      · rw [hp, hτ1c, h1, h2]
        simp [hxl, List.mem_cons]
      · rw [ht, hτ1c, h1, h3]
        simp [hxl, List.mem_cons]
      · rw [hv, hτ1]; split <;> rfl
      · rw [hh, hτ1]; split <;> rfl
    · by_cases hxq : x = q
      · subst hxq
        refine ⟨?_, ?_, ?_, ?_, ?_⟩
        · rw [hd]
          simp only [hxl, false_and, if_false, hτ1]
          split <;> rename_i hlt
          · simp [List.mem_cons, hlt]
          · simp [List.mem_cons, hxl, hlt]
        · rw [hp]
          simp only [hxl, false_and, if_false, hτ1]
          split <;> rename_i hlt
          · simp [List.mem_cons, hlt]
          · simp [List.mem_cons, hxl, hlt]
        · rw [ht]
          simp only [hxl, false_and, if_false, hτ1]
          split <;> rename_i hlt
          · simp [List.mem_cons, hlt]
          · simp [List.mem_cons, hxl, hlt]
        · rw [hv, hτ1]; split <;> rfl
        · rw [hh, hτ1]; split <;> rfl
      · have hx1 : τ1.dist x = τ.dist x ∧ τ1.prev x = τ.prev x ∧ τ1.total x = τ.total x := by
          rw [hτ1]; split
          · exact ⟨setF_other _ _ _ _ hxq, setF_other _ _ _ _ hxq, setF_other _ _ _ _ hxq⟩
          · exact ⟨rfl, rfl, rfl⟩
        obtain ⟨h1, h2, h3⟩ := hx1
        have hmem : (x ∈ q :: l) = False := by
          simp [List.mem_cons, hxq, hxl]
        refine ⟨?_, ?_, ?_, ?_, ?_⟩
        · rw [hd, hτ1c, h1]; simp [hmem, hxl]
        · rw [hp, hτ1c, h1, h2]; simp [hmem, hxl]
        · rw [ht, hτ1c, h1, h3]; simp [hmem, hxl]
        · rw [hv, hτ1]; split <;> rfl
        · rw [hh, hτ1]; split <;> rfl

theorem updateUnvisitedNeighborsAstar_dist (g : GridSpec) (c e : Pos) (σ : AState)
    (x : Pos) :
    (updateUnvisitedNeighborsAstar g c e σ).dist x
      = if x ∈ getUnvisitedNeighbors g σ.visited c ∧ σ.dist c + 1 < σ.dist x
        then σ.dist c + 1 else σ.dist x := by
  have h := (foldA_char c e _ (not_mem_getUnvisitedNeighbors_self g σ.visited c)
    (nodup_getUnvisitedNeighbors g σ.visited c) σ) x
  exact h.1

theorem updateUnvisitedNeighborsAstar_prev (g : GridSpec) (c e : Pos) (σ : AState)
    (x : Pos) :
    (updateUnvisitedNeighborsAstar g c e σ).prev x
      = if x ∈ getUnvisitedNeighbors g σ.visited c ∧ σ.dist c + 1 < σ.dist x
        then some c else σ.prev x := by
  have h := (foldA_char c e _ (not_mem_getUnvisitedNeighbors_self g σ.visited c)
    (nodup_getUnvisitedNeighbors g σ.visited c) σ) x
  exact h.2.1

theorem updateUnvisitedNeighborsAstar_total (g : GridSpec) (c e : Pos) (σ : AState)
    (x : Pos) :
    (updateUnvisitedNeighborsAstar g c e σ).total x
      = if x ∈ getUnvisitedNeighbors g σ.visited c ∧ σ.dist c + 1 < σ.dist x
        then σ.dist c + 1 + (manhattanDistance x e : ℕ) else σ.total x := by
  have h := (foldA_char c e _ (not_mem_getUnvisitedNeighbors_self g σ.visited c)
    (nodup_getUnvisitedNeighbors g σ.visited c) σ) x
  exact h.2.2.1

theorem updateUnvisitedNeighborsAstar_visited (g : GridSpec) (c e : Pos) (σ : AState)
    (x : Pos) :
    (updateUnvisitedNeighborsAstar g c e σ).visited x = σ.visited x := by
  have h := (foldA_char c e _ (not_mem_getUnvisitedNeighbors_self g σ.visited c)
    (nodup_getUnvisitedNeighbors g σ.visited c) σ) x
  exact h.2.2.2.1

theorem updateUnvisitedNeighborsAstar_heur (g : GridSpec) (c e : Pos) (σ : AState)
    (x : Pos) :
    (updateUnvisitedNeighborsAstar g c e σ).heur x = σ.heur x := by
  have h := (foldA_char c e _ (not_mem_getUnvisitedNeighbors_self g σ.visited c)
    (nodup_getUnvisitedNeighbors g σ.visited c) σ) x
  exact h.2.2.2.2

/-- Any walk from a visited cell to an unvisited one crosses the frontier:
some visited `u` has an unvisited open neighbour `x`, and `u` is reached by a
proper prefix of the walk. -/
theorem frontier_split {g : GridSpec} {V : Pos → Bool} :
    ∀ {a c : Pos} {n : ℕ}, PathLen g a c n → V a = true → V c = false →
      ∃ u x m, V u = true ∧ V x = false ∧ g.openAdj u x ∧
        PathLen g a u m ∧ m + 1 ≤ n := by
  intro a c n h
  induction h with
  | refl p hb hw =>
    intro h1 h2
    rw [h1] at h2
    cases h2
  | step hadj ht ih =>
    rename_i p q r n'
    intro hp hr
    by_cases hq : V q = true
    · obtain ⟨u, x, m, h1, h2, h3, h4, h5⟩ := ih hq hr
      exact ⟨u, x, m + 1, h1, h2, h3, .step hadj h4, by omega⟩
    · exact ⟨p, q, 0, hp, by simpa using hq, hadj,
        .refl p hadj.1.1 hadj.2.1, by omega⟩

theorem exists_isDist {g : GridSpec} {s p : Pos} (h : g.reach s p) :
    ∃ n, IsDist g s p n := by
  classical
  obtain ⟨n, hn⟩ := h
  have hex : ∃ j, PathLen g s p j := ⟨n, hn⟩
  exact ⟨Nat.find hex, Nat.find_spec hex, fun m hm => Nat.find_min' hex hm⟩

/-! ## The Dijkstra loop invariant -/

/-- Invariant of the Dijkstra loop while it is running and the start node has
been finalized.  `cover` says every open in-bounds unvisited cell is still in
the node array; `visited_sound` says every finalized cell carries its exact
shortest distance from the start; `keyLB` says every finite distance of an
open cell is witnessed by a walk no longer than it; `frontierUB` says a cell
adjacent to the finalized region is already relaxed; `parity` is the
checkerboard invariant that tames the engine's unconditional relaxation. -/
structure DInvB (g : GridSpec) (s e : Pos) (m : DMach) : Prop where
  not_halted : m.halted = false
  queue_nodup : m.queue.Nodup
  queue_inb : ∀ p ∈ m.queue, g.inB p
  cover : ∀ p, g.inB p → g.wall p = false → m.st.visited p = false → p ∈ m.queue
  queue_unvis : ∀ p ∈ m.queue, m.st.visited p = false
  visited_iff_acc : ∀ p, m.st.visited p = true ↔ p ∈ m.acc
  acc_nodup : m.acc.Nodup
  end_not_acc : e ∉ m.acc
  visited_sound : ∀ p, m.st.visited p = true →
    g.wall p = false ∧ ∃ n : ℕ, m.st.dist p = (n : DVal) ∧ IsDist g s p n
  parity : ∀ p (n : ℕ), m.st.dist p = (n : DVal) →
    (s.1 + s.2 + n) % 2 = (p.1 + p.2) % 2
  keyLB : ∀ p (n : ℕ), g.wall p = false → m.st.dist p = (n : DVal) →
    ∃ k ≤ n, PathLen g s p k
  frontierUB : ∀ u p, m.st.visited u = true → g.openAdj u p →
    m.st.visited p = false → m.st.dist p ≤ m.st.dist u + 1
  prevProp : ∀ p u, m.st.prev p = some u → m.st.visited u = true ∧ g.adj u p ∧
    m.st.dist p = m.st.dist u + 1
  finitePrev : ∀ p, p ≠ s → m.st.dist p ≠ ⊤ → m.st.prev p ≠ none
  start_prev : m.st.prev s = none
  start_dist : m.st.dist s = 0
  visited_s : m.st.visited s = true

/-- Facts that hold once the Dijkstra loop has returned. -/
structure DFinal (g : GridSpec) (s e : Pos) (m : DMach) : Prop where
  halted : m.halted = true
  visited_iff_acc : ∀ p, m.st.visited p = true ↔ p ∈ m.acc
  acc_nodup : m.acc.Nodup
  visited_sound : ∀ p, m.st.visited p = true →
    g.wall p = false ∧ ∃ n : ℕ, m.st.dist p = (n : DVal) ∧ IsDist g s p n
  completeness : e ∈ m.acc ∨ ∀ p, g.reach s p → m.st.visited p = true
  prevProp : ∀ p u, m.st.prev p = some u → m.st.visited u = true ∧ g.adj u p ∧
    m.st.dist p = m.st.dist u + 1
  finitePrev : ∀ p, p ≠ s → m.st.dist p ≠ ⊤ → m.st.prev p ≠ none
  start_prev : m.st.prev s = none
  start_dist : m.st.dist s = 0
  last_end : e ∈ m.acc → m.acc.getLast? = some e

/-- The machine state immediately after the reset, before the start node is
popped. -/
def DPre (g : GridSpec) (s : Pos) (m : DMach) : Prop :=
  m.st = dijkstraInit s ∧ m.queue = getAllNodes g ∧ m.acc = [] ∧ m.halted = false

/-- The machine state while nothing has been visited because the start node
is unusable (a wall that has been popped and skipped, or out of bounds):
the start is not in the array and the init fields are untouched. -/
def DPreW (g : GridSpec) (s : Pos) (m : DMach) : Prop :=
  (g.wall s = true ∨ ¬ g.inB s) ∧ m.st = dijkstraInit s ∧ m.acc = [] ∧
    m.halted = false ∧ s ∉ m.queue ∧ ∀ p ∈ m.queue, g.inB p

/-- The global invariant of the Dijkstra loop. -/
def DGood (g : GridSpec) (s e : Pos) (m : DMach) : Prop :=
  DPre g s m ∨ DPreW g s m ∨ DInvB g s e m ∨ DFinal g s e m

/-- A non-wall node popped with a finite distance carries the exact shortest
distance from the start. -/
theorem DInvB.pop_exact {g : GridSpec} {s e : Pos} {m : DMach} (hB : DInvB g s e m)
    {c : Pos} {rest : List Pos}
    (hsort : sortNodesByDistance m.st m.queue = c :: rest)
    (hcw : g.wall c = false) {n : ℕ} (hdist : m.st.dist c = (n : DVal)) :
    IsDist g s c n := by
  classical
  have hcq : c ∈ m.queue :=
    (sortD_perm m.st m.queue).mem_iff.mp (hsort ▸ List.mem_cons_self c rest)
  have hcu : m.st.visited c = false := hB.queue_unvis c hcq
  obtain ⟨k, hkn, hpk⟩ := hB.keyLB c n hcw hdist
  have hex : ∃ j, PathLen g s c j := ⟨k, hpk⟩
  have hn0 : PathLen g s c (Nat.find hex) := Nat.find_spec hex
  have hmin : ∀ j, PathLen g s c j → Nat.find hex ≤ j := fun j hj => Nat.find_min' hex hj
  have hn0k : Nat.find hex ≤ k := hmin k hpk
  obtain ⟨u, x, mu, hu, hx, hux, hpu, hmu⟩ := frontier_split hn0 hB.visited_s hcu
  obtain ⟨-, ku, hku, hIs⟩ := hB.visited_sound u hu
  have hkumu : ku ≤ mu := hIs.2 mu hpu
  have hxq : x ∈ m.queue := hB.cover x hux.1.2.1 hux.2.2 hx
  have h1 : m.st.dist x ≤ m.st.dist u + 1 := hB.frontierUB u x hu hux hx
  have h2 : m.st.dist c ≤ m.st.dist x := sortD_head_min hsort x hxq
  have hchain : (n : DVal) ≤ ((ku + 1 : ℕ) : DVal) := by
    rw [← hdist]
    refine le_trans h2 (le_trans h1 ?_)
    rw [hku]
    push_cast
    exact le_refl _
  have hnku : n ≤ ku + 1 := by exact_mod_cast hchain
  have hnn0 : n = Nat.find hex := le_antisymm (by omega) (by omega)
  exact ⟨hnn0 ▸ hn0, fun j hj => hnn0 ▸ hmin j hj⟩

/-- When the head of the sorted array has distance `Infinity`, every cell
reachable from the start has already been finalized. -/
theorem DInvB.complete_top {g : GridSpec} {s e : Pos} {m : DMach} (hB : DInvB g s e m)
    {c : Pos} {rest : List Pos}
    (hsort : sortNodesByDistance m.st m.queue = c :: rest)
    (htop : m.st.dist c = ⊤) :
    ∀ p, g.reach s p → m.st.visited p = true := by
  intro p hp
  by_contra hvp
  have hvp' : m.st.visited p = false := by simpa using hvp
  obtain ⟨j, hj⟩ := hp
  obtain ⟨u, x, mu, hu, hx, hux, hpu, -⟩ := frontier_split hj hB.visited_s hvp'
  obtain ⟨-, ku, hku, -⟩ := hB.visited_sound u hu
  have h1 : m.st.dist x ≤ m.st.dist u + 1 := hB.frontierUB u x hu hux hx
  have hxq : x ∈ m.queue := hB.cover x hux.1.2.1 hux.2.2 hx
  have h2 : m.st.dist c ≤ m.st.dist x := sortD_head_min hsort x hxq
  rw [htop, hku] at *
  have htt : (⊤ : DVal) ≤ ((ku + 1 : ℕ) : DVal) := by
    refine le_trans h2 (le_trans h1 ?_)
    push_cast
    exact le_refl _
  rw [top_le_iff] at htt
  exact WithTop.coe_ne_top htt

@[simp] theorem dijkstraInit_dist (s p : Pos) :
    (dijkstraInit s).dist p = if p = s then 0 else ⊤ := by
  simp [dijkstraInit, setF]

@[simp] theorem dijkstraInit_prev (s p : Pos) : (dijkstraInit s).prev p = none := rfl

@[simp] theorem dijkstraInit_visited (s p : Pos) : (dijkstraInit s).visited p = false := rfl

theorem dval_coe_add_one (n : ℕ) : ((n : DVal) + 1) = ((n + 1 : ℕ) : DVal) := by
  push_cast
  rfl

theorem dval_coe_add_one_ne_top (n : ℕ) : ((n : DVal) + 1) ≠ ⊤ := by
  rw [dval_coe_add_one]
  exact WithTop.coe_ne_top

/-- A halted machine is a fixed point of the step function. -/
theorem dijkstraStepInstant_halted {g : GridSpec} {e : Pos} {m : DMach}
    (h : m.halted = true) : dijkstraStepInstant g e m = m := by
  simp [dijkstraStepInstant, h]

theorem dFinal_step {g : GridSpec} {s e : Pos} {m : DMach} (hF : DFinal g s e m) :
    DFinal g s e (dijkstraStepInstant g e m) := by
  rw [dijkstraStepInstant_halted hF.halted]
  exact hF

/-- In the start states, reachability from `s` forces `s` to be an open
in-bounds cell; this discharges completeness when `s` is a wall or out of
bounds. -/
theorem reach_src_open {g : GridSpec} {s p : Pos} (h : g.reach s p) :
    g.inB s ∧ g.wall s = false := by
  obtain ⟨n, hn⟩ := h
  exact hn.src_open

theorem dPreW_step {g : GridSpec} {s e : Pos} {m : DMach} (hW : DPreW g s m) :
    DPreW g s (dijkstraStepInstant g e m) ∨ DFinal g s e (dijkstraStepInstant g e m) := by
  obtain ⟨hsbad, hst, hacc, hhalt, hsq, hinb⟩ := hW
  have hfin : ∀ m' : DMach, m'.st = m.st → m'.acc = [] → m'.halted = true →
      DFinal g s e m' := by
    intro m' hst' hacc' hh'
    rw [hst] at hst'
    refine ⟨hh', ?_, ?_, ?_, ?_, ?_, ?_, ?_, ?_, ?_⟩
    · intro p; rw [hst', hacc']; simp
    · rw [hacc']; exact List.nodup_nil
    · intro p hp; rw [hst'] at hp; simp at hp
    · right
      intro p hp
      rcases hsbad with hb | hb
      · exact absurd (reach_src_open hp).2 (by simp [hb])
      · exact absurd (reach_src_open hp).1 hb
    · intro p u hp; rw [hst'] at hp; simp at hp
    · intro p hps hd
      rw [hst'] at hd
      simp [hps] at hd
    · rw [hst']; simp
    · rw [hst']; simp
    · intro hmem; rw [hacc'] at hmem; simp at hmem
  cases hsort : sortNodesByDistance m.st m.queue with
  | nil =>
    right
    refine hfin _ ?_ ?_ ?_ <;> simp [dijkstraStepInstant, hhalt, hsort, hacc]
  | cons c rest =>
    have hcq : c ∈ m.queue :=
      (sortD_perm m.st m.queue).mem_iff.mp (hsort ▸ List.mem_cons_self c rest)
    have hcs : c ≠ s := fun h => hsq (h ▸ hcq)
    have hctop : m.st.dist c = ⊤ := by rw [hst]; simp [hcs]
    by_cases hcw : g.wall c = true
    · left
      have hrest : ∀ p ∈ rest, p ∈ m.queue := by
        intro p hp
        exact (sortD_perm m.st m.queue).mem_iff.mp (hsort ▸ List.mem_cons_of_mem c hp)
      have hm' : dijkstraStepInstant g e m = { m with queue := rest } := by
        simp [dijkstraStepInstant, hhalt, hsort, hcw]
      rw [hm']
      exact ⟨hsbad, hst, hacc, hhalt, fun h => hsq (hrest s h),
        fun p hp => hinb p (hrest p hp)⟩
    · right
      have hcw' : g.wall c = false := by simpa using hcw
      refine hfin _ ?_ ?_ ?_ <;>
        simp [dijkstraStepInstant, hhalt, hsort, hcw', hctop, hacc]

theorem dInvB_mk {g : GridSpec} {s e : Pos} {st : DState} {queue acc : List Pos}
    (h2 : queue.Nodup) (h3 : ∀ p ∈ queue, g.inB p)
    (h4 : ∀ p, g.inB p → g.wall p = false → st.visited p = false → p ∈ queue)
    (h5 : ∀ p ∈ queue, st.visited p = false)
    (h6 : ∀ p, st.visited p = true ↔ p ∈ acc)
    (h7 : acc.Nodup) (h8 : e ∉ acc)
    (h9 : ∀ p, st.visited p = true →
      g.wall p = false ∧ ∃ n : ℕ, st.dist p = (n : DVal) ∧ IsDist g s p n)
    (h10 : ∀ p (n : ℕ), st.dist p = (n : DVal) →
      (s.1 + s.2 + n) % 2 = (p.1 + p.2) % 2)
    (h11 : ∀ p (n : ℕ), g.wall p = false → st.dist p = (n : DVal) →
      ∃ k ≤ n, PathLen g s p k)
    (h12 : ∀ u p, st.visited u = true → g.openAdj u p →
      st.visited p = false → st.dist p ≤ st.dist u + 1)
    (h13 : ∀ p u, st.prev p = some u → st.visited u = true ∧ g.adj u p ∧
      st.dist p = st.dist u + 1)
    (h14 : ∀ p, p ≠ s → st.dist p ≠ ⊤ → st.prev p ≠ none)
    (h15 : st.prev s = none) (h16 : st.dist s = 0) (h17 : st.visited s = true) :
    DInvB g s e ⟨st, queue, acc, false⟩ :=
  ⟨rfl, h2, h3, h4, h5, h6, h7, h8, h9, h10, h11, h12, h13, h14, h15, h16, h17⟩

theorem dFinal_mk {g : GridSpec} {s e : Pos} {st : DState} {queue acc : List Pos}
    (h2 : ∀ p, st.visited p = true ↔ p ∈ acc)
    (h3 : acc.Nodup)
    (h4 : ∀ p, st.visited p = true →
      g.wall p = false ∧ ∃ n : ℕ, st.dist p = (n : DVal) ∧ IsDist g s p n)
    (h5 : e ∈ acc ∨ ∀ p, g.reach s p → st.visited p = true)
    (h6 : ∀ p u, st.prev p = some u → st.visited u = true ∧ g.adj u p ∧
      st.dist p = st.dist u + 1)
    (h7 : ∀ p, p ≠ s → st.dist p ≠ ⊤ → st.prev p ≠ none)
    (h8 : st.prev s = none) (h9 : st.dist s = 0)
    (h10 : e ∈ acc → acc.getLast? = some e) :
    DFinal g s e ⟨st, queue, acc, true⟩ :=
  ⟨rfl, h2, h3, h4, h5, h6, h7, h8, h9, h10⟩

theorem dInvB_step {g : GridSpec} {s e : Pos} {m : DMach} (hB : DInvB g s e m) :
    DInvB g s e (dijkstraStepInstant g e m) ∨ DFinal g s e (dijkstraStepInstant g e m) := by
  cases hsort : sortNodesByDistance m.st m.queue with
  | nil =>
    right
    have hq : m.queue = [] := by
      have hlen := (sortD_perm m.st m.queue).length_eq
      rw [hsort] at hlen
      exact List.length_eq_zero.mp hlen.symm
    have hm' : dijkstraStepInstant g e m = { m with halted := true } := by
      simp [dijkstraStepInstant, hB.not_halted, hsort]
    rw [hm']
    refine ⟨rfl, hB.visited_iff_acc, hB.acc_nodup, hB.visited_sound, ?_, hB.prevProp,
      hB.finitePrev, hB.start_prev, hB.start_dist,
      fun hmem => absurd hmem hB.end_not_acc⟩
    right
    intro p hp
    by_contra hv
    have hv' : m.st.visited p = false := by simpa using hv
    obtain ⟨np, hnp⟩ := hp
    have hpb := hnp.dst_open
    have hmemq := hB.cover p hpb.1 hpb.2 hv'
    rw [hq] at hmemq
    simp at hmemq
  | cons c rest =>
    have hcq : c ∈ m.queue :=
      (sortD_perm m.st m.queue).mem_iff.mp (hsort ▸ List.mem_cons_self c rest)
    have hrest_sub : ∀ p ∈ rest, p ∈ m.queue := fun p hp =>
      (sortD_perm m.st m.queue).mem_iff.mp (hsort ▸ List.mem_cons_of_mem c hp)
    have hqueue_sorted : ∀ p ∈ m.queue, p ∈ c :: rest := fun p hp =>
      hsort ▸ (sortD_perm m.st m.queue).mem_iff.mpr hp
    have hsort_nodup : (c :: rest).Nodup := by
      rw [← hsort]
      exact ((sortD_perm m.st m.queue).nodup_iff).mpr hB.queue_nodup
    have hcrest : c ∉ rest := (List.nodup_cons.mp hsort_nodup).1
    have hrest_nodup : rest.Nodup := (List.nodup_cons.mp hsort_nodup).2
    have hcb : g.inB c := hB.queue_inb c hcq
    have hcu : m.st.visited c = false := hB.queue_unvis c hcq
    have hcacc : c ∉ m.acc := fun h => by
      have := (hB.visited_iff_acc c).mpr h
      rw [hcu] at this
      cases this
    by_cases hcw : g.wall c = true
    · -- wall skipped: only the array shrinks
      left
      have hm' : dijkstraStepInstant g e m = { m with queue := rest } := by
        simp [dijkstraStepInstant, hB.not_halted, hsort, hcw]
      rw [hm']
      refine ⟨hB.not_halted, hrest_nodup, fun p hp => hB.queue_inb p (hrest_sub p hp),
        ?_, fun p hp => hB.queue_unvis p (hrest_sub p hp), hB.visited_iff_acc,
        hB.acc_nodup, hB.end_not_acc, hB.visited_sound, hB.parity, hB.keyLB,
        hB.frontierUB, hB.prevProp, hB.finitePrev, hB.start_prev, hB.start_dist,
        hB.visited_s⟩
      intro p hpb hpw hpv
      have hpcr := hqueue_sorted p (hB.cover p hpb hpw hpv)
      rcases List.mem_cons.mp hpcr with rfl | hpr
      · rw [hpw] at hcw
        cases hcw
      · exact hpr
    · have hcw' : g.wall c = false := by simpa using hcw
      by_cases htop : m.st.dist c = ⊤
      · -- Infinity at the head: unreachable remainder, return
        right
        have hm' : dijkstraStepInstant g e m = { m with halted := true } := by
          simp [dijkstraStepInstant, hB.not_halted, hsort, hcw', htop]
        rw [hm']
        exact ⟨rfl, hB.visited_iff_acc, hB.acc_nodup, hB.visited_sound,
          Or.inr (hB.complete_top hsort htop), hB.prevProp, hB.finitePrev,
          hB.start_prev, hB.start_dist, fun hmem => absurd hmem hB.end_not_acc⟩
      · obtain ⟨n, hn⟩ := WithTop.ne_top_iff_exists.mp htop
        have hdn : m.st.dist c = (n : DVal) := hn.symm
        have hIsD : IsDist g s c n := hB.pop_exact hsort hcw' hdn
        have hsc : s ≠ c := fun h => by
          rw [← h, hB.visited_s] at hcu
          cases hcu
        have hvacc : ∀ p, setF m.st.visited c true p = true ↔ p ∈ m.acc ++ [c] := by
          intro p
          by_cases hpc : p = c
          · subst hpc
            simp [hcacc]
          · rw [setF_other _ _ _ _ hpc]
            rw [hB.visited_iff_acc]
            simp [hpc]
        have haccnd : (m.acc ++ [c]).Nodup := by
          simp [List.nodup_append, hcacc, hB.acc_nodup]
        have hvmono : ∀ u, m.st.visited u = true → setF m.st.visited c true u = true := by
          intro u hu
          by_cases huc : u = c
          · subst huc; simp
          · rwa [setF_other _ _ _ _ huc]
        by_cases hce : c = e
        · -- the end node is finalized: return
          right
          subst hce
          have hm' : dijkstraStepInstant g c m =
              ⟨{ m.st with visited := setF m.st.visited c true },
                rest, m.acc ++ [c], true⟩ := by
            simp [dijkstraStepInstant, hB.not_halted, hsort, hcw', htop]
          rw [hm']
          have hsound : ∀ p, setF m.st.visited c true p = true →
              g.wall p = false ∧ ∃ k : ℕ, m.st.dist p = (k : DVal) ∧ IsDist g s p k := by
            intro p hp
            by_cases hpc : p = c
            · subst hpc
              exact ⟨hcw', n, hdn, hIsD⟩
            · rw [setF_other _ _ _ _ hpc] at hp
              exact hB.visited_sound p hp
          have hprev : ∀ p u, m.st.prev p = some u →
              setF m.st.visited c true u = true ∧ g.adj u p ∧
                m.st.dist p = m.st.dist u + 1 := by
            intro p u hp
            obtain ⟨h1, h2, h3⟩ := hB.prevProp p u hp
            exact ⟨hvmono u h1, h2, h3⟩
          exact dFinal_mk hvacc haccnd hsound (Or.inl (by simp)) hprev
            hB.finitePrev hB.start_prev hB.start_dist
            (fun hmem => List.getLast?_concat m.acc)
        · -- ordinary finalization: relax the unvisited neighbours
          left
          set st1 : DState := { m.st with visited := setF m.st.visited c true } with hst1
          have hm' : dijkstraStepInstant g e m =
              ⟨updateUnvisitedNeighbors g c st1, rest, m.acc ++ [c], false⟩ := by
            simp [dijkstraStepInstant, hB.not_halted, hsort, hcw', htop, hce, hst1]
          rw [hm']
          have hst1d : st1.dist = m.st.dist := rfl
          have hst1p : st1.prev = m.st.prev := rfl
          set W := getUnvisitedNeighbors g st1.visited c with hWdef
          have hWmem : ∀ x, x ∈ W ↔ x ∈ nbrList g c ∧ x ≠ c ∧ m.st.visited x = false := by
            intro x
            rw [hWdef, mem_getUnvisitedNeighbors]
            constructor
            · rintro ⟨h1, h2⟩
              rw [hst1] at h2
              simp only [setF] at h2
              by_cases hxc : x = c
              · rw [if_pos hxc] at h2; cases h2
              · rw [if_neg hxc] at h2
                exact ⟨h1, hxc, h2⟩
            · rintro ⟨h1, h2, h3⟩
              refine ⟨h1, ?_⟩
              rw [hst1]
              simp only [setF]
              rw [if_neg h2]
              exact h3
          have hcWn : c ∉ W := not_mem_getUnvisitedNeighbors_self g st1.visited c
          have hsWn : s ∉ W := by
            rw [hWmem]
            rintro ⟨-, -, h⟩
            rw [hB.visited_s] at h
            cases h
          set st2 := updateUnvisitedNeighbors g c st1 with hst2
          have hd2 : ∀ x, st2.dist x
              = if x ∈ W then m.st.dist c + 1 else m.st.dist x := by
            intro x
            rw [hst2, updateUnvisitedNeighbors_dist]
          have hp2 : ∀ x, st2.prev x
              = if x ∈ W then some c else m.st.prev x := by
            intro x
            rw [hst2, updateUnvisitedNeighbors_prev]
          have hv2 : ∀ x, st2.visited x = setF m.st.visited c true x := by
            intro x
            rw [hst2, updateUnvisitedNeighbors_visited]
          have hv2' : ∀ x, st2.visited x = true ↔ x ∈ m.acc ++ [c] := by
            intro x
            rw [hv2]
            exact hvacc x
          have hv2f : ∀ x, st2.visited x = false ↔ (x ≠ c ∧ m.st.visited x = false) := by
            intro x
            rw [hv2]
            simp only [setF]
            by_cases hxc : x = c
            · subst hxc
              simp
            · rw [if_neg hxc]
              simp [hxc]
          have hadjW : ∀ x ∈ W, g.adj c x := by
            intro x hx
            exact (mem_nbrList_iff_adj hcb).mp ((hWmem x).mp hx).1
          have hWd : m.st.dist c + 1 = ((n + 1 : ℕ) : DVal) := by
            rw [hdn]
            exact dval_coe_add_one n
          refine dInvB_mk hrest_nodup (fun p hp => hB.queue_inb p (hrest_sub p hp))
            ?_ ?_ hv2' haccnd ?_ ?_ ?_ ?_ ?_ ?_ ?_ ?_ ?_ ?_
          · -- cover
            intro p hpb hpw hpv
            obtain ⟨hpc, hpv0⟩ := (hv2f p).mp hpv
            have hpcr := hqueue_sorted p (hB.cover p hpb hpw hpv0)
            rcases List.mem_cons.mp hpcr with h | h
            · exact absurd h hpc
            · exact h
          · -- queue_unvis
            intro p hp
            rw [hv2f]
            exact ⟨fun h => hcrest (h ▸ hp), hB.queue_unvis p (hrest_sub p hp)⟩
          · -- end_not_acc
            intro h
            rcases List.mem_append.mp h with h | h
            · exact hB.end_not_acc h
            · rw [List.mem_singleton] at h
              exact hce h.symm
          · -- visited_sound
            intro p hp
            rw [hv2'] at hp
            rcases List.mem_append.mp hp with hmem | hmem
            · have hpold := (hB.visited_iff_acc p).mpr hmem
              have hpW : p ∉ W := by
                rw [hWmem]
                rintro ⟨-, -, hfalse⟩
                rw [hpold] at hfalse
                cases hfalse
              obtain ⟨h1, k, h2, h3⟩ := hB.visited_sound p hpold
              refine ⟨h1, k, ?_, h3⟩
              rw [hd2, if_neg hpW]
              exact h2
            · rw [List.mem_singleton] at hmem
              subst hmem
              refine ⟨hcw', n, ?_, hIsD⟩
              rw [hd2, if_neg hcWn]
              exact hdn
          · -- parity
            intro p k hk
            rw [hd2] at hk
            by_cases hpW : p ∈ W
            · rw [if_pos hpW, hWd] at hk
              have hkk : k = n + 1 := by exact_mod_cast hk.symm
              subst hkk
              have hpar := hB.parity c n hdn
              have hflip := adj_parity (hadjW p hpW)
              omega
            · rw [if_neg hpW] at hk
              exact hB.parity p k hk
          · -- keyLB
            intro p k hpw hk
            rw [hd2] at hk
            by_cases hpW : p ∈ W
            · rw [if_pos hpW, hWd] at hk
              have hkk : k = n + 1 := by exact_mod_cast hk.symm
              subst hkk
              exact ⟨n + 1, le_refl _, hIsD.1.snoc ⟨hadjW p hpW, hcw', hpw⟩⟩
            · rw [if_neg hpW] at hk
              exact hB.keyLB p k hpw hk
          · -- frontierUB
            intro u p hu hp2v
            intro hpunv
            obtain ⟨hpc, hpv0⟩ := (hv2f p).mp hpunv
            rw [hd2, hd2]
            by_cases huc : u = c
            · subst huc
              have hpW : p ∈ W := by
                rw [hWmem]
                exact ⟨(mem_nbrList_iff_adj hcb).mpr hp2v.1, hpc, hpv0⟩
              rw [if_pos hpW, if_neg hcWn]
            · have hu0 : m.st.visited u = true := by
                rw [hv2] at hu
                rwa [setF_other _ _ _ _ huc] at hu
              have huW : u ∉ W := by
                rw [hWmem]
                rintro ⟨-, -, hfalse⟩
                rw [hu0] at hfalse
                cases hfalse
              rw [if_neg huW]
              have hfr := hB.frontierUB u p hu0 hp2v hpv0
              by_cases hpW : p ∈ W
              · rw [if_pos hpW]
                obtain ⟨-, ku, hku, -⟩ := hB.visited_sound u hu0
                have hpq : p ∈ m.queue := hB.cover p hp2v.1.2.1 hp2v.2.2 hpv0
                have hhead : m.st.dist c ≤ m.st.dist p := sortD_head_min hsort p hpq
                have hptop : m.st.dist p ≠ ⊤ := by
                  intro hpt
                  rw [hpt, hku, top_le_iff, dval_coe_add_one] at hfr
                  exact WithTop.coe_ne_top hfr
                obtain ⟨k, hk⟩ := WithTop.ne_top_iff_exists.mp hptop
                have hdk : m.st.dist p = (k : DVal) := hk.symm
                have hnk : n ≤ k := by
                  rw [hdn, hdk] at hhead
                  exact_mod_cast hhead
                have hpar1 := hB.parity c n hdn
                have hpar2 := hB.parity p k hdk
                have hflip := adj_parity (hadjW p hpW)
                have hlt : n + 1 ≤ k := by omega
                calc m.st.dist c + 1 = ((n + 1 : ℕ) : DVal) := hWd
                  _ ≤ ((k : ℕ) : DVal) := by exact_mod_cast hlt
                  _ = m.st.dist p := hdk.symm
                  _ ≤ m.st.dist u + 1 := hfr
              · rw [if_neg hpW]
                exact hfr
          · -- prevProp
            intro p u hp
            rw [hp2] at hp
            by_cases hpW : p ∈ W
            · rw [if_pos hpW] at hp
              cases hp
              refine ⟨?_, hadjW p hpW, ?_⟩
              · rw [hv2]
                simp
              · rw [hd2, hd2, if_pos hpW, if_neg hcWn]
            · rw [if_neg hpW] at hp
              obtain ⟨h1, h2, h3⟩ := hB.prevProp p u hp
              have huW : u ∉ W := by
                rw [hWmem]
                rintro ⟨-, -, hfalse⟩
                rw [h1] at hfalse
                cases hfalse
              refine ⟨?_, h2, ?_⟩
              · rw [hv2]
                exact hvmono u h1
              · rw [hd2, hd2, if_neg hpW, if_neg huW]
                exact h3
          · -- finitePrev
            intro p hps hd
            rw [hp2]
            by_cases hpW : p ∈ W
            · rw [if_pos hpW]
              exact Option.some_ne_none c
            · rw [if_neg hpW]
              rw [hd2, if_neg hpW] at hd
              exact hB.finitePrev p hps hd
          · -- start_prev
            rw [hp2, if_neg hsWn]
            exact hB.start_prev
          · -- start_dist
            rw [hd2, if_neg hsWn]
            exact hB.start_dist
          · -- visited_s
            rw [hv2]
            rw [setF_other _ _ _ _ hsc]
            exact hB.visited_s

theorem dPre_step {g : GridSpec} {s e : Pos} {m : DMach} (hP : DPre g s m) :
    DGood g s e (dijkstraStepInstant g e m) := by
  obtain ⟨hst, hq, hacc, hhalt⟩ := hP
  have hqnd : m.queue.Nodup := by rw [hq]; exact nodup_getAllNodes g
  have hfin0 : ∀ m' : DMach, m'.st = dijkstraInit s → m'.acc = [] → m'.halted = true →
      (g.wall s = true ∨ ¬ g.inB s) → DFinal g s e m' := by
    intro m' hst' hacc' hh' hbad
    refine ⟨hh', ?_, ?_, ?_, ?_, ?_, ?_, ?_, ?_, ?_⟩
    · intro p; rw [hst', hacc']; simp
    · rw [hacc']; exact List.nodup_nil
    · intro p hp; rw [hst'] at hp; simp at hp
    · right
      intro p hp
      rcases hbad with hb | hb
      · exact absurd (reach_src_open hp).2 (by simp [hb])
      · exact absurd (reach_src_open hp).1 hb
    · intro p u hp; rw [hst'] at hp; simp at hp
    · intro p hps hd
      rw [hst'] at hd
      simp [hps] at hd
    · rw [hst']; simp
    · rw [hst']; simp
    · intro hmem; rw [hacc'] at hmem; simp at hmem
  cases hsort : sortNodesByDistance m.st m.queue with
  | nil =>
    -- empty grid: the loop returns at once
    have hqe : m.queue = [] := by
      have hlen := (sortD_perm m.st m.queue).length_eq
      rw [hsort] at hlen
      exact List.length_eq_zero.mp hlen.symm
    have hnb : ¬ g.inB s := by
      intro hb
      have : s ∈ m.queue := by rw [hq]; exact (mem_getAllNodes g s).mpr hb
      rw [hqe] at this
      simp at this
    right; right; right
    have hm' : dijkstraStepInstant g e m = { m with halted := true } := by
      simp [dijkstraStepInstant, hhalt, hsort]
    rw [hm']
    exact hfin0 _ hst hacc rfl (Or.inr hnb)
  | cons c rest =>
    have hcq : c ∈ m.queue :=
      (sortD_perm m.st m.queue).mem_iff.mp (hsort ▸ List.mem_cons_self c rest)
    have hrest_sub : ∀ p ∈ rest, p ∈ m.queue := fun p hp =>
      (sortD_perm m.st m.queue).mem_iff.mp (hsort ▸ List.mem_cons_of_mem c hp)
    have hqueue_sorted : ∀ p ∈ m.queue, p ∈ c :: rest := fun p hp =>
      hsort ▸ (sortD_perm m.st m.queue).mem_iff.mpr hp
    have hsort_nodup : (c :: rest).Nodup := by
      rw [← hsort]
      exact ((sortD_perm m.st m.queue).nodup_iff).mpr hqnd
    have hcrest : c ∉ rest := (List.nodup_cons.mp hsort_nodup).1
    have hrest_nodup : rest.Nodup := (List.nodup_cons.mp hsort_nodup).2
    have hrest_inb : ∀ p ∈ rest, g.inB p := by
      intro p hp
      have := hrest_sub p hp
      rw [hq] at this
      exact (mem_getAllNodes g p).mp this
    by_cases hs : g.inB s
    · -- the start node is popped first
      have hsq : s ∈ m.queue := by rw [hq]; exact (mem_getAllNodes g s).mpr hs
      have hds : m.st.dist s = 0 := by rw [hst]; simp
      have hcs : c = s := by
        by_contra hne
        have hdc : m.st.dist c = ⊤ := by
          rw [hst]
          simp [hne]
        have hle := sortD_head_min hsort s hsq
        rw [hdc, hds] at hle
        exact absurd hle (by decide)
      rw [hcs] at hsort hcq hqueue_sorted hsort_nodup hcrest
      have hsrest : s ∉ rest := hcrest
      by_cases hsw : g.wall s = true
      · -- wall start: skipped, nothing happens
        right; left
        have hm' : dijkstraStepInstant g e m = { m with queue := rest } := by
          simp [dijkstraStepInstant, hhalt, hsort, hsw]
        rw [hm']
        exact ⟨Or.inl hsw, hst, hacc, hhalt, hsrest, hrest_inb⟩
      · have hsw' : g.wall s = false := by simpa using hsw
        have hds' : m.st.dist s ≠ ⊤ := by rw [hds]; decide
        have hIs0 : IsDist g s s 0 := ⟨.refl s hs hsw', fun j _ => Nat.zero_le j⟩
        by_cases hse : s = e
        · -- start equals end: trivially done after one pop
          right; right; right
          subst hse
          have hm' : dijkstraStepInstant g s m =
              ⟨{ m.st with visited := setF m.st.visited s true }, rest,
                m.acc ++ [s], true⟩ := by
            simp [dijkstraStepInstant, hhalt, hsort, hsw', hds']
          rw [hm']
          have hvx : ∀ x, setF m.st.visited s true x = true ↔ x ∈ m.acc ++ [s] := by
            intro x
            rw [hst, hacc]
            by_cases hxs : x = s
            · subst hxs; simp
            · rw [setF_other _ _ _ _ hxs]
              simp [hxs]
          refine dFinal_mk hvx (by rw [hacc]; simp) ?_ (Or.inl (by simp)) ?_ ?_ ?_ ?_
            (fun hmem => List.getLast?_concat m.acc)
          · intro p hp
            rw [hvx, hacc] at hp
            simp only [List.nil_append, List.mem_singleton] at hp
            subst hp
            exact ⟨hsw', 0, by rw [hst]; simp, hIs0⟩
          · intro p u hp
            rw [hst] at hp
            simp at hp
          · intro p hps hd
            rw [hst] at hd
            simp [hps] at hd
          · rw [hst]; simp
          · rw [hst]; simp
        · -- start visited, neighbours relaxed: the main phase begins
          right; right; left
          set st1 : DState := { m.st with visited := setF m.st.visited s true } with hst1
          have hm' : dijkstraStepInstant g e m =
              ⟨updateUnvisitedNeighbors g s st1, rest, m.acc ++ [s], false⟩ := by
            simp [dijkstraStepInstant, hhalt, hsort, hsw', hds', hse, hst1]
          rw [hm', hacc]
          have hv1 : ∀ x, st1.visited x = true ↔ x = s := by
            intro x
            rw [hst1]
            by_cases hxs : x = s
            · subst hxs; simp [hst]
            · simp only [hst]
              rw [setF_other _ _ _ _ hxs]
              simp [hxs]
          set W := getUnvisitedNeighbors g st1.visited s with hWdef
          have hWmem : ∀ x, x ∈ W ↔ x ∈ nbrList g s ∧ x ≠ s := by
            intro x
            rw [hWdef, mem_getUnvisitedNeighbors]
            constructor
            · rintro ⟨h1, h2⟩
              refine ⟨h1, fun hx => ?_⟩
              rw [(hv1 x).mpr hx] at h2
              cases h2
            · rintro ⟨h1, h2⟩
              refine ⟨h1, ?_⟩
              by_cases hvx : st1.visited x = true
              · exact absurd ((hv1 x).mp hvx) h2
              · simpa using hvx
          have hsWn : s ∉ W := fun h => ((hWmem s).mp h).2 rfl
          set st2 := updateUnvisitedNeighbors g s st1 with hst2
          have hst1d : st1.dist = m.st.dist := rfl
          have hd2 : ∀ x, st2.dist x
              = if x ∈ W then m.st.dist s + 1 else m.st.dist x := by
            intro x
            rw [hst2, updateUnvisitedNeighbors_dist]
          have hp2 : ∀ x, st2.prev x
              = if x ∈ W then some s else m.st.prev x := by
            intro x
            rw [hst2, updateUnvisitedNeighbors_prev]
          have hv2 : ∀ x, st2.visited x = st1.visited x :=
            fun x => updateUnvisitedNeighbors_visited g s st1 x
          have hone : m.st.dist s + 1 = ((1 : ℕ) : DVal) := by
            rw [hds]
            decide
          have hadjW : ∀ x ∈ W, g.adj s x := by
            intro x hx
            exact (mem_nbrList_iff_adj hs).mp ((hWmem x).mp hx).1
          have hopenW : ∀ x ∈ W, g.wall x = false → g.openAdj s x := by
            intro x hx hxw
            exact ⟨hadjW x hx, hsw', hxw⟩
          refine dInvB_mk hrest_nodup hrest_inb ?_ ?_ ?_ (by simp) ?_ ?_ ?_ ?_ ?_ ?_
            ?_ ?_ ?_ ?_
          · -- cover
            intro p hpb hpw hpv
            have hps : p ≠ s := by
              intro h
              rw [hv2, (hv1 p).mpr h] at hpv
              cases hpv
            have hpq : p ∈ m.queue := by rw [hq]; exact (mem_getAllNodes g p).mpr hpb
            rcases List.mem_cons.mp (hqueue_sorted p hpq) with h | h
            · exact absurd h hps
            · exact h
          · -- queue_unvis
            intro p hp
            have hps : p ≠ s := fun h => hsrest (h ▸ hp)
            rw [hv2]
            by_cases hvx : st1.visited p = true
            · exact absurd ((hv1 p).mp hvx) hps
            · simpa using hvx
          · -- visited_iff_acc
            intro p
            rw [hv2, hv1]
            simp
          · -- end_not_acc
            intro h
            simp only [List.nil_append, List.mem_singleton] at h
            exact hse h.symm
          · -- visited_sound
            intro p hp
            rw [hv2, hv1] at hp
            subst hp
            refine ⟨hsw', 0, ?_, hIs0⟩
            rw [hd2, if_neg hsWn, hds]
            rfl
          · -- parity
            intro p k hk
            rw [hd2] at hk
            by_cases hpW : p ∈ W
            · rw [if_pos hpW, hone] at hk
              have hkk : k = 1 := by exact_mod_cast hk.symm
              subst hkk
              have hflip := adj_parity (hadjW p hpW)
              omega
            · rw [if_neg hpW, hst, dijkstraInit_dist] at hk
              by_cases hps : p = s
              · rw [if_pos hps] at hk
                have hkk : k = 0 := by exact_mod_cast hk.symm
                subst hkk
                rw [hps]
                omega
              · rw [if_neg hps] at hk
                exact absurd hk.symm WithTop.coe_ne_top
          · -- keyLB
            intro p k hpw hk
            rw [hd2] at hk
            by_cases hpW : p ∈ W
            · rw [if_pos hpW, hone] at hk
              have hkk : k = 1 := by exact_mod_cast hk.symm
              subst hkk
              exact ⟨1, le_refl 1, .step (hopenW p hpW hpw) (.refl p (hadjW p hpW).2.1 hpw)⟩
            · rw [if_neg hpW, hst, dijkstraInit_dist] at hk
              by_cases hps : p = s
              · rw [if_pos hps] at hk
                have hkk : k = 0 := by exact_mod_cast hk.symm
                subst hkk
                rw [hps]
                exact ⟨0, le_refl 0, .refl s hs hsw'⟩
              · rw [if_neg hps] at hk
                exact absurd hk.symm WithTop.coe_ne_top
          · -- frontierUB
            intro u p hu hadj hp
            rw [hv2] at hu hp
            have hus : u = s := (hv1 u).mp hu
            rw [hus] at hadj ⊢
            have hps : p ≠ s := by
              intro h
              rw [(hv1 p).mpr h] at hp
              cases hp
            have hpW : p ∈ W := by
              rw [hWmem]
              exact ⟨(mem_nbrList_iff_adj hs).mpr hadj.1, hps⟩
            rw [hd2, hd2, if_pos hpW, if_neg hsWn]
          · -- prevProp
            intro p u hp
            rw [hp2] at hp
            by_cases hpW : p ∈ W
            · rw [if_pos hpW] at hp
              have hus : u = s := (Option.some.inj hp).symm
              rw [hus]
              refine ⟨(hv2 s).symm ▸ (hv1 s).mpr rfl, hadjW p hpW, ?_⟩
              rw [hd2, hd2, if_pos hpW, if_neg hsWn]
            · rw [if_neg hpW, hst, dijkstraInit_prev] at hp
              cases hp
          · -- finitePrev
            intro p hps hd
            rw [hp2]
            by_cases hpW : p ∈ W
            · rw [if_pos hpW]
              exact Option.some_ne_none s
            · rw [if_neg hpW]
              rw [hd2, if_neg hpW, hst, dijkstraInit_dist, if_neg hps] at hd
              exact absurd rfl hd
          · -- start_prev
            rw [hp2, if_neg hsWn, hst]
            simp
          · -- start_dist
            rw [hd2, if_neg hsWn]
            exact hds
          · -- visited_s
            rw [hv2, hv1]
    · -- the start node is out of bounds: nothing is ever visited
      have hsnq : s ∉ m.queue := by
        rw [hq]
        intro h
        exact hs ((mem_getAllNodes g s).mp h)
      have hcs : c ≠ s := fun h => hsnq (h ▸ hcq)
      have hdc : m.st.dist c = ⊤ := by
        rw [hst]
        simp [hcs]
      by_cases hcw : g.wall c = true
      · right; left
        have hm' : dijkstraStepInstant g e m = { m with queue := rest } := by
          simp [dijkstraStepInstant, hhalt, hsort, hcw]
        rw [hm']
        refine ⟨Or.inr hs, hst, hacc, hhalt, fun h => hsnq (hrest_sub s h), hrest_inb⟩
      · right; right; right
        have hcw' : g.wall c = false := by simpa using hcw
        have hm' : dijkstraStepInstant g e m = { m with halted := true } := by
          simp [dijkstraStepInstant, hhalt, hsort, hcw', hdc]
        rw [hm']
        exact hfin0 _ hst hacc rfl (Or.inr hs)

theorem dGood_step {g : GridSpec} {s e : Pos} {m : DMach} (h : DGood g s e m) :
    DGood g s e (dijkstraStepInstant g e m) := by
  rcases h with h | h | h | h
  · exact dPre_step h
  · rcases dPreW_step (e := e) h with h' | h'
    · exact Or.inr (Or.inl h')
    · exact Or.inr (Or.inr (Or.inr h'))
  · rcases dInvB_step h with h' | h'
    · exact Or.inr (Or.inr (Or.inl h'))
    · exact Or.inr (Or.inr (Or.inr h'))
  · exact Or.inr (Or.inr (Or.inr (dFinal_step h)))

theorem dGood_iterate {g : GridSpec} {s e : Pos} (k : ℕ) {m : DMach}
    (h : DGood g s e m) : DGood g s e ((dijkstraStepInstant g e)^[k] m) := by
  induction k generalizing m with
  | zero => exact h
  | succ k ih =>
    rw [Function.iterate_succ_apply]
    exact ih (dGood_step h)

theorem dStep_halted_fix {g : GridSpec} {e : Pos} (k : ℕ) {m : DMach}
    (h : m.halted = true) : (dijkstraStepInstant g e)^[k] m = m := by
  induction k with
  | zero => rfl
  | succ k ih =>
    rw [Function.iterate_succ_apply, dijkstraStepInstant_halted h, ih]

theorem dStep_progress (g : GridSpec) (e : Pos) (m : DMach) :
    (dijkstraStepInstant g e m).halted = true ∨
      (dijkstraStepInstant g e m).queue.length < m.queue.length := by
  by_cases hh : m.halted = true
  · left
    rw [dijkstraStepInstant_halted hh]
    exact hh
  · have hh' : m.halted = false := by simpa using hh
    cases hsort : sortNodesByDistance m.st m.queue with
    | nil =>
      left
      simp [dijkstraStepInstant, hh', hsort]
    | cons c rest =>
      have hlen : m.queue.length = rest.length + 1 := by
        have := (sortD_perm m.st m.queue).length_eq
        rw [hsort] at this
        simpa using this.symm
      by_cases hcw : g.wall c = true
      · right
        simp only [dijkstraStepInstant, hh', Bool.false_eq_true, if_false, hsort, hcw,
          if_true]
        omega
      · have hcw' : g.wall c = false := by simpa using hcw
        by_cases htop : m.st.dist c = ⊤
        · left
          simp [dijkstraStepInstant, hh', hsort, hcw', htop]
        · by_cases hce : c = e
          · left
            subst hce
            simp [dijkstraStepInstant, hh', hsort, hcw', htop]
          · right
            have hm' : dijkstraStepInstant g e m =
                ⟨updateUnvisitedNeighbors g c
                    { m.st with visited := setF m.st.visited c true },
                  rest, m.acc ++ [c], false⟩ := by
              simp [dijkstraStepInstant, hh', hsort, hcw', htop, hce]
            rw [hm']
            show rest.length < m.queue.length
            omega

theorem dStep_iterate_halts (g : GridSpec) (e : Pos) :
    ∀ (k : ℕ) (m : DMach), ((dijkstraStepInstant g e)^[k] m).halted = true ∨
      ((dijkstraStepInstant g e)^[k] m).queue.length + k ≤ m.queue.length := by
  intro k
  induction k with
  | zero => intro m; right; simp
  | succ k ih =>
    intro m
    rw [Function.iterate_succ_apply]
    rcases dStep_progress g e m with h | h
    · left
      rw [dStep_halted_fix k h]
      exact h
    · rcases ih (dijkstraStepInstant g e m) with h' | h'
      · exact Or.inl h'
      · right
        omega

theorem length_getAllNodes (g : GridSpec) : (getAllNodes g).length = g.rows * g.cols := by
  rw [getAllNodes_eq_product]
  simp [List.length_product]

/-- The Dijkstra run always returns within `rows*cols + 1` iterations, and the
final machine satisfies the exit facts. -/
theorem dijkstraRunInstant_final (g : GridSpec) (s e : Pos) :
    DFinal g s e (dijkstraRunInstant g s e) := by
  have hgood : DGood g s e (dijkstraRunInstant g s e) := by
    unfold dijkstraRunInstant
    exact dGood_iterate _ (Or.inl ⟨rfl, rfl, rfl, rfl⟩)
  have hhalt : (dijkstraRunInstant g s e).halted = true := by
    unfold dijkstraRunInstant
    rcases dStep_iterate_halts g e (g.rows * g.cols + 1) (dijkstraStart g s) with h | h
    · exact h
    · have : (dijkstraStart g s).queue.length = g.rows * g.cols := by
        unfold dijkstraStart
        exact length_getAllNodes g
      omega
  rcases hgood with h | h | h | h
  · rw [h.2.2.2] at hhalt
    cases hhalt
  · rw [h.2.2.2.1] at hhalt
    cases hhalt
  · rw [h.not_halted] at hhalt
    cases hhalt
  · exact h

/-- The instant and animated loop bodies are the same function on the engine
state: the animated body only adds a delay and a DOM update, neither of which
touches nodes, array or output. -/
theorem dijkstraStep_eq (g : GridSpec) (e : Pos) :
    dijkstraStepInstant g e = dijkstraStepAnimated g e := rfl

theorem astarStep_eq (g : GridSpec) (e : Pos) :
    astarStepInstant g e = astarStepAnimated g e := rfl

theorem dval_add_one_eq_coe {a : DVal} {n : ℕ} (h : a + 1 = (n : DVal)) :
    ∃ k : ℕ, a = (k : DVal) ∧ k + 1 = n := by
  have ha : a ≠ ⊤ := by
    intro ht
    rw [ht, top_add] at h
    exact WithTop.coe_ne_top h.symm
  obtain ⟨k, hk⟩ := WithTop.ne_top_iff_exists.mp ha
  refine ⟨k, hk.symm, ?_⟩
  have hk' : ((k : ℕ) : DVal) = a := hk
  rw [← hk', ← Nat.cast_add_one] at h
  exact Nat.cast_inj.mp h

/-- What the `previousNode` walk of `getNodesInShortestPathOrder` produces,
given the back-pointer facts that hold at the end of either search: a list of
`n + 1` finalized cells from the start node to the finish node, consecutive
cells 4-adjacent and open. -/
theorem reconstruct_spec {g : GridSpec} {s : Pos} {dist : Pos → DVal}
    {prev : Pos → Option Pos} {visited : Pos → Bool}
    (hprev : ∀ p u, prev p = some u → visited u = true ∧ g.adj u p ∧
      dist p = dist u + 1)
    (hfin : ∀ p, p ≠ s → dist p ≠ ⊤ → prev p ≠ none)
    (hvis : ∀ p, visited p = true → g.wall p = false)
    (hsdist : dist s = 0) :
    ∀ (n : ℕ) (t : Pos), visited t = true → dist t = (n : DVal) →
      ∀ fuel, n + 1 ≤ fuel → ∀ acc,
        ∃ L, reconstructGo prev fuel (some t) acc = L ++ acc ∧
          L.head? = some s ∧ L.getLast? = some t ∧ L.length = n + 1 ∧
          L.Chain' g.openAdj ∧ ∀ p ∈ L, visited p = true := by
  intro n
  induction n with
  | zero =>
    intro t hvt hdt fuel hfuel acc
    obtain ⟨f, rfl⟩ : ∃ f, fuel = f + 1 := ⟨fuel - 1, by omega⟩
    have hpt : prev t = none := by
      cases hpt : prev t with
      | none => rfl
      | some u =>
        obtain ⟨-, -, hd⟩ := hprev t u hpt
        rw [hdt] at hd
        obtain ⟨k, -, hk⟩ := dval_add_one_eq_coe hd.symm
        omega
    have hts : t = s := by
      by_contra hne
      exact hfin t hne (by rw [hdt]; exact WithTop.coe_ne_top) hpt
    refine ⟨[t], ?_, ?_, ?_, rfl, ?_, ?_⟩
    · show reconstructGo prev f (prev t) (t :: acc) = [t] ++ acc
      rw [hpt]
      cases f <;> rfl
    · rw [hts]; rfl
    · rfl
    · exact List.chain'_singleton t
    · intro p hp
      rw [List.mem_singleton] at hp
      exact hp ▸ hvt
  | succ n ih =>
    intro t hvt hdt fuel hfuel acc
    obtain ⟨f, rfl⟩ : ∃ f, fuel = f + 1 := ⟨fuel - 1, by omega⟩
    cases hpt : prev t with
    | none =>
      have hts : t = s := by
        by_contra hne
        exact hfin t hne (by rw [hdt]; exact WithTop.coe_ne_top) hpt
      rw [hts, hsdist] at hdt
      have : (n + 1 : ℕ) = 0 := by exact_mod_cast hdt.symm
      omega
    | some u =>
      obtain ⟨hvu, hadj, hd⟩ := hprev t u hpt
      have hdu : dist u = (n : DVal) := by
        rw [hdt] at hd
        obtain ⟨k, hk1, hk2⟩ := dval_add_one_eq_coe hd.symm
        have : k = n := by omega
        rw [hk1, this]
      obtain ⟨L', hEq, hh, hl, hlen, hch, hmem⟩ :=
        ih u hvu hdu f (by omega) (t :: acc)
      obtain ⟨a, L'', rfl⟩ : ∃ a L'', L' = a :: L'' := by
        cases L' with
        | nil => cases hh
        | cons a L'' => exact ⟨a, L'', rfl⟩
      refine ⟨(a :: L'') ++ [t], ?_, ?_, ?_, ?_, ?_, ?_⟩
      · show reconstructGo prev f (prev t) (t :: acc) = (a :: L'') ++ [t] ++ acc
        rw [hpt, hEq]
        simp
      · simpa using hh
      · exact List.getLast?_concat (a :: L'')
      · simp at hlen ⊢
        omega
      · rw [List.chain'_append]
        refine ⟨hch, List.chain'_singleton t, ?_⟩
        intro x hx y hy
        rw [hl] at hx
        cases hx
        rw [show ([t] : List Pos).head? = some t from rfl] at hy
        cases hy
        exact ⟨hadj, hvis u hvu, hvis t hvt⟩
      · intro p hp
        rcases List.mem_append.mp hp with hp | hp
        · exact hmem p hp
        · rw [List.mem_singleton] at hp
          exact hp ▸ hvt

/-! ## The A* loop invariant

`astar` needs only the visited-set characterization (C6) and the back-pointer
facts (C8), not optimality, so its invariant is lighter than Dijkstra's. -/

@[simp] theorem astarInit_dist (s e p : Pos) :
    (astarInit s e).dist p = if p = s then 0 else ⊤ := by
  simp [astarInit, setF]

@[simp] theorem astarInit_total (s e p : Pos) :
    (astarInit s e).total p
      = if p = s then ((manhattanDistance s e : ℕ) : DVal) else ⊤ := by
  simp [astarInit, setF]

@[simp] theorem astarInit_prev (s e p : Pos) : (astarInit s e).prev p = none := rfl

@[simp] theorem astarInit_visited (s e p : Pos) : (astarInit s e).visited p = false := rfl

theorem dval_add_coe_ne_top {a : DVal} (h : a ≠ ⊤) (k : ℕ) :
    a + (k : DVal) ≠ ⊤ := by
  rw [WithTop.add_ne_top]
  exact ⟨h, WithTop.natCast_ne_top k⟩

/-- The A* loop invariant during the main phase. -/
structure AInvB (g : GridSpec) (s e : Pos) (m : AMach) : Prop where
  not_halted : m.halted = false
  queue_nodup : m.queue.Nodup
  queue_inb : ∀ p ∈ m.queue, g.inB p
  cover : ∀ p, g.inB p → g.wall p = false → m.st.visited p = false → p ∈ m.queue
  queue_unvis : ∀ p ∈ m.queue, m.st.visited p = false
  visited_iff_acc : ∀ p, m.st.visited p = true ↔ p ∈ m.acc
  acc_nodup : m.acc.Nodup
  end_not_acc : e ∉ m.acc
  visited_sound : ∀ p, m.st.visited p = true →
    g.wall p = false ∧ m.st.dist p ≠ ⊤ ∧ g.reach s p
  dist_sound : ∀ p, g.wall p = false → m.st.dist p ≠ ⊤ → g.reach s p
  total_link : ∀ p, m.st.total p = m.st.dist p + (manhattanDistance p e : ℕ)
  frontier_fin : ∀ u p, m.st.visited u = true → g.openAdj u p →
    m.st.visited p = false → m.st.dist p ≠ ⊤
  prevProp : ∀ p u, m.st.prev p = some u → m.st.visited u = true ∧ g.adj u p ∧
    m.st.dist p = m.st.dist u + 1
  finitePrev : ∀ p, p ≠ s → m.st.dist p ≠ ⊤ → m.st.prev p ≠ none
  start_prev : m.st.prev s = none
  start_dist : m.st.dist s = 0
  visited_s : m.st.visited s = true

/-- Facts holding once the A* loop has returned. -/
structure AFinal (g : GridSpec) (s e : Pos) (m : AMach) : Prop where
  halted : m.halted = true
  visited_iff_acc : ∀ p, m.st.visited p = true ↔ p ∈ m.acc
  acc_nodup : m.acc.Nodup
  visited_sound : ∀ p, m.st.visited p = true →
    g.wall p = false ∧ m.st.dist p ≠ ⊤ ∧ g.reach s p
  completeness : e ∈ m.acc ∨ ∀ p, g.reach s p → m.st.visited p = true
  prevProp : ∀ p u, m.st.prev p = some u → m.st.visited u = true ∧ g.adj u p ∧
    m.st.dist p = m.st.dist u + 1
  finitePrev : ∀ p, p ≠ s → m.st.dist p ≠ ⊤ → m.st.prev p ≠ none
  start_prev : m.st.prev s = none
  start_dist : m.st.dist s = 0
  last_end : e ∈ m.acc → m.acc.getLast? = some e

/-- The A* machine immediately after the reset. -/
def APre (g : GridSpec) (s e : Pos) (m : AMach) : Prop :=
  m.st = astarInit s e ∧ m.queue = getAllNodes g ∧ m.acc = [] ∧ m.halted = false

/-- The A* machine while nothing has been visited because the start node is
unusable. -/
def APreW (g : GridSpec) (s e : Pos) (m : AMach) : Prop :=
  (g.wall s = true ∨ ¬ g.inB s) ∧ m.st = astarInit s e ∧ m.acc = [] ∧
    m.halted = false ∧ s ∉ m.queue ∧ ∀ p ∈ m.queue, g.inB p

/-- The global invariant of the A* loop. -/
def AGood (g : GridSpec) (s e : Pos) (m : AMach) : Prop :=
  APre g s e m ∨ APreW g s e m ∨ AInvB g s e m ∨ AFinal g s e m

theorem aInvB_mk {g : GridSpec} {s e : Pos} {st : AState} {queue acc : List Pos}
    (h2 : queue.Nodup) (h3 : ∀ p ∈ queue, g.inB p)
    (h4 : ∀ p, g.inB p → g.wall p = false → st.visited p = false → p ∈ queue)
    (h5 : ∀ p ∈ queue, st.visited p = false)
    (h6 : ∀ p, st.visited p = true ↔ p ∈ acc)
    (h7 : acc.Nodup) (h8 : e ∉ acc)
    (h9 : ∀ p, st.visited p = true →
      g.wall p = false ∧ st.dist p ≠ ⊤ ∧ g.reach s p)
    (h10 : ∀ p, g.wall p = false → st.dist p ≠ ⊤ → g.reach s p)
    (h11 : ∀ p, st.total p = st.dist p + (manhattanDistance p e : ℕ))
    (h12 : ∀ u p, st.visited u = true → g.openAdj u p →
      st.visited p = false → st.dist p ≠ ⊤)
    (h13 : ∀ p u, st.prev p = some u → st.visited u = true ∧ g.adj u p ∧
      st.dist p = st.dist u + 1)
    (h14 : ∀ p, p ≠ s → st.dist p ≠ ⊤ → st.prev p ≠ none)
    (h15 : st.prev s = none) (h16 : st.dist s = 0) (h17 : st.visited s = true) :
    AInvB g s e ⟨st, queue, acc, false⟩ :=
  ⟨rfl, h2, h3, h4, h5, h6, h7, h8, h9, h10, h11, h12, h13, h14, h15, h16, h17⟩

theorem aFinal_mk {g : GridSpec} {s e : Pos} {st : AState} {queue acc : List Pos}
    (h2 : ∀ p, st.visited p = true ↔ p ∈ acc)
    (h3 : acc.Nodup)
    (h4 : ∀ p, st.visited p = true →
      g.wall p = false ∧ st.dist p ≠ ⊤ ∧ g.reach s p)
    (h5 : e ∈ acc ∨ ∀ p, g.reach s p → st.visited p = true)
    (h6 : ∀ p u, st.prev p = some u → st.visited u = true ∧ g.adj u p ∧
      st.dist p = st.dist u + 1)
    (h7 : ∀ p, p ≠ s → st.dist p ≠ ⊤ → st.prev p ≠ none)
    (h8 : st.prev s = none) (h9 : st.dist s = 0)
    (h10 : e ∈ acc → acc.getLast? = some e) :
    AFinal g s e ⟨st, queue, acc, true⟩ :=
  ⟨rfl, h2, h3, h4, h5, h6, h7, h8, h9, h10⟩

/-- The head of the sorted array having `totalDistance = Infinity` means every
reachable cell is already finalized. -/
theorem AInvB.complete_top_astar {g : GridSpec} {s e : Pos} {m : AMach} (hB : AInvB g s e m)
    {c : Pos} {rest : List Pos}
    (hsort : sortNodesByTotalDistance m.st m.queue = c :: rest)
    (htop : m.st.total c = ⊤) :
    ∀ p, g.reach s p → m.st.visited p = true := by
  intro p hp
  by_contra hvp
  have hvp' : m.st.visited p = false := by simpa using hvp
  obtain ⟨j, hj⟩ := hp
  obtain ⟨u, x, mu, hu, hx, hux, -, -⟩ := frontier_split hj hB.visited_s hvp'
  have hxfin : m.st.dist x ≠ ⊤ := hB.frontier_fin u x hu hux hx
  have hxtot : m.st.total x ≠ ⊤ := by
    rw [hB.total_link x]
    exact dval_add_coe_ne_top hxfin _
  have hxq : x ∈ m.queue := hB.cover x hux.1.2.1 hux.2.2 hx
  have h2 : m.st.total c ≤ m.st.total x := sortA_head_min hsort x hxq
  rw [htop, top_le_iff] at h2
  exact hxtot h2

/-- A halted A* machine is a fixed point of the step function. -/
theorem astarStepInstant_halted {g : GridSpec} {e : Pos} {m : AMach}
    (h : m.halted = true) : astarStepInstant g e m = m := by
  simp [astarStepInstant, h]

theorem aFinal_step {g : GridSpec} {s e : Pos} {m : AMach} (hF : AFinal g s e m) :
    AFinal g s e (astarStepInstant g e m) := by
  rw [astarStepInstant_halted hF.halted]
  exact hF

theorem aPreW_step {g : GridSpec} {s e : Pos} {m : AMach} (hW : APreW g s e m) :
    APreW g s e (astarStepInstant g e m) ∨ AFinal g s e (astarStepInstant g e m) := by
  obtain ⟨hsbad, hst, hacc, hhalt, hsq, hinb⟩ := hW
  have hfin : ∀ m' : AMach, m'.st = m.st → m'.acc = [] → m'.halted = true →
      AFinal g s e m' := by
    intro m' hst' hacc' hh'
    rw [hst] at hst'
    refine ⟨hh', ?_, ?_, ?_, ?_, ?_, ?_, ?_, ?_, ?_⟩
    · intro p; rw [hst', hacc']; simp
    · rw [hacc']; exact List.nodup_nil
    · intro p hp; rw [hst'] at hp; simp at hp
    · right
      intro p hp
      rcases hsbad with hb | hb
      · exact absurd (reach_src_open hp).2 (by simp [hb])
      · exact absurd (reach_src_open hp).1 hb
    · intro p u hp; rw [hst'] at hp; simp at hp
    · intro p hps hd
      rw [hst'] at hd
      simp [hps] at hd
    · rw [hst']; simp
    · rw [hst']; simp
    · intro hmem; rw [hacc'] at hmem; simp at hmem
  cases hsort : sortNodesByTotalDistance m.st m.queue with
  | nil =>
    right
    refine hfin _ ?_ ?_ ?_ <;> simp [astarStepInstant, hhalt, hsort, hacc]
  | cons c rest =>
    have hcq : c ∈ m.queue :=
      (sortA_perm m.st m.queue).mem_iff.mp (hsort ▸ List.mem_cons_self c rest)
    have hcs : c ≠ s := fun h => hsq (h ▸ hcq)
    have hctop : m.st.total c = ⊤ := by rw [hst]; simp [hcs]
    by_cases hcw : g.wall c = true
    · left
      have hrest : ∀ p ∈ rest, p ∈ m.queue := by
        intro p hp
        exact (sortA_perm m.st m.queue).mem_iff.mp (hsort ▸ List.mem_cons_of_mem c hp)
      have hm' : astarStepInstant g e m = { m with queue := rest } := by
        simp [astarStepInstant, hhalt, hsort, hcw]
      rw [hm']
      exact ⟨hsbad, hst, hacc, hhalt, fun h => hsq (hrest s h),
        fun p hp => hinb p (hrest p hp)⟩
    · right
      have hcw' : g.wall c = false := by simpa using hcw
      refine hfin _ ?_ ?_ ?_ <;>
        simp [astarStepInstant, hhalt, hsort, hcw', hctop, hacc]

theorem aInvB_step {g : GridSpec} {s e : Pos} {m : AMach} (hB : AInvB g s e m) :
    AInvB g s e (astarStepInstant g e m) ∨ AFinal g s e (astarStepInstant g e m) := by
  cases hsort : sortNodesByTotalDistance m.st m.queue with
  | nil =>
    right
    have hq : m.queue = [] := by
      have hlen := (sortA_perm m.st m.queue).length_eq
      rw [hsort] at hlen
      exact List.length_eq_zero.mp hlen.symm
    have hm' : astarStepInstant g e m = { m with halted := true } := by
      simp [astarStepInstant, hB.not_halted, hsort]
    rw [hm']
    refine ⟨rfl, hB.visited_iff_acc, hB.acc_nodup, hB.visited_sound, ?_, hB.prevProp,
      hB.finitePrev, hB.start_prev, hB.start_dist,
      fun hmem => absurd hmem hB.end_not_acc⟩
    right
    intro p hp
    by_contra hv
    have hv' : m.st.visited p = false := by simpa using hv
    obtain ⟨np, hnp⟩ := hp
    have hpb := hnp.dst_open
    have hmemq := hB.cover p hpb.1 hpb.2 hv'
    rw [hq] at hmemq
    simp at hmemq
  | cons c rest =>
    have hcq : c ∈ m.queue :=
      (sortA_perm m.st m.queue).mem_iff.mp (hsort ▸ List.mem_cons_self c rest)
    have hrest_sub : ∀ p ∈ rest, p ∈ m.queue := fun p hp =>
      (sortA_perm m.st m.queue).mem_iff.mp (hsort ▸ List.mem_cons_of_mem c hp)
    have hqueue_sorted : ∀ p ∈ m.queue, p ∈ c :: rest := fun p hp =>
      hsort ▸ (sortA_perm m.st m.queue).mem_iff.mpr hp
    have hsort_nodup : (c :: rest).Nodup := by
      rw [← hsort]
      exact ((sortA_perm m.st m.queue).nodup_iff).mpr hB.queue_nodup
    have hcrest : c ∉ rest := (List.nodup_cons.mp hsort_nodup).1
    have hrest_nodup : rest.Nodup := (List.nodup_cons.mp hsort_nodup).2
    have hcb : g.inB c := hB.queue_inb c hcq
    have hcu : m.st.visited c = false := hB.queue_unvis c hcq
    have hcacc : c ∉ m.acc := fun h => by
      have := (hB.visited_iff_acc c).mpr h
      rw [hcu] at this
      cases this
    by_cases hcw : g.wall c = true
    · left
      have hm' : astarStepInstant g e m = { m with queue := rest } := by
        simp [astarStepInstant, hB.not_halted, hsort, hcw]
      rw [hm']
      refine ⟨hB.not_halted, hrest_nodup, fun p hp => hB.queue_inb p (hrest_sub p hp),
        ?_, fun p hp => hB.queue_unvis p (hrest_sub p hp), hB.visited_iff_acc,
        hB.acc_nodup, hB.end_not_acc, hB.visited_sound, hB.dist_sound, hB.total_link,
        hB.frontier_fin, hB.prevProp, hB.finitePrev, hB.start_prev, hB.start_dist,
        hB.visited_s⟩
      intro p hpb hpw hpv
      have hpcr := hqueue_sorted p (hB.cover p hpb hpw hpv)
      rcases List.mem_cons.mp hpcr with rfl | hpr
      · rw [hpw] at hcw
        cases hcw
      · exact hpr
    · have hcw' : g.wall c = false := by simpa using hcw
      by_cases htop : m.st.total c = ⊤
      · right
        have hm' : astarStepInstant g e m = { m with halted := true } := by
          simp [astarStepInstant, hB.not_halted, hsort, hcw', htop]
        rw [hm']
        exact ⟨rfl, hB.visited_iff_acc, hB.acc_nodup, hB.visited_sound,
          Or.inr (hB.complete_top_astar hsort htop), hB.prevProp, hB.finitePrev,
          hB.start_prev, hB.start_dist, fun hmem => absurd hmem hB.end_not_acc⟩
      · have hdfin : m.st.dist c ≠ ⊤ := by
          intro hd
          rw [hB.total_link c, hd, top_add] at htop
          exact htop rfl
        have hreach_c : g.reach s c := hB.dist_sound c hcw' hdfin
        have hsc : s ≠ c := fun h => by
          rw [← h, hB.visited_s] at hcu
          cases hcu
        have hvacc : ∀ p, setF m.st.visited c true p = true ↔ p ∈ m.acc ++ [c] := by
          intro p
          by_cases hpc : p = c
          · subst hpc
            simp [hcacc]
          · rw [setF_other _ _ _ _ hpc]
            rw [hB.visited_iff_acc]
            simp [hpc]
        have haccnd : (m.acc ++ [c]).Nodup := by
          simp [List.nodup_append, hcacc, hB.acc_nodup]
        have hvmono : ∀ u, m.st.visited u = true → setF m.st.visited c true u = true := by
          intro u hu
          by_cases huc : u = c
          · subst huc; simp
          · rwa [setF_other _ _ _ _ huc]
        by_cases hce : c = e
        · right
          subst hce
          have hm' : astarStepInstant g c m =
              ⟨{ m.st with visited := setF m.st.visited c true },
                rest, m.acc ++ [c], true⟩ := by
            simp [astarStepInstant, hB.not_halted, hsort, hcw', htop]
          rw [hm']
          have hsound : ∀ p, setF m.st.visited c true p = true →
              g.wall p = false ∧ m.st.dist p ≠ ⊤ ∧ g.reach s p := by
            intro p hp
            by_cases hpc : p = c
            · subst hpc
              exact ⟨hcw', hdfin, hreach_c⟩
            · rw [setF_other _ _ _ _ hpc] at hp
              exact hB.visited_sound p hp
          have hprev : ∀ p u, m.st.prev p = some u →
              setF m.st.visited c true u = true ∧ g.adj u p ∧
                m.st.dist p = m.st.dist u + 1 := by
            intro p u hp
            obtain ⟨h1, h2, h3⟩ := hB.prevProp p u hp
            exact ⟨hvmono u h1, h2, h3⟩
          exact aFinal_mk hvacc haccnd hsound (Or.inl (by simp)) hprev
            hB.finitePrev hB.start_prev hB.start_dist
            (fun hmem => List.getLast?_concat m.acc)
        · left
          set st1 : AState := { m.st with visited := setF m.st.visited c true } with hst1
          have hm' : astarStepInstant g e m =
              ⟨updateUnvisitedNeighborsAstar g c e st1, rest, m.acc ++ [c], false⟩ := by
            simp [astarStepInstant, hB.not_halted, hsort, hcw', htop, hce, hst1]
          rw [hm']
          set W := getUnvisitedNeighbors g st1.visited c with hWdef
          have hWmem : ∀ x, x ∈ W ↔ x ∈ nbrList g c ∧ x ≠ c ∧ m.st.visited x = false := by
            intro x
            rw [hWdef, mem_getUnvisitedNeighbors]
            constructor
            · rintro ⟨h1, h2⟩
              rw [hst1] at h2
              simp only [setF] at h2
              by_cases hxc : x = c
              · rw [if_pos hxc] at h2; cases h2
              · rw [if_neg hxc] at h2
                exact ⟨h1, hxc, h2⟩
            · rintro ⟨h1, h2, h3⟩
              refine ⟨h1, ?_⟩
              rw [hst1]
              simp only [setF]
              rw [if_neg h2]
              exact h3
          have hcWn : c ∉ W := not_mem_getUnvisitedNeighbors_self g st1.visited c
          have hsWn : s ∉ W := by
            rw [hWmem]
            rintro ⟨-, -, h⟩
            rw [hB.visited_s] at h
            cases h
          set st2 := updateUnvisitedNeighborsAstar g c e st1 with hst2
          have hd2 : ∀ x, st2.dist x
              = if x ∈ W ∧ m.st.dist c + 1 < m.st.dist x
                then m.st.dist c + 1 else m.st.dist x := by
            intro x
            rw [hst2, updateUnvisitedNeighborsAstar_dist]
          have hp2 : ∀ x, st2.prev x
              = if x ∈ W ∧ m.st.dist c + 1 < m.st.dist x
                then some c else m.st.prev x := by
            intro x
            rw [hst2, updateUnvisitedNeighborsAstar_prev]
          have ht2 : ∀ x, st2.total x
              = if x ∈ W ∧ m.st.dist c + 1 < m.st.dist x
                then m.st.dist c + 1 + (manhattanDistance x e : ℕ)
                else m.st.total x := by
            intro x
            rw [hst2, updateUnvisitedNeighborsAstar_total]
          have hv2 : ∀ x, st2.visited x = setF m.st.visited c true x := by
            intro x
            rw [hst2, updateUnvisitedNeighborsAstar_visited]
          have hv2' : ∀ x, st2.visited x = true ↔ x ∈ m.acc ++ [c] := by
            intro x
            rw [hv2]
            exact hvacc x
          have hv2f : ∀ x, st2.visited x = false ↔ (x ≠ c ∧ m.st.visited x = false) := by
            intro x
            rw [hv2]
            simp only [setF]
            by_cases hxc : x = c
            · subst hxc
              simp
            · rw [if_neg hxc]
              simp [hxc]
          have hadjW : ∀ x ∈ W, g.adj c x := by
            intro x hx
            exact (mem_nbrList_iff_adj hcb).mp ((hWmem x).mp hx).1
          have hsucc_fin : m.st.dist c + 1 ≠ ⊤ := by
            rw [WithTop.add_ne_top]
            exact ⟨hdfin, WithTop.one_ne_top⟩
          refine aInvB_mk hrest_nodup (fun p hp => hB.queue_inb p (hrest_sub p hp))
            ?_ ?_ hv2' haccnd ?_ ?_ ?_ ?_ ?_ ?_ ?_ ?_ ?_ ?_
          · -- cover
            intro p hpb hpw hpv
            obtain ⟨hpc, hpv0⟩ := (hv2f p).mp hpv
            have hpcr := hqueue_sorted p (hB.cover p hpb hpw hpv0)
            rcases List.mem_cons.mp hpcr with h | h
            · exact absurd h hpc
            · exact h
          · -- queue_unvis
            intro p hp
            rw [hv2f]
            exact ⟨fun h => hcrest (h ▸ hp), hB.queue_unvis p (hrest_sub p hp)⟩
          · -- end_not_acc
            intro h
            rcases List.mem_append.mp h with h | h
            · exact hB.end_not_acc h
            · rw [List.mem_singleton] at h
              exact hce h.symm
          · -- visited_sound
            intro p hp
            rw [hv2'] at hp
            rcases List.mem_append.mp hp with hmem | hmem
            · have hpold := (hB.visited_iff_acc p).mpr hmem
              have hpW : p ∉ W := by
                rw [hWmem]
                rintro ⟨-, -, hfalse⟩
                rw [hpold] at hfalse
                cases hfalse
              obtain ⟨h1, h2, h3⟩ := hB.visited_sound p hpold
              refine ⟨h1, ?_, h3⟩
              rw [hd2, if_neg (fun hand => hpW hand.1)]
              exact h2
            · rw [List.mem_singleton] at hmem
              subst hmem
              refine ⟨hcw', ?_, hreach_c⟩
              rw [hd2, if_neg (fun hand => hcWn hand.1)]
              exact hdfin
          · -- dist_sound
            intro p hpw hpfin
            rw [hd2] at hpfin
            by_cases hcond : p ∈ W ∧ m.st.dist c + 1 < m.st.dist p
            · exact reach_trans hreach_c
                (reach_of_openAdj ⟨hadjW p hcond.1, hcw', hpw⟩)
            · rw [if_neg hcond] at hpfin
              exact hB.dist_sound p hpw hpfin
          · -- total_link
            intro p
            rw [ht2, hd2]
            by_cases hcond : p ∈ W ∧ m.st.dist c + 1 < m.st.dist p
            · rw [if_pos hcond, if_pos hcond]
            · rw [if_neg hcond, if_neg hcond]
              exact hB.total_link p
          · -- frontier_fin
            intro u p hu hadj hp
            rw [hv2] at hu
            obtain ⟨hpc, hpv0⟩ := (hv2f p).mp hp
            rw [hd2]
            by_cases hcond : p ∈ W ∧ m.st.dist c + 1 < m.st.dist p
            · rw [if_pos hcond]
              exact hsucc_fin
            · rw [if_neg hcond]
              by_cases huc : u = c
              · have hpW : p ∈ W := by
                  rw [hWmem]
                  refine ⟨(mem_nbrList_iff_adj hcb).mpr ?_, hpc, hpv0⟩
                  rw [← huc]
                  exact hadj.1
                have hnlt : ¬ (m.st.dist c + 1 < m.st.dist p) := fun h => hcond ⟨hpW, h⟩
                rw [not_lt] at hnlt
                exact ne_top_of_le_ne_top hsucc_fin hnlt
              · have hu0 : m.st.visited u = true := by
                  rwa [setF_other _ _ _ _ huc] at hu
                exact hB.frontier_fin u p hu0 hadj hpv0
          · -- prevProp
            intro p u hp
            rw [hp2] at hp
            by_cases hcond : p ∈ W ∧ m.st.dist c + 1 < m.st.dist p
            · rw [if_pos hcond] at hp
              have huc : u = c := (Option.some.inj hp).symm
              rw [huc]
              refine ⟨?_, hadjW p hcond.1, ?_⟩
              · rw [hv2]
                simp
              · rw [hd2, hd2, if_pos hcond, if_neg (fun hand => hcWn hand.1)]
            · rw [if_neg hcond] at hp
              obtain ⟨h1, h2, h3⟩ := hB.prevProp p u hp
              have huW : u ∉ W := by
                rw [hWmem]
                rintro ⟨-, -, hfalse⟩
                rw [h1] at hfalse
                cases hfalse
              refine ⟨?_, h2, ?_⟩
              · rw [hv2]
                exact hvmono u h1
              · rw [hd2, hd2, if_neg hcond, if_neg (fun hand => huW hand.1)]
                exact h3
          · -- finitePrev
            intro p hps hd
            rw [hp2]
            by_cases hcond : p ∈ W ∧ m.st.dist c + 1 < m.st.dist p
            · rw [if_pos hcond]
              exact Option.some_ne_none c
            · rw [if_neg hcond]
              rw [hd2, if_neg hcond] at hd
              exact hB.finitePrev p hps hd
          · -- start_prev
            rw [hp2, if_neg (fun hand => hsWn hand.1)]
            exact hB.start_prev
          · -- start_dist
            rw [hd2, if_neg (fun hand => hsWn hand.1)]
            exact hB.start_dist
          · -- visited_s
            rw [hv2]
            rw [setF_other _ _ _ _ hsc]
            exact hB.visited_s

theorem aPre_step {g : GridSpec} {s e : Pos} {m : AMach} (hP : APre g s e m) :
    AGood g s e (astarStepInstant g e m) := by
  obtain ⟨hst, hq, hacc, hhalt⟩ := hP
  have hqnd : m.queue.Nodup := by rw [hq]; exact nodup_getAllNodes g
  have hfin0 : ∀ m' : AMach, m'.st = astarInit s e → m'.acc = [] → m'.halted = true →
      (g.wall s = true ∨ ¬ g.inB s) → AFinal g s e m' := by
    intro m' hst' hacc' hh' hbad
    refine ⟨hh', ?_, ?_, ?_, ?_, ?_, ?_, ?_, ?_, ?_⟩
    · intro p; rw [hst', hacc']; simp
    · rw [hacc']; exact List.nodup_nil
    · intro p hp; rw [hst'] at hp; simp at hp
    · right
      intro p hp
      rcases hbad with hb | hb
      · exact absurd (reach_src_open hp).2 (by simp [hb])
      · exact absurd (reach_src_open hp).1 hb
    · intro p u hp; rw [hst'] at hp; simp at hp
    · intro p hps hd
      rw [hst'] at hd
      simp [hps] at hd
    · rw [hst']; simp
    · rw [hst']; simp
    · intro hmem; rw [hacc'] at hmem; simp at hmem
  cases hsort : sortNodesByTotalDistance m.st m.queue with
  | nil =>
    have hqe : m.queue = [] := by
      have hlen := (sortA_perm m.st m.queue).length_eq
      rw [hsort] at hlen
      exact List.length_eq_zero.mp hlen.symm
    have hnb : ¬ g.inB s := by
      intro hb
      have : s ∈ m.queue := by rw [hq]; exact (mem_getAllNodes g s).mpr hb
      rw [hqe] at this
      simp at this
    right; right; right
    have hm' : astarStepInstant g e m = { m with halted := true } := by
      simp [astarStepInstant, hhalt, hsort]
    rw [hm']
    exact hfin0 _ hst hacc rfl (Or.inr hnb)
  | cons c rest =>
    have hcq : c ∈ m.queue :=
      (sortA_perm m.st m.queue).mem_iff.mp (hsort ▸ List.mem_cons_self c rest)
    have hrest_sub : ∀ p ∈ rest, p ∈ m.queue := fun p hp =>
      (sortA_perm m.st m.queue).mem_iff.mp (hsort ▸ List.mem_cons_of_mem c hp)
    have hqueue_sorted : ∀ p ∈ m.queue, p ∈ c :: rest := fun p hp =>
      hsort ▸ (sortA_perm m.st m.queue).mem_iff.mpr hp
    have hsort_nodup : (c :: rest).Nodup := by
      rw [← hsort]
      exact ((sortA_perm m.st m.queue).nodup_iff).mpr hqnd
    have hcrest : c ∉ rest := (List.nodup_cons.mp hsort_nodup).1
    have hrest_nodup : rest.Nodup := (List.nodup_cons.mp hsort_nodup).2
    have hrest_inb : ∀ p ∈ rest, g.inB p := by
      intro p hp
      have := hrest_sub p hp
      rw [hq] at this
      exact (mem_getAllNodes g p).mp this
    by_cases hs : g.inB s
    · have hsq : s ∈ m.queue := by rw [hq]; exact (mem_getAllNodes g s).mpr hs
      have hts : m.st.total s = ((manhattanDistance s e : ℕ) : DVal) := by
        rw [hst]; simp
      have hcs : c = s := by
        by_contra hne
        have htc : m.st.total c = ⊤ := by
          rw [hst]
          simp [hne]
        have hle := sortA_head_min hsort s hsq
        rw [htc, hts, top_le_iff] at hle
        exact WithTop.natCast_ne_top _ hle
      rw [hcs] at hsort hcq hqueue_sorted hsort_nodup hcrest
      have hsrest : s ∉ rest := hcrest
      by_cases hsw : g.wall s = true
      · right; left
        have hm' : astarStepInstant g e m = { m with queue := rest } := by
          simp [astarStepInstant, hhalt, hsort, hsw]
        rw [hm']
        exact ⟨Or.inl hsw, hst, hacc, hhalt, hsrest, hrest_inb⟩
      · have hsw' : g.wall s = false := by simpa using hsw
        have hts' : m.st.total s ≠ ⊤ := by
          rw [hts]
          exact WithTop.natCast_ne_top _
        have hds : m.st.dist s = 0 := by rw [hst]; simp
        have hreach_s : g.reach s s := reach_refl hs hsw'
        by_cases hse : s = e
        · right; right; right
          subst hse
          have hm' : astarStepInstant g s m =
              ⟨{ m.st with visited := setF m.st.visited s true }, rest,
                m.acc ++ [s], true⟩ := by
            simp [astarStepInstant, hhalt, hsort, hsw', hts']
          rw [hm']
          have hvx : ∀ x, setF m.st.visited s true x = true ↔ x ∈ m.acc ++ [s] := by
            intro x
            rw [hst, hacc]
            by_cases hxs : x = s
            · subst hxs; simp
            · rw [setF_other _ _ _ _ hxs]
              simp [hxs]
          refine aFinal_mk hvx (by rw [hacc]; simp) ?_ (Or.inl (by simp)) ?_ ?_ ?_ ?_
            (fun hmem => List.getLast?_concat m.acc)
          · intro p hp
            rw [hvx, hacc] at hp
            simp only [List.nil_append, List.mem_singleton] at hp
            subst hp
            refine ⟨hsw', ?_, hreach_s⟩
            rw [hds]
            decide
          · intro p u hp
            rw [hst] at hp
            simp at hp
          · intro p hps hd
            rw [hst] at hd
            simp [hps] at hd
          · rw [hst]; simp
          · rw [hst]; simp
        · right; right; left
          set st1 : AState := { m.st with visited := setF m.st.visited s true } with hst1
          have hm' : astarStepInstant g e m =
              ⟨updateUnvisitedNeighborsAstar g s e st1, rest, m.acc ++ [s], false⟩ := by
            simp [astarStepInstant, hhalt, hsort, hsw', hts', hse, hst1]
          rw [hm', hacc]
          have hv1 : ∀ x, st1.visited x = true ↔ x = s := by
            intro x
            rw [hst1]
            by_cases hxs : x = s
            · subst hxs; simp [hst]
            · simp only [hst]
              rw [setF_other _ _ _ _ hxs]
              simp [hxs]
          set W := getUnvisitedNeighbors g st1.visited s with hWdef
          have hWmem : ∀ x, x ∈ W ↔ x ∈ nbrList g s ∧ x ≠ s := by
            intro x
            rw [hWdef, mem_getUnvisitedNeighbors]
            constructor
            · rintro ⟨h1, h2⟩
              refine ⟨h1, fun hx => ?_⟩
              rw [(hv1 x).mpr hx] at h2
              cases h2
            · rintro ⟨h1, h2⟩
              refine ⟨h1, ?_⟩
              by_cases hvx : st1.visited x = true
              · exact absurd ((hv1 x).mp hvx) h2
              · simpa using hvx
          have hsWn : s ∉ W := fun h => ((hWmem s).mp h).2 rfl
          set st2 := updateUnvisitedNeighborsAstar g s e st1 with hst2
          have hcond_iff : ∀ x, (x ∈ W ∧ m.st.dist s + 1 < m.st.dist x) ↔ x ∈ W := by
            intro x
            refine ⟨fun h => h.1, fun h => ⟨h, ?_⟩⟩
            have hxs : x ≠ s := ((hWmem x).mp h).2
            have hdx : m.st.dist x = ⊤ := by
              rw [hst]
              simp [hxs]
            rw [hdx, hds]
            exact WithTop.lt_top_iff_ne_top.mpr (by decide)
          have hd2 : ∀ x, st2.dist x
              = if x ∈ W then m.st.dist s + 1 else m.st.dist x := by
            intro x
            rw [hst2, updateUnvisitedNeighborsAstar_dist]
            by_cases hx : x ∈ W
            · rw [if_pos ((hcond_iff x).mpr hx), if_pos hx]
            · rw [if_neg (fun hand => hx hand.1), if_neg hx]
          have hp2 : ∀ x, st2.prev x
              = if x ∈ W then some s else m.st.prev x := by
            intro x
            rw [hst2, updateUnvisitedNeighborsAstar_prev]
            by_cases hx : x ∈ W
            · rw [if_pos ((hcond_iff x).mpr hx), if_pos hx]
            · rw [if_neg (fun hand => hx hand.1), if_neg hx]
          have ht2 : ∀ x, st2.total x
              = if x ∈ W then m.st.dist s + 1 + (manhattanDistance x e : ℕ)
                else m.st.total x := by
            intro x
            rw [hst2, updateUnvisitedNeighborsAstar_total]
            by_cases hx : x ∈ W
            · rw [if_pos ((hcond_iff x).mpr hx), if_pos hx]
            · rw [if_neg (fun hand => hx hand.1), if_neg hx]
          have hv2 : ∀ x, st2.visited x = st1.visited x :=
            fun x => updateUnvisitedNeighborsAstar_visited g s e st1 x
          have hone : m.st.dist s + 1 = ((1 : ℕ) : DVal) := by
            rw [hds]
            decide
          have hadjW : ∀ x ∈ W, g.adj s x := by
            intro x hx
            exact (mem_nbrList_iff_adj hs).mp ((hWmem x).mp hx).1
          have honet : m.st.dist s + 1 ≠ ⊤ := by
            rw [hone]
            exact WithTop.natCast_ne_top 1
          refine aInvB_mk hrest_nodup hrest_inb ?_ ?_ ?_ (by simp) ?_ ?_ ?_ ?_ ?_
            ?_ ?_ ?_ ?_ ?_
          · -- cover
            intro p hpb hpw hpv
            have hps : p ≠ s := by
              intro h
              rw [hv2, (hv1 p).mpr h] at hpv
              cases hpv
            have hpq : p ∈ m.queue := by rw [hq]; exact (mem_getAllNodes g p).mpr hpb
            rcases List.mem_cons.mp (hqueue_sorted p hpq) with h | h
            · exact absurd h hps
            · exact h
          · -- queue_unvis
            intro p hp
            have hps : p ≠ s := fun h => hsrest (h ▸ hp)
            rw [hv2]
            by_cases hvx : st1.visited p = true
            · exact absurd ((hv1 p).mp hvx) hps
            · simpa using hvx
          · -- visited_iff_acc
            intro p
            rw [hv2, hv1]
            simp
          · -- end_not_acc
            intro h
            simp only [List.nil_append, List.mem_singleton] at h
            exact hse h.symm
          · -- visited_sound
            intro p hp
            rw [hv2, hv1] at hp
            subst hp
            refine ⟨hsw', ?_, hreach_s⟩
            rw [hd2, if_neg hsWn, hds]
            decide
          · -- dist_sound
            intro p hpw hpfin
            rw [hd2] at hpfin
            by_cases hpW : p ∈ W
            · exact reach_of_openAdj ⟨hadjW p hpW, hsw', hpw⟩
            · rw [if_neg hpW, hst, astarInit_dist] at hpfin
              by_cases hps : p = s
              · rw [hps]
                exact hreach_s
              · rw [if_neg hps] at hpfin
                exact absurd rfl hpfin
          · -- total_link
            intro p
            rw [ht2, hd2]
            by_cases hpW : p ∈ W
            · rw [if_pos hpW, if_pos hpW]
            · rw [if_neg hpW, if_neg hpW, hst, astarInit_total, astarInit_dist]
              by_cases hps : p = s
              · rw [if_pos hps, if_pos hps, hps, zero_add]
              · rw [if_neg hps, if_neg hps, top_add]
          · -- frontier_fin
            intro u p hu hadj hp
            rw [hv2] at hu hp
            have hus : u = s := (hv1 u).mp hu
            have hps : p ≠ s := by
              intro h
              rw [(hv1 p).mpr h] at hp
              cases hp
            have hpW : p ∈ W := by
              rw [hWmem]
              refine ⟨(mem_nbrList_iff_adj hs).mpr ?_, hps⟩
              rw [← hus]
              exact hadj.1
            rw [hd2, if_pos hpW]
            exact honet
          · -- prevProp
            intro p u hp
            rw [hp2] at hp
            by_cases hpW : p ∈ W
            · rw [if_pos hpW] at hp
              have hus : u = s := (Option.some.inj hp).symm
              rw [hus]
              refine ⟨(hv2 s).symm ▸ (hv1 s).mpr rfl, hadjW p hpW, ?_⟩
              rw [hd2, hd2, if_pos hpW, if_neg hsWn]
            · rw [if_neg hpW, hst, astarInit_prev] at hp
              cases hp
          · -- finitePrev
            intro p hps hd
            rw [hp2]
            by_cases hpW : p ∈ W
            · rw [if_pos hpW]
              exact Option.some_ne_none s
            · rw [if_neg hpW]
              rw [hd2, if_neg hpW, hst, astarInit_dist, if_neg hps] at hd
              exact absurd rfl hd
          · -- start_prev
            rw [hp2, if_neg hsWn, hst]
            simp
          · -- start_dist
            rw [hd2, if_neg hsWn]
            exact hds
          · -- visited_s
            rw [hv2, hv1]
    · have hsnq : s ∉ m.queue := by
        rw [hq]
        intro h
        exact hs ((mem_getAllNodes g s).mp h)
      have hcs : c ≠ s := fun h => hsnq (h ▸ hcq)
      have htc : m.st.total c = ⊤ := by
        rw [hst]
        simp [hcs]
      by_cases hcw : g.wall c = true
      · right; left
        have hm' : astarStepInstant g e m = { m with queue := rest } := by
          simp [astarStepInstant, hhalt, hsort, hcw]
        rw [hm']
        refine ⟨Or.inr hs, hst, hacc, hhalt, fun h => hsnq (hrest_sub s h), hrest_inb⟩
      · right; right; right
        have hcw' : g.wall c = false := by simpa using hcw
        have hm' : astarStepInstant g e m = { m with halted := true } := by
          simp [astarStepInstant, hhalt, hsort, hcw', htc]
        rw [hm']
        exact hfin0 _ hst hacc rfl (Or.inr hs)

theorem aGood_step {g : GridSpec} {s e : Pos} {m : AMach} (h : AGood g s e m) :
    AGood g s e (astarStepInstant g e m) := by
  rcases h with h | h | h | h
  · exact aPre_step h
  · rcases aPreW_step h with h' | h'
    · exact Or.inr (Or.inl h')
    · exact Or.inr (Or.inr (Or.inr h'))
  · rcases aInvB_step h with h' | h'
    · exact Or.inr (Or.inr (Or.inl h'))
    · exact Or.inr (Or.inr (Or.inr h'))
  · exact Or.inr (Or.inr (Or.inr (aFinal_step h)))

theorem aGood_iterate {g : GridSpec} {s e : Pos} (k : ℕ) {m : AMach}
    (h : AGood g s e m) : AGood g s e ((astarStepInstant g e)^[k] m) := by
  induction k generalizing m with
  | zero => exact h
  | succ k ih =>
    rw [Function.iterate_succ_apply]
    exact ih (aGood_step h)

theorem aStep_halted_fix {g : GridSpec} {e : Pos} (k : ℕ) {m : AMach}
    (h : m.halted = true) : (astarStepInstant g e)^[k] m = m := by
  induction k with
  | zero => rfl
  | succ k ih =>
    rw [Function.iterate_succ_apply, astarStepInstant_halted h, ih]

theorem aStep_progress (g : GridSpec) (e : Pos) (m : AMach) :
    (astarStepInstant g e m).halted = true ∨
      (astarStepInstant g e m).queue.length < m.queue.length := by
  by_cases hh : m.halted = true
  · left
    rw [astarStepInstant_halted hh]
    exact hh
  · have hh' : m.halted = false := by simpa using hh
    cases hsort : sortNodesByTotalDistance m.st m.queue with
    | nil =>
      left
      simp [astarStepInstant, hh', hsort]
    | cons c rest =>
      have hlen : m.queue.length = rest.length + 1 := by
        have := (sortA_perm m.st m.queue).length_eq
        rw [hsort] at this
        simpa using this.symm
      by_cases hcw : g.wall c = true
      · right
        simp only [astarStepInstant, hh', Bool.false_eq_true, if_false, hsort, hcw,
          if_true]
        omega
      · have hcw' : g.wall c = false := by simpa using hcw
        by_cases htop : m.st.total c = ⊤
        · left
          simp [astarStepInstant, hh', hsort, hcw', htop]
        · by_cases hce : c = e
          · left
            subst hce
            simp [astarStepInstant, hh', hsort, hcw', htop]
          · right
            have hm' : astarStepInstant g e m =
                ⟨updateUnvisitedNeighborsAstar g c e
                    { m.st with visited := setF m.st.visited c true },
                  rest, m.acc ++ [c], false⟩ := by
              simp [astarStepInstant, hh', hsort, hcw', htop, hce]
            rw [hm']
            show rest.length < m.queue.length
            omega

theorem aStep_iterate_halts (g : GridSpec) (e : Pos) :
    ∀ (k : ℕ) (m : AMach), ((astarStepInstant g e)^[k] m).halted = true ∨
      ((astarStepInstant g e)^[k] m).queue.length + k ≤ m.queue.length := by
  intro k
  induction k with
  | zero => intro m; right; simp
  | succ k ih =>
    intro m
    rw [Function.iterate_succ_apply]
    rcases aStep_progress g e m with h | h
    · left
      rw [aStep_halted_fix k h]
      exact h
    · rcases ih (astarStepInstant g e m) with h' | h'
      · exact Or.inl h'
      · right
        omega

/-- The A* run always returns within `rows*cols + 1` iterations, and the final
machine satisfies the exit facts. -/
theorem astarRunInstant_final (g : GridSpec) (s e : Pos) :
    AFinal g s e (astarRunInstant g s e) := by
  have hgood : AGood g s e (astarRunInstant g s e) := by
    unfold astarRunInstant
    exact aGood_iterate _ (Or.inl ⟨rfl, rfl, rfl, rfl⟩)
  have hhalt : (astarRunInstant g s e).halted = true := by
    unfold astarRunInstant
    rcases aStep_iterate_halts g e (g.rows * g.cols + 1) (astarStart g s e) with h | h
    · exact h
    · have : (astarStart g s e).queue.length = g.rows * g.cols := by
        unfold astarStart
        exact length_getAllNodes g
      omega
  rcases hgood with h | h | h | h
  · rw [h.2.2.2] at hhalt
    cases hhalt
  · rw [h.2.2.2.1] at hhalt
    cases hhalt
  · rw [h.not_halted] at hhalt
    cases hhalt
  · exact h

theorem dijkstraRunAnimated_eq (g : GridSpec) (s e : Pos) :
    dijkstraRunAnimated g s e = dijkstraRunInstant g s e := by
  unfold dijkstraRunAnimated dijkstraRunInstant
  rw [← dijkstraStep_eq]

theorem astarRunAnimated_eq (g : GridSpec) (s e : Pos) :
    astarRunAnimated g s e = astarRunInstant g s e := by
  unfold astarRunAnimated astarRunInstant
  rw [← astarStep_eq]

theorem dijkstra_speed (g : GridSpec) (s e : Pos) (speed : Speed) :
    dijkstra g s e speed = dijkstraRunInstant g s e := by
  cases speed <;> simp [dijkstra, dijkstraRunAnimated_eq]

theorem astar_speed (g : GridSpec) (s e : Pos) (speed : Speed) :
    astar g s e speed = astarRunInstant g s e := by
  cases speed <;> simp [astar, astarRunAnimated_eq]

theorem dijkstraFinal (g : GridSpec) (s e : Pos) (speed : Speed) :
    DFinal g s e (dijkstra g s e speed) := by
  rw [dijkstra_speed]
  exact dijkstraRunInstant_final g s e

theorem astarFinal (g : GridSpec) (s e : Pos) (speed : Speed) :
    AFinal g s e (astar g s e speed) := by
  rw [astar_speed]
  exact astarRunInstant_final g s e

/-- **C1.**  If the target is reachable from the start through open 4-connected
cells, `dijkstra` finalizes the target; following `previousNode` from the
target (what `getNodesInShortestPathOrder` does) terminates at the start and
yields a walk of exactly `n + 1` nodes where `n` is the least open-walk length
from start to target (a shortest path under unit edge cost); and the returned
visited-order list ends with the target, has no duplicates, and contains only
nodes reachable from the start (so it is a prefix of some enumeration of the
reachable non-wall nodes). -/
theorem c1_dijkstra_shortest_path (g : GridSpec) (s e : Pos) (speed : Speed)
    (hreach : g.reach s e) :
    (dijkstra g s e speed).st.visited e = true ∧
    (∃ n : ℕ, (dijkstra g s e speed).st.dist e = (n : DVal) ∧ IsDist g s e n ∧
      ∀ fuel, n + 1 ≤ fuel →
        (getNodesInShortestPathOrder fuel (dijkstra g s e speed).st.prev e).head?
            = some s ∧
        (getNodesInShortestPathOrder fuel (dijkstra g s e speed).st.prev e).getLast?
            = some e ∧
        (getNodesInShortestPathOrder fuel (dijkstra g s e speed).st.prev e).length
            = n + 1 ∧
        (getNodesInShortestPathOrder fuel
            (dijkstra g s e speed).st.prev e).Chain' g.openAdj) ∧
    (dijkstra g s e speed).acc.getLast? = some e ∧
    (dijkstra g s e speed).acc.Nodup ∧
    ∀ p ∈ (dijkstra g s e speed).acc, g.reach s p := by
  have F := dijkstraFinal g s e speed
  have hvis : (dijkstra g s e speed).st.visited e = true := by
    rcases F.completeness with h | h
    · exact (F.visited_iff_acc e).mpr h
    · exact h e hreach
  have hacc : e ∈ (dijkstra g s e speed).acc := (F.visited_iff_acc e).mp hvis
  obtain ⟨hew, n, hdn, hIsD⟩ := F.visited_sound e hvis
  refine ⟨hvis, ⟨n, hdn, hIsD, ?_⟩, F.last_end hacc, F.acc_nodup, ?_⟩
  · intro fuel hfuel
    obtain ⟨L, hL, hh, hl, hlen, hch, -⟩ :=
      reconstruct_spec F.prevProp F.finitePrev
        (fun p hp => (F.visited_sound p hp).1) F.start_dist n e hvis hdn fuel hfuel []
    have hL' : getNodesInShortestPathOrder fuel (dijkstra g s e speed).st.prev e = L := by
      rw [getNodesInShortestPathOrder, hL, List.append_nil]
    rw [hL']
    exact ⟨hh, hl, hlen, hch⟩
  · intro p hp
    obtain ⟨-, k, -, hIk⟩ := F.visited_sound p ((F.visited_iff_acc p).mpr hp)
    exact ⟨k, hIk.1⟩

/-- **C6.**  When the target is not reachable from the start, both engines
terminate (they are total functions of fuel `rows*cols + 1`), leave the
target's `isVisited` false, and return a visited-order list containing
exactly the open cells reachable from the start. -/
theorem c6_unreachable_target (g : GridSpec) (s e : Pos) (speed : Speed)
    (hunreach : ¬ g.reach s e) :
    (dijkstra g s e speed).st.visited e = false ∧
    (∀ p, p ∈ (dijkstra g s e speed).acc ↔ g.reach s p) ∧
    (astar g s e speed).st.visited e = false ∧
    (∀ p, p ∈ (astar g s e speed).acc ↔ g.reach s p) := by
  have FD := dijkstraFinal g s e speed
  have FA := astarFinal g s e speed
  have hde : (dijkstra g s e speed).st.visited e = false := by
    by_cases h : (dijkstra g s e speed).st.visited e = true
    · obtain ⟨-, k, -, hIk⟩ := FD.visited_sound e h
      exact absurd ⟨k, hIk.1⟩ hunreach
    · simpa using h
  have hae : (astar g s e speed).st.visited e = false := by
    by_cases h : (astar g s e speed).st.visited e = true
    · obtain ⟨-, -, hr⟩ := FA.visited_sound e h
      exact absurd hr hunreach
    · simpa using h
  refine ⟨hde, ?_, hae, ?_⟩
  · intro p
    constructor
    · intro hp
      obtain ⟨-, k, -, hIk⟩ := FD.visited_sound p ((FD.visited_iff_acc p).mpr hp)
      exact ⟨k, hIk.1⟩
    · intro hp
      rcases FD.completeness with h | h
      · obtain ⟨-, k, -, hIk⟩ := FD.visited_sound e ((FD.visited_iff_acc e).mpr h)
        exact absurd ⟨k, hIk.1⟩ hunreach
      · exact (FD.visited_iff_acc p).mp (h p hp)
  · intro p
    constructor
    · intro hp
      exact (FA.visited_sound p ((FA.visited_iff_acc p).mpr hp)).2.2
    · intro hp
      rcases FA.completeness with h | h
      · exact absurd (FA.visited_sound e ((FA.visited_iff_acc e).mpr h)).2.2 hunreach
      · exact (FA.visited_iff_acc p).mp (h p hp)

/-- **C8.**  For either engine, whenever the target was reached
(`isVisited = true`), the reconstruction walk starts at the start node, ends
at the target, every consecutive pair of produced nodes is 4-adjacent and
open, no produced node is a wall, and the result is the single node `[e]`
exactly when `previousNode` of the target is null. -/
theorem c8_reconstruct_path (g : GridSpec) (s e : Pos) (speed : Speed) :
    ((dijkstra g s e speed).st.visited e = true →
      ∃ n : ℕ, (dijkstra g s e speed).st.dist e = (n : DVal) ∧
        ∀ fuel, n + 1 ≤ fuel →
          (getNodesInShortestPathOrder fuel (dijkstra g s e speed).st.prev e).head?
              = some s ∧
          (getNodesInShortestPathOrder fuel (dijkstra g s e speed).st.prev e).getLast?
              = some e ∧
          (getNodesInShortestPathOrder fuel
              (dijkstra g s e speed).st.prev e).Chain' g.openAdj ∧
          (∀ p ∈ getNodesInShortestPathOrder fuel (dijkstra g s e speed).st.prev e,
              g.wall p = false) ∧
          (getNodesInShortestPathOrder fuel (dijkstra g s e speed).st.prev e = [e]
            ↔ (dijkstra g s e speed).st.prev e = none)) ∧
    ((astar g s e speed).st.visited e = true →
      ∃ n : ℕ, (astar g s e speed).st.dist e = (n : DVal) ∧
        ∀ fuel, n + 1 ≤ fuel →
          (getNodesInShortestPathOrder fuel (astar g s e speed).st.prev e).head?
              = some s ∧
          (getNodesInShortestPathOrder fuel (astar g s e speed).st.prev e).getLast?
              = some e ∧
          (getNodesInShortestPathOrder fuel
              (astar g s e speed).st.prev e).Chain' g.openAdj ∧
          (∀ p ∈ getNodesInShortestPathOrder fuel (astar g s e speed).st.prev e,
              g.wall p = false) ∧
          (getNodesInShortestPathOrder fuel (astar g s e speed).st.prev e = [e]
            ↔ (astar g s e speed).st.prev e = none)) := by
  constructor
  · intro hvis
    have F := dijkstraFinal g s e speed
    have hfin : (dijkstra g s e speed).st.dist e ≠ ⊤ := by
      obtain ⟨-, k, hk, -⟩ := F.visited_sound e hvis
      rw [hk]
      exact WithTop.coe_ne_top
    obtain ⟨-, n, hdn, -⟩ := F.visited_sound e hvis
    refine ⟨n, hdn, ?_⟩
    intro fuel hfuel
    obtain ⟨L, hL, hh, hl, hlen, hch, hmem⟩ :=
      reconstruct_spec F.prevProp F.finitePrev
        (fun p hp => (F.visited_sound p hp).1) F.start_dist n e hvis hdn fuel hfuel []
    have hL' : getNodesInShortestPathOrder fuel (dijkstra g s e speed).st.prev e = L := by
      rw [getNodesInShortestPathOrder, hL, List.append_nil]
    rw [hL']
    refine ⟨hh, hl, hch, ?_, ?_⟩
    · intro p hp
      exact (F.visited_sound p (hmem p hp)).1
    · constructor
      · intro hone
        cases hpe : (dijkstra g s e speed).st.prev e with
        | none => rfl
        | some u =>
          obtain ⟨-, -, hd⟩ := F.prevProp e u hpe
          rw [hdn] at hd
          obtain ⟨k, -, hk⟩ := dval_add_one_eq_coe hd.symm
          rw [hone] at hlen
          simp at hlen
          omega
      · intro hnone
        rw [← hL']
        obtain ⟨f, rfl⟩ : ∃ f, fuel = f + 1 := ⟨fuel - 1, by omega⟩
        show reconstructGo (dijkstra g s e speed).st.prev f
          ((dijkstra g s e speed).st.prev e) [e] = [e]
        rw [hnone]
        cases f <;> rfl
  · intro hvis
    have F := astarFinal g s e speed
    have hfin : (astar g s e speed).st.dist e ≠ ⊤ := (F.visited_sound e hvis).2.1
    obtain ⟨n, hn⟩ := WithTop.ne_top_iff_exists.mp hfin
    have hdn : (astar g s e speed).st.dist e = (n : DVal) := hn.symm
    refine ⟨n, hdn, ?_⟩
    intro fuel hfuel
    obtain ⟨L, hL, hh, hl, hlen, hch, hmem⟩ :=
      reconstruct_spec F.prevProp F.finitePrev
        (fun p hp => (F.visited_sound p hp).1) F.start_dist n e hvis hdn fuel hfuel []
    have hL' : getNodesInShortestPathOrder fuel (astar g s e speed).st.prev e = L := by
      rw [getNodesInShortestPathOrder, hL, List.append_nil]
    rw [hL']
    refine ⟨hh, hl, hch, ?_, ?_⟩
    · intro p hp
      exact (F.visited_sound p (hmem p hp)).1
    · constructor
      · intro hone
        cases hpe : (astar g s e speed).st.prev e with
        | none => rfl
        | some u =>
          obtain ⟨-, -, hd⟩ := F.prevProp e u hpe
          rw [hdn] at hd
          obtain ⟨k, -, hk⟩ := dval_add_one_eq_coe hd.symm
          rw [hone] at hlen
          simp at hlen
          omega
      · intro hnone
        rw [← hL']
        obtain ⟨f, rfl⟩ : ∃ f, fuel = f + 1 := ⟨fuel - 1, by omega⟩
        show reconstructGo (astar g s e speed).st.prev f
          ((astar g s e speed).st.prev e) [e] = [e]
        rw [hnone]
        cases f <;> rfl

/-- **C7.**  The fully synchronous (`'instant'`) and the delayed/animated
variants of each engine produce identical final results: the same machine
state — in particular the same visited-order sequence and the same
`previousNode` back-reference on every node. -/
theorem c7_instant_animated_equal (g : GridSpec) (s e : Pos) :
    dijkstraRunAnimated g s e = dijkstraRunInstant g s e ∧
    (dijkstraRunAnimated g s e).acc = (dijkstraRunInstant g s e).acc ∧
    (∀ p, (dijkstraRunAnimated g s e).st.prev p = (dijkstraRunInstant g s e).st.prev p) ∧
    astarRunAnimated g s e = astarRunInstant g s e ∧
    (astarRunAnimated g s e).acc = (astarRunInstant g s e).acc ∧
    (∀ p, (astarRunAnimated g s e).st.prev p = (astarRunInstant g s e).st.prev p) := by
  refine ⟨dijkstraRunAnimated_eq g s e, ?_, ?_, astarRunAnimated_eq g s e, ?_, ?_⟩
  · rw [dijkstraRunAnimated_eq g s e]
  · intro p; rw [dijkstraRunAnimated_eq g s e]
  · rw [astarRunAnimated_eq g s e]
  · intro p; rw [astarRunAnimated_eq g s e]

/-- A 1×3 grid whose middle cell is a wall: used as concrete evidence. -/
def g13 : GridSpec :=
  { rows := 1, cols := 3, wall := fun p => decide (p = (0, 1)) }

/-- A 5×5 grid with no walls, as in the spec's worked example. -/
def g55 : GridSpec :=
  { rows := 5, cols := 5, wall := fun _ => false }

/-- A 2×2 grid with no walls: used for the relaxation counterexample. -/
def g22 : GridSpec :=
  { rows := 2, cols := 2, wall := fun _ => false }

/-- **C10.**  Wall nodes are never finalized by either engine — their
`isVisited` stays false and they never enter the visited-order output — yet
the relaxation step mutates the `distance` (and for A* also `totalDistance`)
and `previousNode` fields of any unvisited neighbor of the current node,
walls included: no conjunct below assumes `g.wall q = false`. -/
theorem c10_walls_skipped_but_mutated (g : GridSpec) (s e : Pos) (speed : Speed) :
    (∀ p, g.wall p = true →
      (dijkstra g s e speed).st.visited p = false ∧
      p ∉ (dijkstra g s e speed).acc ∧
      (astar g s e speed).st.visited p = false ∧
      p ∉ (astar g s e speed).acc) ∧
    (∀ (σ : DState) (c q : Pos), q ∈ nbrList g c → σ.visited q = false →
      (updateUnvisitedNeighbors g c σ).dist q = σ.dist c + 1 ∧
      (updateUnvisitedNeighbors g c σ).prev q = some c) ∧
    (∀ (τ : AState) (c q : Pos), q ∈ nbrList g c → τ.visited q = false →
      τ.dist c + 1 < τ.dist q →
      (updateUnvisitedNeighborsAstar g c e τ).dist q = τ.dist c + 1 ∧
      (updateUnvisitedNeighborsAstar g c e τ).total q
        = τ.dist c + 1 + (manhattanDistance q e : ℕ) ∧
      (updateUnvisitedNeighborsAstar g c e τ).prev q = some c) := by
  have FD := dijkstraFinal g s e speed
  have FA := astarFinal g s e speed
  refine ⟨?_, ?_, ?_⟩
  · intro p hw
    have hdv : (dijkstra g s e speed).st.visited p = false := by
      by_cases h : (dijkstra g s e speed).st.visited p = true
      · have := (FD.visited_sound p h).1
        rw [hw] at this
        exact absurd this (by simp)
      · simpa using h
    have hav : (astar g s e speed).st.visited p = false := by
      by_cases h : (astar g s e speed).st.visited p = true
      · have := (FA.visited_sound p h).1
        rw [hw] at this
        exact absurd this (by simp)
      · simpa using h
    refine ⟨hdv, ?_, hav, ?_⟩
    · intro hmem
      rw [(FD.visited_iff_acc p).mpr hmem] at hdv
      exact absurd hdv (by simp)
    · intro hmem
      rw [(FA.visited_iff_acc p).mpr hmem] at hav
      exact absurd hav (by simp)
  · intro σ c q hq hv
    have hmem : q ∈ getUnvisitedNeighbors g σ.visited c :=
      mem_getUnvisitedNeighbors.mpr ⟨hq, hv⟩
    constructor
    · rw [updateUnvisitedNeighbors_dist, if_pos hmem]
    · rw [updateUnvisitedNeighbors_prev, if_pos hmem]
  · intro τ c q hq hv hlt
    have hmem : q ∈ getUnvisitedNeighbors g τ.visited c :=
      mem_getUnvisitedNeighbors.mpr ⟨hq, hv⟩
    refine ⟨?_, ?_, ?_⟩
    · rw [updateUnvisitedNeighborsAstar_dist, if_pos ⟨hmem, hlt⟩]
    · rw [updateUnvisitedNeighborsAstar_total, if_pos ⟨hmem, hlt⟩]
    · rw [updateUnvisitedNeighborsAstar_prev, if_pos ⟨hmem, hlt⟩]

/-- Concrete instance of C10 on the 1×3 grid with a wall in the middle: the
wall cell is never visited by the Dijkstra run, yet a single relaxation from
the start writes its `distance` and `previousNode` fields. -/
theorem c10_walls_skipped_but_mutated_witness :
    (g13.wall (0, 1) = true ∧
      (dijkstra g13 (0, 0) (0, 2) Speed.instant).st.visited (0, 1) = false) ∧
    ((updateUnvisitedNeighbors g13 (0, 0) (dijkstraStart g13 (0, 0)).st).dist (0, 1)
        = (dijkstraStart g13 (0, 0)).st.dist (0, 0) + 1 ∧
      (updateUnvisitedNeighbors g13 (0, 0) (dijkstraStart g13 (0, 0)).st).prev (0, 1)
        = some (0, 0)) ∧
    ((updateUnvisitedNeighborsAstar g13 (0, 0) (0, 2)
          (astarStart g13 (0, 0) (0, 2)).st).dist (0, 1)
        = (astarStart g13 (0, 0) (0, 2)).st.dist (0, 0) + 1 ∧
      (updateUnvisitedNeighborsAstar g13 (0, 0) (0, 2)
          (astarStart g13 (0, 0) (0, 2)).st).prev (0, 1) = some (0, 0)) := by
  have h := c10_walls_skipped_but_mutated g13 (0, 0) (0, 2) Speed.instant
  refine ⟨⟨by decide, (h.1 (0, 1) (by decide)).1⟩, ?_, ?_⟩
  · exact h.2.1 (dijkstraStart g13 (0, 0)).st (0, 0) (0, 1) (by decide) (by decide)
  · have h3 := h.2.2 (astarStart g13 (0, 0) (0, 2)).st (0, 0) (0, 1)
      (by decide) (by decide) (by decide)
    exact ⟨h3.1, h3.2.2⟩

/-- One A* relaxation never increases any node's `distance` field. -/
theorem updateUnvisitedNeighborsAstar_dist_le (g : GridSpec) (c e : Pos)
    (τ : AState) (p : Pos) :
    (updateUnvisitedNeighborsAstar g c e τ).dist p ≤ τ.dist p := by
  rw [updateUnvisitedNeighborsAstar_dist]
  split
  · next hcond => exact le_of_lt hcond.2
  · exact le_refl _

/-- One A* step never increases any node's `distance` field. -/
theorem astarStep_dist_mono (g : GridSpec) (e : Pos) (m : AMach) (p : Pos) :
    (astarStepInstant g e m).st.dist p ≤ m.st.dist p := by
  unfold astarStepInstant
  by_cases hh : m.halted
  · simp [hh]
  · simp only [hh, if_false]
    cases hq : sortNodesByTotalDistance m.st m.queue with
    | nil => simp
    | cons c rest =>
      simp only
      by_cases hw : g.wall c
      · simp [hw]
      · simp only [hw, if_false]
        by_cases ht : m.st.total c = ⊤
        · simp [ht]
        · simp only [ht, if_false]
          by_cases hc : c = e
          · simp [hc]
          · simp only [hc, if_false]
            exact updateUnvisitedNeighborsAstar_dist_le g c e
              { m.st with visited := setF m.st.visited c true } p

/-- Iterating A* steps never increases any node's `distance` field. -/
theorem astarIter_dist_mono (g : GridSpec) (e : Pos) (m : AMach) (k : ℕ) (p : Pos) :
    ((astarStepInstant g e)^[k] m).st.dist p ≤ m.st.dist p := by
  induction k with
  | zero => simp
  | succ n ih =>
    rw [Function.iterate_succ_apply']
    exact le_trans (astarStep_dist_mono g e _ p) ih

/-- **C2 (amended).**  Only the A* engine relaxes under the strict comparison
`current.distance + 1 < neighbor.distance`: an A* relaxation changes a
neighbor's `distance` or `previousNode` only when the strict inequality holds,
and consequently no node's `distance` ever increases during an A* run.  The
Dijkstra engine, by contrast, assigns `closestNode.distance + 1` and
`previousNode := closestNode` to every unvisited neighbor unconditionally,
with no comparison at all. -/
theorem c2_strict_relaxation_astar_only (g : GridSpec) (e : Pos) :
    (∀ (τ : AState) (c q : Pos),
      ((updateUnvisitedNeighborsAstar g c e τ).dist q ≠ τ.dist q ∨
        (updateUnvisitedNeighborsAstar g c e τ).prev q ≠ τ.prev q) →
      τ.dist c + 1 < τ.dist q) ∧
    (∀ (s : Pos) (k : ℕ) (p : Pos),
      ((astarStepInstant g e)^[k] (astarStart g s e)).st.dist p
        ≤ (astarStart g s e).st.dist p) ∧
    (∀ (σ : DState) (c q : Pos), q ∈ nbrList g c → σ.visited q = false →
      (updateUnvisitedNeighbors g c σ).dist q = σ.dist c + 1 ∧
      (updateUnvisitedNeighbors g c σ).prev q = some c) := by
  refine ⟨?_, ?_, ?_⟩
  · intro τ c q hne
    by_contra hnlt
    rcases hne with hd | hp
    · rw [updateUnvisitedNeighborsAstar_dist] at hd
      rw [if_neg (fun hco => hnlt hco.2)] at hd
      exact hd rfl
    · rw [updateUnvisitedNeighborsAstar_prev] at hp
      rw [if_neg (fun hco => hnlt hco.2)] at hp
      exact hp rfl
  · intro s k p
    exact astarIter_dist_mono g e (astarStart g s e) k p
  · intro σ c q hq hv
    have hmem : q ∈ getUnvisitedNeighbors g σ.visited c :=
      mem_getUnvisitedNeighbors.mpr ⟨hq, hv⟩
    constructor
    · rw [updateUnvisitedNeighbors_dist, if_pos hmem]
    · rw [updateUnvisitedNeighbors_prev, if_pos hmem]

/-- The original C2 is false for the Dijkstra engine: on the open 2×2 grid
with start `(0,0)` and finish `(1,1)`, after two loop iterations the
tentative distance of `(1,1)` is `2` via `(0,1)`, the third iteration pops
`(1,0)` whose distance also gives `1 + 1 = 2` — the strict comparison
`current.distance + 1 < neighbor.distance` fails — and yet the relaxation
rewrites `previousNode` of `(1,1)` from `(0,1)` to `(1,0)`. -/
theorem c2_dijkstra_relaxes_without_strict_lt :
    (((dijkstraStepInstant g22 (1, 1))^[2] (dijkstraStart g22 (0, 0))).st.prev (1, 1)
        = some (0, 1)) ∧
    ¬ (((dijkstraStepInstant g22 (1, 1))^[2] (dijkstraStart g22 (0, 0))).st.dist (1, 0) + 1
        < ((dijkstraStepInstant g22 (1, 1))^[2] (dijkstraStart g22 (0, 0))).st.dist (1, 1)) ∧
    (((dijkstraStepInstant g22 (1, 1))^[3] (dijkstraStart g22 (0, 0))).st.prev (1, 1)
        = some (1, 0)) ∧
    ((dijkstraStepInstant g22 (1, 1))^[3] (dijkstraStart g22 (0, 0))).acc
        = [(0, 0), (0, 1), (1, 0)] := by
  refine ⟨by decide, by decide, by decide, by decide⟩

/-- **C5 (amended).**  On the open 5×5 grid with start `(0,0)` and end
`(4,4)`, Dijkstra's visited-order list contains all 25 nodes — every cell has
distance at most 7 except the end itself, so the whole grid is finalized
before the end is popped — while the reconstructed shortest path does contain
exactly 9 nodes (8 unit edges), running from the start to the end. -/
theorem c5_five_by_five_run :
    (dijkstra g55 (0, 0) (4, 4) Speed.instant).acc.length = 25 ∧
    (getNodesInShortestPathOrder 26
        (dijkstra g55 (0, 0) (4, 4) Speed.instant).st.prev (4, 4)).length = 9 ∧
    (getNodesInShortestPathOrder 26
        (dijkstra g55 (0, 0) (4, 4) Speed.instant).st.prev (4, 4)).head?
      = some (0, 0) ∧
    (getNodesInShortestPathOrder 26
        (dijkstra g55 (0, 0) (4, 4) Speed.instant).st.prev (4, 4)).getLast?
      = some (4, 4) ∧
    (dijkstra g55 (0, 0) (4, 4) Speed.instant).acc.getLast? = some (4, 4) := by
  refine ⟨by decide, by decide, by decide, by decide, by decide⟩

/-- The original C5 is false on its own example: the visited-order list of
the 5×5 run has 25 entries, not 9 — `dijkstra` finalizes every node whose
distance is below the end's before reaching the end, and on the open 5×5
grid that is the entire grid. -/
theorem c5_visited_count_is_25_not_9 :
    (dijkstra g55 (0, 0) (4, 4) Speed.instant).acc.length = 25 ∧
    ¬ (dijkstra g55 (0, 0) (4, 4) Speed.instant).acc.length = 9 := by
  refine ⟨by decide, by decide⟩

instance (g : GridSpec) (p q : Pos) : Decidable (g.openAdj p q) := by
  unfold GridSpec.openAdj; infer_instance

/-- Concrete instance of C1 on the open 2×2 grid: the end `(1,1)` is reached
from `(0,0)` in two steps, the run finalizes it and the visited-order list
ends with it. -/
theorem c1_dijkstra_shortest_path_witness :
    (dijkstra g22 (0, 0) (1, 1) Speed.instant).st.visited (1, 1) = true ∧
    (dijkstra g22 (0, 0) (1, 1) Speed.instant).acc.getLast? = some (1, 1) ∧
    (dijkstra g22 (0, 0) (1, 1) Speed.instant).acc.Nodup := by
  have s1 : g22.openAdj (0, 0) (0, 1) := by decide
  have s2 : g22.openAdj (0, 1) (1, 1) := by decide
  have h := c1_dijkstra_shortest_path g22 (0, 0) (1, 1) Speed.instant
    ⟨2, .step s1 (.step s2 (.refl (1, 1) (by decide) (by decide)))⟩
  exact ⟨h.1, h.2.2.1, h.2.2.2.1⟩

/-- Concrete instance of C6 on the 1×3 grid with a wall in the middle: the
end `(0,2)` is cut off from the start `(0,0)`, both engines leave it
unvisited, and both visited-order lists contain exactly the reachable open
cells — here just the start itself. -/
theorem c6_unreachable_target_witness :
    (dijkstra g13 (0, 0) (0, 2) Speed.instant).st.visited (0, 2) = false ∧
    ((0, 0) ∈ (dijkstra g13 (0, 0) (0, 2) Speed.instant).acc) ∧
    (astar g13 (0, 0) (0, 2) Speed.instant).st.visited (0, 2) = false ∧
    ((0, 0) ∈ (astar g13 (0, 0) (0, 2) Speed.instant).acc) := by
  have hun : ¬ g13.reach (0, 0) (0, 2) := by
    intro hr
    obtain ⟨c, hc⟩ := reach_ne_has_nbr hr (by decide)
    have hC : c.1 < 1 ∧ c.2 < 3 := hc.1.1
    have hrel := hc.1.2.2
    have hw := hc.2.1
    have hc01 : c = (0, 1) := by
      obtain ⟨a, b⟩ := c
      simp only [Prod.mk.injEq]
      rcases hrel with ⟨h1, h2 | h2⟩ | ⟨h1, h2 | h2⟩ <;>
        exact ⟨by omega, by omega⟩
    rw [hc01] at hw
    exact absurd hw (by decide)
  have h := c6_unreachable_target g13 (0, 0) (0, 2) Speed.instant hun
  exact ⟨h.1, (h.2.1 (0, 0)).mpr ⟨0, .refl (0, 0) (by decide) (by decide)⟩,
    h.2.2.1, (h.2.2.2 (0, 0)).mpr ⟨0, .refl (0, 0) (by decide) (by decide)⟩⟩

/-! ## Grid-mutating UI operations (`part_002`)

The flag-record grid of the React component: each cell carries the four
booleans `isStart`, `isEnd`, `isCheckpoint`, `isWall` (the other per-node
fields play no part in the role claims).  A grid is a total function from
positions; only in-bounds cells are meaningful, and the role invariant
quantifies over in-bounds cells only.  `Math.random()` draws are modelled by
a stream `ρ : ℕ → ℕ` consumed at an explicit cursor, reading
`Math.floor(Math.random() * n)` as `ρ k % n`: for every real in `[0, 1)` the
floor is such a residue and every residue arises from some real, so
quantifying over all streams covers exactly the of outcomes of all seeds. -/

structure CellN where
  isStart : Bool
  isEnd : Bool
  isCheckpoint : Bool
  isWall : Bool
deriving DecidableEq, Repr

/-- A cell with every special flag cleared (`handleDrop`'s clearing write and
`randomizeNodes`' initial `map`, `part_002` lines 844-851 and 1019-1025). -/
def clearFlags (c : CellN) : CellN :=
  { c with isStart := false, isEnd := false, isCheckpoint := false }

/-- The three draggable special-node kinds (`dragging.draggedNodeType`). -/
inductive DragType
  | start
  | end_
  | checkpoint
deriving DecidableEq

/-- Whether a cell currently holds the dragged kind's flag (the clearing
loop's condition, `part_002` lines 841-843). -/
def holdsDragged (T : DragType) (c : CellN) : Bool :=
  match T with
  | .start => c.isStart
  | .end_ => c.isEnd
  | .checkpoint => c.isCheckpoint

/-- `handleDrop(e, targetNode)` (`part_002` lines 829-868): if a drag is in
progress and the target is not a wall, every in-bounds holder of the dragged
kind's flag has all three special flags cleared, and then the target cell is
rewritten with exactly the dragged kind's flag set (the later write wins on
the target cell itself). -/
def handleDrop (rows cols : ℕ) (G : Pos → CellN) (dragging : Bool)
    (T : DragType) (t : Pos) : Pos → CellN :=
  if ¬ dragging ∨ (G t).isWall then G
  else fun p =>
    if p = t then
      { G t with
          isStart := T = DragType.start
          isEnd := T = DragType.end_
          isCheckpoint := T = DragType.checkpoint }
    else if p.1 < rows ∧ p.2 < cols ∧ holdsDragged T (G p) then clearFlags (G p)
    else G p

/-- A cell the random-position search accepts: neither a wall nor any kind
of special node (`part_002` line 508). -/
def emptyCell (c : CellN) : Bool :=
  !c.isWall && !c.isStart && !c.isEnd && !c.isCheckpoint

/-- The full row-major scan fallback of `getRandomEmptyPosition`
(`part_002` lines 515-523). -/
def scanEmpty (rows cols : ℕ) (G : Pos → CellN) : Option Pos :=
  (getAllNodes { rows := rows, cols := cols, wall := fun _ => false }).find?
    (fun p => emptyCell (G p))

/-- The random-attempt loop of `getRandomEmptyPosition` (`part_002` lines
503-511): up to `maxAttempts` tries, each drawing a row and a column;
returns the position found together with the advanced stream cursor. -/
def grepLoop (rows cols : ℕ) (G : Pos → CellN) (ρ : ℕ → ℕ) :
    ℕ → ℕ → Option Pos × ℕ
  | 0, k => (scanEmpty rows cols G, k)
  | n + 1, k =>
    let r := ρ k % rows
    let c := ρ (k + 1) % cols
    if emptyCell (G (r, c)) then (some (r, c), k + 2)
    else grepLoop rows cols G ρ n (k + 2)

/-- `getRandomEmptyPosition(grid)` (`part_002` lines 496-523),
`maxAttempts = 100`. -/
def getRandomEmptyPosition (rows cols : ℕ) (G : Pos → CellN) (ρ : ℕ → ℕ)
    (k : ℕ) : Option Pos × ℕ :=
  grepLoop rows cols G ρ 100 k

/-- Set a single flag on one cell, leaving every other field and cell
unchanged (the `newGrid[pos.row][pos.col].isX = true` writes). -/
def setFlag (G : Pos → CellN) (p : Pos) (T : DragType) : Pos → CellN :=
  fun q =>
    if q = p then
      match T with
      | .start => { G q with isStart := true }
      | .end_ => { G q with isEnd := true }
      | .checkpoint => { G q with isCheckpoint := true }
    else G q

/-- The cleared grid `randomizeNodes` builds first (`part_002` lines
1019-1025): every in-bounds cell's special flags are cleared. -/
def rnCleared (rows cols : ℕ) (G : Pos → CellN) : Pos → CellN :=
  fun p => if p.1 < rows ∧ p.2 < cols then clearFlags (G p) else G p

/-- `randomizeNodes`' draw for the new start position (`part_002` line
1028), made against the cleared grid with the stream cursor at `0`. -/
def rnStartDraw (rows cols : ℕ) (G : Pos → CellN) (ρ : ℕ → ℕ) :
    Option Pos × ℕ :=
  getRandomEmptyPosition rows cols (rnCleared rows cols G) ρ 0

/-- `randomizeNodes`' draw for the new end position (`part_002` line 1029),
still against the cleared grid. -/
def rnEndDraw (rows cols : ℕ) (G : Pos → CellN) (ρ : ℕ → ℕ) :
    Option Pos × ℕ :=
  getRandomEmptyPosition rows cols (rnCleared rows cols G) ρ
    (rnStartDraw rows cols G ρ).2

/-- `randomizeNodes`' draw for the new checkpoint position (`part_002` lines
1032-1034), made only when a checkpoint exists, still against the cleared
grid. -/
def rnCpDraw (rows cols : ℕ) (G : Pos → CellN) (ρ : ℕ → ℕ)
    (cpExists : Bool) : Option Pos × ℕ :=
  if cpExists then
    getRandomEmptyPosition rows cols (rnCleared rows cols G) ρ
      (rnEndDraw rows cols G ρ).2
  else (none, (rnEndDraw rows cols G ρ).2)

/-- `randomizeNodes()` (`part_002` lines 1016-1057): clear every in-bounds
cell's special flags, draw a position for the start, then for the end, then
— when a checkpoint exists — for the checkpoint; the checkpoint flag is
written first, then the start flag, then the end flag.  All three draws are
made against the cleared grid, before any flag is written back. -/
def randomizeNodes (rows cols : ℕ) (G : Pos → CellN) (ρ : ℕ → ℕ)
    (cpExists : Bool) : Pos → CellN :=
  let G0 := rnCleared rows cols G
  let G1 := match (rnCpDraw rows cols G ρ cpExists).1 with
    | some c => setFlag G0 c .checkpoint
    | none => G0
  let G2 := match (rnStartDraw rows cols G ρ).1 with
    | some s => setFlag G1 s .start
    | none => G1
  match (rnEndDraw rows cols G ρ).1 with
  | some e => setFlag G2 e .end_
  | none => G2

/-- The spec's role invariant over the flag grid: in-bounds cells hold at
most one special flag each, each special flag is held by at most one
in-bounds cell, and no special cell is a wall. -/
def RoleInv (rows cols : ℕ) (G : Pos → CellN) : Prop :=
  (∀ p q, p.1 < rows → p.2 < cols → q.1 < rows → q.2 < cols →
    (G p).isStart = true → (G q).isStart = true → p = q) ∧
  (∀ p q, p.1 < rows → p.2 < cols → q.1 < rows → q.2 < cols →
    (G p).isEnd = true → (G q).isEnd = true → p = q) ∧
  (∀ p q, p.1 < rows → p.2 < cols → q.1 < rows → q.2 < cols →
    (G p).isCheckpoint = true → (G q).isCheckpoint = true → p = q) ∧
  (∀ p, p.1 < rows → p.2 < cols →
    (((G p).isStart = true → (G p).isEnd = false ∧ (G p).isCheckpoint = false) ∧
     ((G p).isEnd = true → (G p).isCheckpoint = false)) ∧
    (((G p).isStart = true ∨ (G p).isEnd = true ∨ (G p).isCheckpoint = true) →
      (G p).isWall = false))

theorem scanEmpty_some {rows cols : ℕ} {G : Pos → CellN} {p : Pos}
    (h : scanEmpty rows cols G = some p) :
    emptyCell (G p) = true ∧ p.1 < rows ∧ p.2 < cols := by
  unfold scanEmpty at h
  refine ⟨List.find?_some (p := fun p => emptyCell (G p)) h, ?_⟩
  have hm := List.mem_of_find?_eq_some h
  exact (mem_getAllNodes _ p).mp hm

theorem grepLoop_some {rows cols : ℕ} {G : Pos → CellN} {ρ : ℕ → ℕ}
    (hr : 0 < rows) (hc : 0 < cols) :
    ∀ n k p, (grepLoop rows cols G ρ n k).1 = some p →
      emptyCell (G p) = true ∧ p.1 < rows ∧ p.2 < cols := by
  intro n
  induction n with
  | zero =>
    intro k p h
    exact scanEmpty_some h
  | succ m ih =>
    intro k p h
    rw [grepLoop] at h
    by_cases he : emptyCell (G (ρ k % rows, ρ (k + 1) % cols)) = true
    · rw [if_pos he] at h
      obtain rfl : (ρ k % rows, ρ (k + 1) % cols) = p := Option.some.inj h
      exact ⟨he, Nat.mod_lt _ hr, Nat.mod_lt _ hc⟩
    · rw [if_neg he] at h
      exact ih (k + 2) p h

theorem getRandomEmptyPosition_some {rows cols : ℕ} {G : Pos → CellN}
    {ρ : ℕ → ℕ} {k : ℕ} {p : Pos} (hr : 0 < rows) (hc : 0 < cols)
    (h : (getRandomEmptyPosition rows cols G ρ k).1 = some p) :
    emptyCell (G p) = true ∧ p.1 < rows ∧ p.2 < cols :=
  grepLoop_some hr hc 100 k p h

theorem setFlag_isWall (G : Pos → CellN) (p : Pos) (T : DragType) (q : Pos) :
    (setFlag G p T q).isWall = (G q).isWall := by
  unfold setFlag
  by_cases hq : q = p
  · rw [if_pos hq]; cases T <;> rfl
  · rw [if_neg hq]

theorem setFlag_isStart (G : Pos → CellN) (p : Pos) (T : DragType) (q : Pos) :
    (setFlag G p T q).isStart
      = if q = p ∧ T = DragType.start then true else (G q).isStart := by
  unfold setFlag
  by_cases hq : q = p
  · rw [if_pos hq]
    cases T <;> simp [hq]
  · rw [if_neg hq, if_neg (fun hco => hq hco.1)]

theorem setFlag_isEnd (G : Pos → CellN) (p : Pos) (T : DragType) (q : Pos) :
    (setFlag G p T q).isEnd
      = if q = p ∧ T = DragType.end_ then true else (G q).isEnd := by
  unfold setFlag
  by_cases hq : q = p
  · rw [if_pos hq]
    cases T <;> simp [hq]
  · rw [if_neg hq, if_neg (fun hco => hq hco.1)]

theorem setFlag_isCheckpoint (G : Pos → CellN) (p : Pos) (T : DragType) (q : Pos) :
    (setFlag G p T q).isCheckpoint
      = if q = p ∧ T = DragType.checkpoint then true else (G q).isCheckpoint := by
  unfold setFlag
  by_cases hq : q = p
  · rw [if_pos hq]
    cases T <;> simp [hq]
  · rw [if_neg hq, if_neg (fun hco => hq hco.1)]

theorem rn_isWall (rows cols : ℕ) (G : Pos → CellN) (ρ : ℕ → ℕ)
    (cpE : Bool) (q : Pos) :
    (randomizeNodes rows cols G ρ cpE q).isWall = (G q).isWall := by
  unfold randomizeNodes
  rcases (rnCpDraw rows cols G ρ cpE).1 with _ | c <;>
    rcases (rnStartDraw rows cols G ρ).1 with _ | s <;>
      rcases (rnEndDraw rows cols G ρ).1 with _ | e <;>
        simp only [setFlag_isWall, rnCleared, clearFlags] <;>
          split <;> rfl

theorem rn_isStart (rows cols : ℕ) (G : Pos → CellN) (ρ : ℕ → ℕ)
    (cpE : Bool) {q : Pos} (h1 : q.1 < rows) (h2 : q.2 < cols) :
    ((randomizeNodes rows cols G ρ cpE) q).isStart = true
      ↔ (rnStartDraw rows cols G ρ).1 = some q := by
  unfold randomizeNodes
  rcases (rnCpDraw rows cols G ρ cpE).1 with _ | c <;>
    rcases hs : (rnStartDraw rows cols G ρ).1 with _ | s <;>
      rcases (rnEndDraw rows cols G ρ).1 with _ | e <;>
        simp [setFlag_isStart, setFlag_isEnd, setFlag_isCheckpoint,
          rnCleared, clearFlags, h1, h2, eq_comm]

theorem rn_isEnd (rows cols : ℕ) (G : Pos → CellN) (ρ : ℕ → ℕ)
    (cpE : Bool) {q : Pos} (h1 : q.1 < rows) (h2 : q.2 < cols) :
    ((randomizeNodes rows cols G ρ cpE) q).isEnd = true
      ↔ (rnEndDraw rows cols G ρ).1 = some q := by
  unfold randomizeNodes
  rcases (rnCpDraw rows cols G ρ cpE).1 with _ | c <;>
    rcases (rnStartDraw rows cols G ρ).1 with _ | s <;>
      rcases he : (rnEndDraw rows cols G ρ).1 with _ | e <;>
        simp [setFlag_isStart, setFlag_isEnd, setFlag_isCheckpoint,
          rnCleared, clearFlags, h1, h2, eq_comm]

theorem rn_isCheckpoint (rows cols : ℕ) (G : Pos → CellN) (ρ : ℕ → ℕ)
    (cpE : Bool) {q : Pos} (h1 : q.1 < rows) (h2 : q.2 < cols) :
    ((randomizeNodes rows cols G ρ cpE) q).isCheckpoint = true
      ↔ (rnCpDraw rows cols G ρ cpE).1 = some q := by
  unfold randomizeNodes
  rcases hcp : (rnCpDraw rows cols G ρ cpE).1 with _ | c <;>
    rcases (rnStartDraw rows cols G ρ).1 with _ | s <;>
      rcases (rnEndDraw rows cols G ρ).1 with _ | e <;>
        simp [setFlag_isStart, setFlag_isEnd, setFlag_isCheckpoint,
          rnCleared, clearFlags, h1, h2, eq_comm]

theorem handleDrop_noop (rows cols : ℕ) (G : Pos → CellN) (dragging : Bool)
    (T : DragType) (t : Pos)
    (h : ¬ (dragging = true) ∨ (G t).isWall = true) :
    handleDrop rows cols G dragging T t = G := by
  unfold handleDrop
  rw [if_pos h]

theorem handleDrop_app_t (rows cols : ℕ) (G : Pos → CellN) (dragging : Bool)
    (T : DragType) (t : Pos) (hd : dragging = true)
    (hw : (G t).isWall = false) :
    handleDrop rows cols G dragging T t t
      = { G t with
            isStart := T = DragType.start
            isEnd := T = DragType.end_
            isCheckpoint := T = DragType.checkpoint } := by
  have hng : ¬ (¬ (dragging = true) ∨ (G t).isWall = true) := by
    intro h
    rcases h with h | h
    · exact h hd
    · rw [hw] at h
      exact Bool.false_ne_true h
  unfold handleDrop
  rw [if_neg hng]
  exact if_pos rfl

theorem handleDrop_app_ne (rows cols : ℕ) (G : Pos → CellN) (dragging : Bool)
    (T : DragType) (t : Pos) (hd : dragging = true)
    (hw : (G t).isWall = false) {p : Pos} (hpt : p ≠ t) :
    handleDrop rows cols G dragging T t p
      = if p.1 < rows ∧ p.2 < cols ∧ holdsDragged T (G p) = true
        then clearFlags (G p) else G p := by
  have hng : ¬ (¬ (dragging = true) ∨ (G t).isWall = true) := by
    intro h
    rcases h with h | h
    · exact h hd
    · rw [hw] at h
      exact Bool.false_ne_true h
  unfold handleDrop
  rw [if_neg hng]
  exact if_neg hpt

theorem handleDrop_flag_ne (rows cols : ℕ) (G : Pos → CellN) (dragging : Bool)
    (T : DragType) (t : Pos) (hd : dragging = true)
    (hw : (G t).isWall = false) {p : Pos} (hpt : p ≠ t) :
    ((handleDrop rows cols G dragging T t p).isStart = true →
      (G p).isStart = true ∧ ¬ (p.1 < rows ∧ p.2 < cols ∧ holdsDragged T (G p) = true)) ∧
    ((handleDrop rows cols G dragging T t p).isEnd = true →
      (G p).isEnd = true ∧ ¬ (p.1 < rows ∧ p.2 < cols ∧ holdsDragged T (G p) = true)) ∧
    ((handleDrop rows cols G dragging T t p).isCheckpoint = true →
      (G p).isCheckpoint = true ∧ ¬ (p.1 < rows ∧ p.2 < cols ∧ holdsDragged T (G p) = true)) ∧
    (handleDrop rows cols G dragging T t p).isWall = (G p).isWall := by
  rw [handleDrop_app_ne rows cols G dragging T t hd hw hpt]
  by_cases hcl : p.1 < rows ∧ p.2 < cols ∧ holdsDragged T (G p) = true
  · rw [if_pos hcl]
    refine ⟨?_, ?_, ?_, rfl⟩ <;> intro h <;> exact absurd h (by simp [clearFlags])
  · rw [if_neg hcl]
    exact ⟨fun h => ⟨h, hcl⟩, fun h => ⟨h, hcl⟩, fun h => ⟨h, hcl⟩, rfl⟩

theorem handleDrop_preserves_RoleInv (rows cols : ℕ) (G : Pos → CellN)
    (dragging : Bool) (T : DragType) (t : Pos) (hInv : RoleInv rows cols G) :
    RoleInv rows cols (handleDrop rows cols G dragging T t) := by
  obtain ⟨hS, hE, hC, hPt⟩ := hInv
  by_cases hguard : ¬ (dragging = true) ∨ (G t).isWall = true
  · rw [handleDrop_noop rows cols G dragging T t hguard]
    exact ⟨hS, hE, hC, hPt⟩
  push_neg at hguard
  obtain ⟨hd, hwne⟩ := hguard
  have hw : (G t).isWall = false := by
    cases hvt : (G t).isWall
    · rfl
    · exact absurd hvt hwne
  have htgt := handleDrop_app_t rows cols G dragging T t hd hw
  refine ⟨?_, ?_, ?_, ?_⟩
  · intro p q hp1 hp2 hq1 hq2 hps hqs
    by_cases hpt : p = t <;> by_cases hqt : q = t
    · rw [hpt, hqt]
    · rw [hpt, htgt] at hps
      have hT : T = DragType.start := by simpa using hps
      obtain ⟨hqs', hncl⟩ :=
        (handleDrop_flag_ne rows cols G dragging T t hd hw hqt).1 hqs
      exact absurd ⟨hq1, hq2, by rw [hT]; exact hqs'⟩ hncl
    · rw [hqt, htgt] at hqs
      have hT : T = DragType.start := by simpa using hqs
      obtain ⟨hps', hncl⟩ :=
        (handleDrop_flag_ne rows cols G dragging T t hd hw hpt).1 hps
      exact absurd ⟨hp1, hp2, by rw [hT]; exact hps'⟩ hncl
    · exact hS p q hp1 hp2 hq1 hq2
        ((handleDrop_flag_ne rows cols G dragging T t hd hw hpt).1 hps).1
        ((handleDrop_flag_ne rows cols G dragging T t hd hw hqt).1 hqs).1
  · intro p q hp1 hp2 hq1 hq2 hps hqs
    by_cases hpt : p = t <;> by_cases hqt : q = t
    · rw [hpt, hqt]
    · rw [hpt, htgt] at hps
      have hT : T = DragType.end_ := by simpa using hps
      obtain ⟨hqs', hncl⟩ :=
        (handleDrop_flag_ne rows cols G dragging T t hd hw hqt).2.1 hqs
      exact absurd ⟨hq1, hq2, by rw [hT]; exact hqs'⟩ hncl
    · rw [hqt, htgt] at hqs
      have hT : T = DragType.end_ := by simpa using hqs
      obtain ⟨hps', hncl⟩ :=
        (handleDrop_flag_ne rows cols G dragging T t hd hw hpt).2.1 hps
      exact absurd ⟨hp1, hp2, by rw [hT]; exact hps'⟩ hncl
    · exact hE p q hp1 hp2 hq1 hq2
        ((handleDrop_flag_ne rows cols G dragging T t hd hw hpt).2.1 hps).1
        ((handleDrop_flag_ne rows cols G dragging T t hd hw hqt).2.1 hqs).1
  · intro p q hp1 hp2 hq1 hq2 hps hqs
    by_cases hpt : p = t <;> by_cases hqt : q = t
    · rw [hpt, hqt]
    · rw [hpt, htgt] at hps
      have hT : T = DragType.checkpoint := by simpa using hps
      obtain ⟨hqs', hncl⟩ :=
        (handleDrop_flag_ne rows cols G dragging T t hd hw hqt).2.2.1 hqs
      exact absurd ⟨hq1, hq2, by rw [hT]; exact hqs'⟩ hncl
    · rw [hqt, htgt] at hqs
      have hT : T = DragType.checkpoint := by simpa using hqs
      obtain ⟨hps', hncl⟩ :=
        (handleDrop_flag_ne rows cols G dragging T t hd hw hpt).2.2.1 hps
      exact absurd ⟨hp1, hp2, by rw [hT]; exact hps'⟩ hncl
    · exact hC p q hp1 hp2 hq1 hq2
        ((handleDrop_flag_ne rows cols G dragging T t hd hw hpt).2.2.1 hps).1
        ((handleDrop_flag_ne rows cols G dragging T t hd hw hqt).2.2.1 hqs).1
  · intro p hp1 hp2
    by_cases hpt : p = t
    · rw [hpt, htgt]
      constructor
      · constructor
        · intro h
          have hT : T = DragType.start := by simpa using h
          constructor <;> simp [hT]
        · intro h
          have hT : T = DragType.end_ := by simpa using h
          simp [hT]
      · intro h
        simpa using hw
    · have hflag := handleDrop_flag_ne rows cols G dragging T t hd hw hpt
      rw [handleDrop_app_ne rows cols G dragging T t hd hw hpt]
      by_cases hcl : p.1 < rows ∧ p.2 < cols ∧ holdsDragged T (G p) = true
      · rw [if_pos hcl]
        constructor
        · constructor <;> intro h <;> exact absurd h (by simp [clearFlags])
        · intro h
          rcases h with h | h | h <;> exact absurd h (by simp [clearFlags])
      · rw [if_neg hcl]
        exact hPt p hp1 hp2

theorem emptyCell_isWall {c : CellN} (h : emptyCell c = true) : c.isWall = false := by
  unfold emptyCell at h
  simp only [Bool.and_eq_true, Bool.not_eq_true'] at h
  exact h.1.1.1

theorem rnCleared_isWall (rows cols : ℕ) (G : Pos → CellN) (p : Pos) :
    (rnCleared rows cols G p).isWall = (G p).isWall := by
  unfold rnCleared
  split
  · rfl
  · rfl

/-- **C9 (amended).**  `handleDrop` preserves the role invariant: at most one
in-bounds holder of each of the three special flags, no cell with two special
flags, and no special cell that is a wall.  `randomizeNodes` always restores
the at-most-one and not-a-wall parts — every flag it writes goes to a single
drawn empty cell — but the mutual-exclusion part survives only when the three
draws land on pairwise distinct cells: all three positions are drawn from the
cleared grid before any flag is written back, so colliding draws stack two
flags on one node (the original claim's unconditional atomicity fails). -/
theorem c9_role_invariant (rows cols : ℕ) (G : Pos → CellN) (dragging : Bool)
    (T : DragType) (t : Pos) (ρ : ℕ → ℕ) (cpE : Bool) :
    (RoleInv rows cols G →
      RoleInv rows cols (handleDrop rows cols G dragging T t)) ∧
    (0 < rows → 0 < cols →
      ((∀ p q, p.1 < rows → p.2 < cols → q.1 < rows → q.2 < cols →
          (randomizeNodes rows cols G ρ cpE p).isStart = true →
          (randomizeNodes rows cols G ρ cpE q).isStart = true → p = q) ∧
        (∀ p q, p.1 < rows → p.2 < cols → q.1 < rows → q.2 < cols →
          (randomizeNodes rows cols G ρ cpE p).isEnd = true →
          (randomizeNodes rows cols G ρ cpE q).isEnd = true → p = q) ∧
        (∀ p q, p.1 < rows → p.2 < cols → q.1 < rows → q.2 < cols →
          (randomizeNodes rows cols G ρ cpE p).isCheckpoint = true →
          (randomizeNodes rows cols G ρ cpE q).isCheckpoint = true → p = q) ∧
        (∀ p, p.1 < rows → p.2 < cols →
          ((randomizeNodes rows cols G ρ cpE p).isStart = true ∨
            (randomizeNodes rows cols G ρ cpE p).isEnd = true ∨
            (randomizeNodes rows cols G ρ cpE p).isCheckpoint = true) →
          (randomizeNodes rows cols G ρ cpE p).isWall = false)) ∧
      ((∀ p : Pos, ¬ ((rnStartDraw rows cols G ρ).1 = some p ∧
          (rnEndDraw rows cols G ρ).1 = some p)) →
        (∀ p : Pos, ¬ ((rnStartDraw rows cols G ρ).1 = some p ∧
          (rnCpDraw rows cols G ρ cpE).1 = some p)) →
        (∀ p : Pos, ¬ ((rnEndDraw rows cols G ρ).1 = some p ∧
          (rnCpDraw rows cols G ρ cpE).1 = some p)) →
        RoleInv rows cols (randomizeNodes rows cols G ρ cpE))) := by
  constructor
  · exact handleDrop_preserves_RoleInv rows cols G dragging T t
  intro hr hc
  have hWallOf : ∀ p, p.1 < rows → p.2 < cols →
      ((randomizeNodes rows cols G ρ cpE p).isStart = true ∨
        (randomizeNodes rows cols G ρ cpE p).isEnd = true ∨
        (randomizeNodes rows cols G ρ cpE p).isCheckpoint = true) →
      (randomizeNodes rows cols G ρ cpE p).isWall = false := by
    intro p h1 h2 hflag
    have hdraw : emptyCell (rnCleared rows cols G p) = true := by
      rcases hflag with h | h | h
      · have := (rn_isStart rows cols G ρ cpE h1 h2).mp h
        exact (getRandomEmptyPosition_some hr hc this).1
      · have := (rn_isEnd rows cols G ρ cpE h1 h2).mp h
        exact (getRandomEmptyPosition_some hr hc this).1
      · have hcp := (rn_isCheckpoint rows cols G ρ cpE h1 h2).mp h
        unfold rnCpDraw at hcp
        by_cases hE : cpE = true
        · rw [if_pos hE] at hcp
          exact (getRandomEmptyPosition_some hr hc hcp).1
        · rw [if_neg hE] at hcp
          exact absurd hcp (by simp)
    rw [rn_isWall]
    have hwf := emptyCell_isWall hdraw
    rw [rnCleared_isWall] at hwf
    exact hwf
  refine ⟨⟨?_, ?_, ?_, hWallOf⟩, ?_⟩
  · intro p q hp1 hp2 hq1 hq2 hps hqs
    have h1 := (rn_isStart rows cols G ρ cpE hp1 hp2).mp hps
    have h2 := (rn_isStart rows cols G ρ cpE hq1 hq2).mp hqs
    exact Option.some.inj (h1.symm.trans h2)
  · intro p q hp1 hp2 hq1 hq2 hps hqs
    have h1 := (rn_isEnd rows cols G ρ cpE hp1 hp2).mp hps
    have h2 := (rn_isEnd rows cols G ρ cpE hq1 hq2).mp hqs
    exact Option.some.inj (h1.symm.trans h2)
  · intro p q hp1 hp2 hq1 hq2 hps hqs
    have h1 := (rn_isCheckpoint rows cols G ρ cpE hp1 hp2).mp hps
    have h2 := (rn_isCheckpoint rows cols G ρ cpE hq1 hq2).mp hqs
    exact Option.some.inj (h1.symm.trans h2)
  · intro hse hsc hec
    refine ⟨?_, ?_, ?_, ?_⟩
    · intro p q hp1 hp2 hq1 hq2 hps hqs
      have h1 := (rn_isStart rows cols G ρ cpE hp1 hp2).mp hps
      have h2 := (rn_isStart rows cols G ρ cpE hq1 hq2).mp hqs
      exact Option.some.inj (h1.symm.trans h2)
    · intro p q hp1 hp2 hq1 hq2 hps hqs
      have h1 := (rn_isEnd rows cols G ρ cpE hp1 hp2).mp hps
      have h2 := (rn_isEnd rows cols G ρ cpE hq1 hq2).mp hqs
      exact Option.some.inj (h1.symm.trans h2)
    · intro p q hp1 hp2 hq1 hq2 hps hqs
      have h1 := (rn_isCheckpoint rows cols G ρ cpE hp1 hp2).mp hps
      have h2 := (rn_isCheckpoint rows cols G ρ cpE hq1 hq2).mp hqs
      exact Option.some.inj (h1.symm.trans h2)
    · intro p hp1 hp2
      refine ⟨⟨?_, ?_⟩, hWallOf p hp1 hp2⟩
      · intro hps
        have h1 := (rn_isStart rows cols G ρ cpE hp1 hp2).mp hps
        constructor
        · cases hpe : (randomizeNodes rows cols G ρ cpE p).isEnd
          · rfl
          · have h2 := (rn_isEnd rows cols G ρ cpE hp1 hp2).mp hpe
            exact absurd ⟨h1, h2⟩ (hse p)
        · cases hpc : (randomizeNodes rows cols G ρ cpE p).isCheckpoint
          · rfl
          · have h2 := (rn_isCheckpoint rows cols G ρ cpE hp1 hp2).mp hpc
            exact absurd ⟨h1, h2⟩ (hsc p)
      · intro hpe
        have h1 := (rn_isEnd rows cols G ρ cpE hp1 hp2).mp hpe
        cases hpc : (randomizeNodes rows cols G ρ cpE p).isCheckpoint
        · rfl
        · have h2 := (rn_isCheckpoint rows cols G ρ cpE hp1 hp2).mp hpc
          exact absurd ⟨h1, h2⟩ (hec p)

/-- The original C9 is false for `randomizeNodes`: on the open 2×2 grid with
the all-zeros random stream, the start draw and the end draw both land on
`(0,0)` — both are made against the cleared grid before either flag is
written — so the final grid's node `(0,0)` is simultaneously the Start and
the End node, two roles on one node. -/
theorem c9_randomizeNodes_collision :
    (randomizeNodes 2 2 (fun _ => ⟨false, false, false, false⟩)
        (fun _ => 0) false (0, 0)).isStart = true ∧
    (randomizeNodes 2 2 (fun _ => ⟨false, false, false, false⟩)
        (fun _ => 0) false (0, 0)).isEnd = true := by
  refine ⟨by decide, by decide⟩

/-! ## Maze generators (`part_005`, `part_006`, `BasicRandomMaze.js`)

A maze board carries the grid dimensions and the special-node positions
(`board.start`, `board.target` and the optional `board.object` checkpoint;
the source stores them as `"row-col"` id strings, modelled as pairs).  Wall
state is a function `Pos → Bool` (`status === 'wall'`); `weight` and the
animation queue play no part in the claims.  Randomness: each
`Math.random() < p` threshold test is one Boolean draw from a stream
`β : ℕ → Bool` (for any real threshold both outcomes arise from some seed
and a seed realises any outcome sequence), each `Math.floor(Math.random()*n)`
one residue draw `ρ k % n`, and the random-comparator
`directions.sort(() => Math.random() - 0.5)` one draw selecting one of the
24 permutations of the four directions.  Draws advance a single cursor in
source order. -/

structure MazeBoard where
  height : ℕ
  width : ℕ
  start : Pos
  target : Pos
  object : Option Pos

/-- `isSpecialNode` of `part_005` (line 36-38): start and target only — the
stair generator's check omits `board.object`. -/
def isSpecialNodeStair (b : MazeBoard) (p : Pos) : Bool :=
  p == b.start || p == b.target

/-- `isSpecialNode` of `part_006` line 1-3 and `BasicRandomMaze.js` line 1-3:
start, target, and the object checkpoint when present. -/
def isSpecialNodeObj (b : MazeBoard) (p : Pos) : Bool :=
  p == b.start || p == b.target ||
    (match b.object with
     | some o => p == o
     | none => false)

/-- Values `a, a+s, a+2s, …` strictly below `b` (the `for (let x = a; x < b;
x += s)` loop headers). -/
def stepRange (a b s : ℕ) : List ℕ :=
  (List.range ((b - a + s - 1) / s)).map (fun i => a + s * i)

/-- The cells of a `height × width` board in row-major loop order. -/
def mazeCells (h w : ℕ) : List Pos :=
  (List.range h).flatMap fun r => (List.range w).map fun c => (r, c)

/-- The stair maze's while-loop body (`part_005` lines 7-28): a horizontal
run of up to three walls at `currentRow` and a vertical run at
`currentCol + 2`, both clipped to the inner area and skipping start/target,
then both cursors advance by 3. -/
def stairLoop (b : MazeBoard) : ℕ → ℕ → ℕ → (Pos → Bool) → Pos → Bool
  | 0, _, _, w => w
  | fuel + 1, r, c, w =>
    if r < b.height - 2 ∧ c < b.width - 2 then
      let w1 : Pos → Bool := fun p =>
        if p.1 = r ∧ c ≤ p.2 ∧ p.2 < min (c + 3) (b.width - 2)
            ∧ ¬ isSpecialNodeStair b p
        then true else w p
      let w2 : Pos → Bool := fun p =>
        if p.2 = c + 3 - 1 ∧ r ≤ p.1 ∧ p.1 < min (r + 3) (b.height - 2)
            ∧ ¬ isSpecialNodeStair b p
        then true else w1 p
      stairLoop b fuel (r + 3) (c + 3) w2
    else w

/-- `addBorder` of `part_005` (lines 40-53): every boundary cell that is not
start or target becomes a wall. -/
def addBorderStair (b : MazeBoard) (w : Pos → Bool) : Pos → Bool :=
  fun p =>
    if (p.1 = 0 ∨ p.2 = 0 ∨ p.1 = b.height - 1 ∨ p.2 = b.width - 1)
        ∧ p.1 < b.height ∧ p.2 < b.width ∧ ¬ isSpecialNodeStair b p
    then true else w p

/-- `stairMaze(board)` (`part_005` lines 1-34): the stair loop from `(2,2)`
with step 3, then the border. -/
def stairMaze (b : MazeBoard) (w : Pos → Bool) : Pos → Bool :=
  addBorderStair b (stairLoop b b.height 2 2 w)

/-- One special node's radius-2 clearing (`part_006` lines 10-23 and
`BasicRandomMaze.js` lines 63-80): every in-bounds non-special cell within
Chebyshev distance 2 of the node is set open. -/
def clearAroundNode (b : MazeBoard) (sp : Pos) (w : Pos → Bool) : Pos → Bool :=
  fun p =>
    if ((p.1 : ℤ) - sp.1).natAbs ≤ 2 ∧ ((p.2 : ℤ) - sp.2).natAbs ≤ 2
        ∧ p.1 < b.height ∧ p.2 < b.width ∧ ¬ isSpecialNodeObj b p
    then false else w p

/-- The special nodes `clearAroundSpecialNodes` iterates over (`part_006`
lines 6-7): start, target, and the object when present. -/
def specialsList (b : MazeBoard) : List Pos :=
  [b.start, b.target] ++
    (match b.object with
     | some o => [o]
     | none => [])

/-- `clearAroundSpecialNodes(board)` (`part_006` lines 5-25). -/
def clearAroundSpecialNodes (b : MazeBoard) (w : Pos → Bool) : Pos → Bool :=
  (specialsList b).foldl (fun wacc sp => clearAroundNode b sp wacc) w

/-- `addBorder` of `BasicRandomMaze.js` (lines 5-17): like the stair
border but also sparing the object. -/
def addBorderObj (b : MazeBoard) (w : Pos → Bool) : Pos → Bool :=
  fun p =>
    if (p.1 = 0 ∨ p.2 = 0 ∨ p.1 = b.height - 1 ∨ p.2 = b.width - 1)
        ∧ p.1 < b.height ∧ p.2 < b.width ∧ ¬ isSpecialNodeObj b p
    then true else w p

/-- The four extension directions of `BasicRandomMaze.js` (lines 37-42), in
source order: right, left, down, up. -/
def basicDirections : List (ℤ × ℤ) :=
  [(0, 1), (0, -1), (1, 0), (-1, 0)]

/-- The checkerboard pass body of `generateBasicRandomMaze`
(`BasicRandomMaze.js` lines 27-59) at one candidate cell: a density draw,
then — on success — a center wall, a 1-or-2 draw, a permutation draw for the
shuffled directions, and the guarded extension walls.  Loop cells have both
coordinates at least 2, so the integer offsets cast back exactly. -/
def basicCell (b : MazeBoard) (β : ℕ → Bool) (ρ : ℕ → ℕ) (st : (Pos → Bool) × ℕ)
    (cell : Pos) : (Pos → Bool) × ℕ :=
  if isSpecialNodeObj b cell then st
  else if β st.2 then
    let w1 := setF st.1 cell true
    let numExt := if β (st.2 + 1) then 2 else 1
    let dirs := basicDirections.permutations.getD
      (ρ (st.2 + 2) % basicDirections.permutations.length) basicDirections
    let w2 := (dirs.take numExt).foldl
      (fun wacc d =>
        let q : Pos := (((cell.1 : ℤ) + d.1).toNat, ((cell.2 : ℤ) + d.2).toNat)
        if ¬ isSpecialNodeObj b q then setF wacc q true else wacc) w1
    (w2, st.2 + 3)
  else (st.1, st.2 + 1)

/-- `generateBasicRandomMaze(board)` (`BasicRandomMaze.js` lines 19-84):
border, the checkerboard pass over every second inner cell, then the radius-2
clearing around start and target (only — the object gets no clearing). -/
def generateBasicRandomMaze (b : MazeBoard) (β : ℕ → Bool) (ρ : ℕ → ℕ)
    (w0 : Pos → Bool) : Pos → Bool :=
  let w1 := addBorderObj b w0
  let cells := (stepRange 2 (b.height - 2) 2).flatMap
    (fun r => (stepRange 2 (b.width - 2) 2).map (fun c => (r, c)))
  let res := cells.foldl (basicCell b β ρ) (w1, 0)
  [b.start, b.target].foldl (fun wacc sp => clearAroundNode b sp wacc) res.1

/-- The eight neighbour offsets of the clustering pass (`part_006` lines
61-68), in loop order. -/
def clusterOffsets : List (ℤ × ℤ) :=
  [(-1, -1), (-1, 0), (-1, 1), (0, -1), (0, 1), (1, -1), (1, 0), (1, 1)]

/-- The number of adjacent walls of an inner cell (`part_006` lines 60-69);
pass-2 cells have both coordinates at least 1, so the casts are exact. -/
def adjacentWallCount (w : Pos → Bool) (cell : Pos) : ℕ :=
  (clusterOffsets.filter
    (fun d => w (((cell.1 : ℤ) + d.1).toNat, ((cell.2 : ℤ) + d.2).toNat))).length

/-- Pass 1 of `generateRandomMaze` at one cell (`part_006` lines 44-52): a
non-special cell draws once and becomes a wall on success. -/
def densityPass1Cell (b : MazeBoard) (β : ℕ → Bool) (st : (Pos → Bool) × ℕ)
    (cell : Pos) : (Pos → Bool) × ℕ :=
  if isSpecialNodeObj b cell then st
  else ((if β st.2 then setF st.1 cell true else st.1), st.2 + 1)

/-- Pass 2 of `generateRandomMaze` at one inner cell (`part_006` lines
55-78): a draw is made — and a wall possibly added — only when the cell is
non-special and at least two of its eight neighbours are walls. -/
def densityPass2Cell (b : MazeBoard) (β : ℕ → Bool) (st : (Pos → Bool) × ℕ)
    (cell : Pos) : (Pos → Bool) × ℕ :=
  if isSpecialNodeObj b cell then st
  else if 2 ≤ adjacentWallCount st.1 cell then
    ((if β st.2 then setF st.1 cell true else st.1), st.2 + 1)
  else st

/-- Pass 3 of `generateRandomMaze` at one even-coordinate cell (`part_006`
lines 81-93): a non-special cell draws once and is cleared on success. -/
def densityPass3Cell (b : MazeBoard) (β : ℕ → Bool) (st : (Pos → Bool) × ℕ)
    (cell : Pos) : (Pos → Bool) × ℕ :=
  if isSpecialNodeObj b cell then st
  else ((if β st.2 then setF st.1 cell false else st.1), st.2 + 1)

/-- `generateRandomMaze(board)` (`part_006` lines 27-99): reset all
non-special cells, the three random passes, then the radius-2 clearing
around every special node. -/
def generateRandomMaze (b : MazeBoard) (β : ℕ → Bool) (w0 : Pos → Bool) :
    Pos → Bool :=
  let w1 : Pos → Bool := fun p =>
    if p.1 < b.height ∧ p.2 < b.width ∧ ¬ isSpecialNodeObj b p then false else w0 p
  let r2 := (mazeCells b.height b.width).foldl (densityPass1Cell b β) (w1, 0)
  let innerCells := (stepRange 1 (b.height - 1) 1).flatMap
    (fun r => (stepRange 1 (b.width - 1) 1).map (fun c => (r, c)))
  let r3 := innerCells.foldl (densityPass2Cell b β) r2
  let evenCells := (stepRange 0 b.height 2).flatMap
    (fun r => (stepRange 0 b.width 2).map (fun c => (r, c)))
  let r4 := evenCells.foldl (densityPass3Cell b β) r3
  clearAroundSpecialNodes b r4.1

/-! ## Recursive division (`part_004`)

The recursion's region bounds are JavaScript integers and may go negative at
the leaves, so they are modelled as `ℤ` and wall state as a function on
`ℤ × ℤ`; the board's cells occupy `[0, height) × [0, width)`.  The recursion
is driven by a fuel parameter: each recursive call shrinks
`(rowEnd - rowStart) + (colEnd - colStart)` by at least 2, so any fuel of at
least `height + width` runs the source recursion to completion, and the
connectivity analysis below holds for every fuel. -/

abbrev ZPos := ℤ × ℤ

/-- A board position as a `ℤ` pair. -/
def zOf (p : Pos) : ZPos := ((p.1 : ℤ), (p.2 : ℤ))

/-- The wall-write guard of `part_004` (lines 12, 39, 73): the cell is not
the start, the target, nor — when the board has one — the object. -/
def isSpecialZ (b : MazeBoard) (p : ZPos) : Bool :=
  p == zOf b.start || p == zOf b.target ||
    (match b.object with
     | some o => p == zOf o
     | none => false)

/-- The surrounding-walls prologue (`part_004` lines 6-21, `type = 'wall'`):
every boundary cell of the board that is not special becomes a wall. -/
def addSurroundingWalls (b : MazeBoard) (w : ZPos → Bool) : ZPos → Bool :=
  fun p =>
    if (p.1 = 0 ∨ p.2 = 0 ∨ p.1 = (b.height : ℤ) - 1 ∨ p.2 = (b.width : ℤ) - 1)
        ∧ 0 ≤ p.1 ∧ p.1 < (b.height : ℤ) ∧ 0 ≤ p.2 ∧ p.2 < (b.width : ℤ)
        ∧ ¬ isSpecialZ b p
    then true else w p

/-- The candidate wall lines `rowStart, rowStart+2, … ≤ rowEnd` (`part_004`
lines 25-28 and 59-62). -/
def possibleLines (a b : ℤ) : List ℤ :=
  if b < a then []
  else (List.range ((b - a).toNat / 2 + 1)).map (fun i : ℕ => a + 2 * (i : ℤ))

/-- A horizontal wall with one passage (`part_004` lines 37-44,
`type = 'wall'`): row `row`, columns `cs..ce` except `passage`, skipping
special cells. -/
def placeHorizWall (b : MazeBoard) (row passage cs ce : ℤ)
    (w : ZPos → Bool) : ZPos → Bool :=
  fun p =>
    if p.1 = row ∧ cs ≤ p.2 ∧ p.2 ≤ ce ∧ p.2 ≠ passage ∧ ¬ isSpecialZ b p
    then true else w p

/-- A vertical wall with one passage (`part_004` lines 71-78). -/
def placeVertWall (b : MazeBoard) (col passage rs re : ℤ)
    (w : ZPos → Bool) : ZPos → Bool :=
  fun p =>
    if p.2 = col ∧ rs ≤ p.1 ∧ p.1 ≤ re ∧ p.1 ≠ passage ∧ ¬ isSpecialZ b p
    then true else w p

inductive Orient
  | horizontal
  | vertical
deriving DecidableEq

/-- `generateRecursiveMaze(board, rowStart, rowEnd, colStart, colEnd,
orientation, surroundingWalls, 'wall')` (`part_004` lines 1-93), fuelled.
The two random draws per division — the wall line index and the passage —
are the residue draws `ρ k` and `ρ (k+1)`. -/
def recMaze (b : MazeBoard) (ρ : ℕ → ℕ) :
    ℕ → ℤ → ℤ → ℤ → ℤ → Orient → Bool → (ZPos → Bool) × ℕ →
      (ZPos → Bool) × ℕ
  | 0, _, _, _, _, _, _, wk => wk
  | fuel + 1, rs, re, cs, ce, orient, sw, (w, k) =>
    if re < rs ∨ ce < cs then (w, k)
    else
      let w := if sw then w else addSurroundingWalls b w
      match orient with
      | .horizontal =>
        match possibleLines rs re with
        | [] => (w, k)
        | l0 :: ls =>
          let currentRow := (l0 :: ls).getD (ρ k % (l0 :: ls).length) 0
          let passage := cs + (ρ (k + 1) % ((ce - cs).toNat + 1) : ℕ)
          let w1 := placeHorizWall b currentRow passage cs ce w
          let o1 := if currentRow - 2 - rs > ce - cs then orient else Orient.vertical
          let o2 := if re - (currentRow + 2) > ce - cs then orient else Orient.vertical
          let r1 := recMaze b ρ fuel rs (currentRow - 2) cs ce o1 true (w1, k + 2)
          recMaze b ρ fuel (currentRow + 2) re cs ce o2 true r1
      | .vertical =>
        match possibleLines cs ce with
        | [] => (w, k)
        | l0 :: ls =>
          let currentCol := (l0 :: ls).getD (ρ k % (l0 :: ls).length) 0
          let passage := rs + (ρ (k + 1) % ((re - rs).toNat + 1) : ℕ)
          let w1 := placeVertWall b currentCol passage rs re w
          let o1 := if re - rs > currentCol - 2 - cs then Orient.horizontal else orient
          let o2 := if re - rs > ce - (currentCol + 2) then Orient.horizontal else orient
          let r1 := recMaze b ρ fuel rs re cs (currentCol - 2) o1 true (w1, k + 2)
          recMaze b ρ fuel rs re (currentCol + 2) ce o2 true r1

/-- The component's invocation shape (`part_002` lines 1079-1087 with the
function's own `surroundingWalls = false` default): divide
`[2, height-3] × [2, width-3]` horizontally first, with fuel
`height + width` (ample: each division consumes at least 2 of the region's
half-perimeter). -/
def generateRecursiveMazeTop (b : MazeBoard) (ρ : ℕ → ℕ)
    (w : ZPos → Bool) : ZPos → Bool :=
  (recMaze b ρ (b.height + b.width) 2 ((b.height : ℤ) - 3) 2
    ((b.width : ℤ) - 3) Orient.horizontal false (w, 0)).1

/-- The grid a maze wall-state induces for the search engines. -/
def gridOfMaze (b : MazeBoard) (w : ZPos → Bool) : GridSpec :=
  { rows := b.height, cols := b.width, wall := fun p => w (zOf p) }

/-- 4-adjacency on `ℤ` cells. -/
def ZAdj (p q : ZPos) : Prop :=
  (p.1 = q.1 ∧ (q.2 = p.2 + 1 ∨ p.2 = q.2 + 1)) ∨
  (p.2 = q.2 ∧ (q.1 = p.1 + 1 ∨ p.1 = q.1 + 1))

theorem ZAdj.swap {p q : ZPos} (h : ZAdj p q) : ZAdj q p := by
  unfold ZAdj at h ⊢
  rcases h with ⟨h1, h2 | h2⟩ | ⟨h1, h2 | h2⟩
  · exact Or.inl ⟨h1.symm, Or.inr h2⟩
  · exact Or.inl ⟨h1.symm, Or.inl h2⟩
  · exact Or.inr ⟨h1.symm, Or.inr h2⟩
  · exact Or.inr ⟨h1.symm, Or.inl h2⟩

/-- A walk through cells satisfying `P`, by unit steps. -/
inductive ZWalk (P : ZPos → Prop) : ZPos → ZPos → Prop
  | refl (p : ZPos) (h : P p) : ZWalk P p p
  | step {p q r : ZPos} (hp : P p) (hadj : ZAdj p q) (ht : ZWalk P q r) :
      ZWalk P p r

theorem ZWalk.head {P : ZPos → Prop} {p q : ZPos} (h : ZWalk P p q) : P p := by
  cases h with
  | refl _ hp => exact hp
  | step hp _ _ => exact hp

theorem ZWalk.last {P : ZPos → Prop} {p q : ZPos} (h : ZWalk P p q) : P q := by
  induction h with
  | refl _ hp => exact hp
  | step _ _ _ ih => exact ih

theorem ZWalk.trans {P : ZPos → Prop} {p q r : ZPos} (h1 : ZWalk P p q)
    (h2 : ZWalk P q r) : ZWalk P p r := by
  induction h1 with
  | refl _ _ => exact h2
  | step hp hadj _ ih => exact ZWalk.step hp hadj (ih h2)

theorem ZWalk.mono {P Q : ZPos → Prop} (hPQ : ∀ x, P x → Q x) {p q : ZPos}
    (h : ZWalk P p q) : ZWalk Q p q := by
  induction h with
  | refl x hx => exact ZWalk.refl x (hPQ x hx)
  | step hp hadj _ ih => exact ZWalk.step (hPQ _ hp) hadj ih

theorem ZWalk.symm {P : ZPos → Prop} {p q : ZPos} (h : ZWalk P p q) :
    ZWalk P q p := by
  induction h with
  | refl x hx => exact ZWalk.refl x hx
  | step hp hadj ht ih =>
    exact ZWalk.trans ih (ZWalk.step ht.head hadj.swap (ZWalk.refl _ hp))

/-- Membership in the axis-aligned rectangle `[r1, r2] × [c1, c2]`. -/
def inRect (r1 r2 c1 c2 : ℤ) (p : ZPos) : Prop :=
  r1 ≤ p.1 ∧ p.1 ≤ r2 ∧ c1 ≤ p.2 ∧ p.2 ≤ c2

instance (r1 r2 c1 c2 : ℤ) (p : ZPos) : Decidable (inRect r1 r2 c1 c2 p) := by
  unfold inRect; infer_instance

/-- Horizontal segment walk: two cells of a rectangle on the same row are
joined inside the rectangle. -/
theorem rect_walk_row (r1 r2 c1 c2 : ℤ) :
    ∀ (n : ℕ) (p q : ZPos), p.1 = q.1 → (q.2 - p.2).natAbs = n →
      inRect r1 r2 c1 c2 p → inRect r1 r2 c1 c2 q →
      ZWalk (inRect r1 r2 c1 c2) p q := by
  intro n
  induction n with
  | zero =>
    intro p q hrow habs hp hq
    have : p = q := by
      have h2 : p.2 = q.2 := by omega
      exact Prod.ext hrow h2
    rw [this]
    exact ZWalk.refl q hq
  | succ m ih =>
    intro p q hrow habs hp hq
    rcases lt_trichotomy p.2 q.2 with hlt | heq | hgt
    · have hstep : ZAdj p (p.1, p.2 + 1) := Or.inl ⟨rfl, Or.inl rfl⟩
      have hmid : inRect r1 r2 c1 c2 (p.1, p.2 + 1) := by
        obtain ⟨a1, a2, a3, a4⟩ := hp
        obtain ⟨b1, b2, b3, b4⟩ := hq
        exact ⟨a1, a2, by omega, by omega⟩
      exact ZWalk.step hp hstep
        (ih (p.1, p.2 + 1) q hrow (by simp; omega) hmid hq)
    · omega
    · have hstep : ZAdj p (p.1, p.2 - 1) := Or.inl ⟨rfl, Or.inr (by omega)⟩
      have hmid : inRect r1 r2 c1 c2 (p.1, p.2 - 1) := by
        obtain ⟨a1, a2, a3, a4⟩ := hp
        obtain ⟨b1, b2, b3, b4⟩ := hq
        exact ⟨a1, a2, by omega, by omega⟩
      exact ZWalk.step hp hstep
        (ih (p.1, p.2 - 1) q hrow (by simp; omega) hmid hq)

/-- Vertical segment walk. -/
theorem rect_walk_col (r1 r2 c1 c2 : ℤ) :
    ∀ (n : ℕ) (p q : ZPos), p.2 = q.2 → (q.1 - p.1).natAbs = n →
      inRect r1 r2 c1 c2 p → inRect r1 r2 c1 c2 q →
      ZWalk (inRect r1 r2 c1 c2) p q := by
  intro n
  induction n with
  | zero =>
    intro p q hcol habs hp hq
    have : p = q := by
      have h1 : p.1 = q.1 := by omega
      exact Prod.ext h1 hcol
    rw [this]
    exact ZWalk.refl q hq
  | succ m ih =>
    intro p q hcol habs hp hq
    rcases lt_trichotomy p.1 q.1 with hlt | heq | hgt
    · have hstep : ZAdj p (p.1 + 1, p.2) := Or.inr ⟨rfl, Or.inl rfl⟩
      have hmid : inRect r1 r2 c1 c2 (p.1 + 1, p.2) := by
        obtain ⟨a1, a2, a3, a4⟩ := hp
        obtain ⟨b1, b2, b3, b4⟩ := hq
        exact ⟨by omega, by omega, a3, a4⟩
      exact ZWalk.step hp hstep
        (ih (p.1 + 1, p.2) q hcol (by simp; omega) hmid hq)
    · omega
    · have hstep : ZAdj p (p.1 - 1, p.2) := Or.inr ⟨rfl, Or.inr (by omega)⟩
      have hmid : inRect r1 r2 c1 c2 (p.1 - 1, p.2) := by
        obtain ⟨a1, a2, a3, a4⟩ := hp
        obtain ⟨b1, b2, b3, b4⟩ := hq
        exact ⟨by omega, by omega, a3, a4⟩
      exact ZWalk.step hp hstep
        (ih (p.1 - 1, p.2) q hcol (by simp; omega) hmid hq)

/-- Any two cells of a fully open rectangle are joined inside it, walking
along the row and then the column. -/
theorem rect_walk (r1 r2 c1 c2 : ℤ) {p q : ZPos} (hp : inRect r1 r2 c1 c2 p)
    (hq : inRect r1 r2 c1 c2 q) : ZWalk (inRect r1 r2 c1 c2) p q := by
  have hc : inRect r1 r2 c1 c2 (p.1, q.2) := by
    obtain ⟨a1, a2, a3, a4⟩ := hp
    obtain ⟨b1, b2, b3, b4⟩ := hq
    exact ⟨a1, a2, b3, b4⟩
  exact ZWalk.trans
    (rect_walk_row r1 r2 c1 c2 (q.2 - p.2).natAbs p (p.1, q.2) rfl rfl hp hc)
    (rect_walk_col r1 r2 c1 c2 (q.1 - p.1).natAbs (p.1, q.2) q rfl rfl hc hq)

theorem recMaze_stop (b : MazeBoard) (ρ : ℕ → ℕ) (fuel : ℕ) (rs re cs ce : ℤ)
    (orient : Orient) (sw : Bool) (w : ZPos → Bool) (k : ℕ)
    (h : re < rs ∨ ce < cs) :
    recMaze b ρ (fuel + 1) rs re cs ce orient sw (w, k) = (w, k) := by
  unfold recMaze
  rw [if_pos h]

theorem recMaze_false_true (b : MazeBoard) (ρ : ℕ → ℕ) (fuel : ℕ)
    (rs re cs ce : ℤ) (orient : Orient) (w : ZPos → Bool) (k : ℕ)
    (h : ¬ (re < rs ∨ ce < cs)) :
    recMaze b ρ (fuel + 1) rs re cs ce orient false (w, k)
      = recMaze b ρ (fuel + 1) rs re cs ce orient true
          (addSurroundingWalls b w, k) := by
  unfold recMaze
  rw [if_neg h, if_neg h]
  rfl

theorem recMaze_step_h (b : MazeBoard) (ρ : ℕ → ℕ) (fuel : ℕ)
    (rs re cs ce : ℤ) (w : ZPos → Bool) (k : ℕ) (l0 : ℤ) (ls : List ℤ)
    (hne : ¬ (re < rs ∨ ce < cs)) (hpl : possibleLines rs re = l0 :: ls) :
    recMaze b ρ (fuel + 1) rs re cs ce Orient.horizontal true (w, k)
      = (let cR := (l0 :: ls).getD (ρ k % (l0 :: ls).length) 0
         let passage := cs + ((ρ (k + 1) % ((ce - cs).toNat + 1) : ℕ) : ℤ)
         let w1 := placeHorizWall b cR passage cs ce w
         let o1 := if cR - 2 - rs > ce - cs then Orient.horizontal
                   else Orient.vertical
         let o2 := if re - (cR + 2) > ce - cs then Orient.horizontal
                   else Orient.vertical
         recMaze b ρ fuel (cR + 2) re cs ce o2 true
           (recMaze b ρ fuel rs (cR - 2) cs ce o1 true (w1, k + 2))) := by
  conv_lhs => unfold recMaze
  rw [if_neg hne, hpl]
  rfl

theorem recMaze_step_v (b : MazeBoard) (ρ : ℕ → ℕ) (fuel : ℕ)
    (rs re cs ce : ℤ) (w : ZPos → Bool) (k : ℕ) (l0 : ℤ) (ls : List ℤ)
    (hne : ¬ (re < rs ∨ ce < cs)) (hpl : possibleLines cs ce = l0 :: ls) :
    recMaze b ρ (fuel + 1) rs re cs ce Orient.vertical true (w, k)
      = (let cC := (l0 :: ls).getD (ρ k % (l0 :: ls).length) 0
         let passage := rs + ((ρ (k + 1) % ((re - rs).toNat + 1) : ℕ) : ℤ)
         let w1 := placeVertWall b cC passage rs re w
         let o1 := if re - rs > cC - 2 - cs then Orient.horizontal
                   else Orient.vertical
         let o2 := if re - rs > ce - (cC + 2) then Orient.horizontal
                   else Orient.vertical
         recMaze b ρ fuel rs re (cC + 2) ce o2 true
           (recMaze b ρ fuel rs re cs (cC - 2) o1 true (w1, k + 2))) := by
  conv_lhs => unfold recMaze
  rw [if_neg hne, hpl]
  rfl

theorem recMaze_step_h_nil (b : MazeBoard) (ρ : ℕ → ℕ) (fuel : ℕ)
    (rs re cs ce : ℤ) (w : ZPos → Bool) (k : ℕ)
    (hne : ¬ (re < rs ∨ ce < cs)) (hpl : possibleLines rs re = []) :
    recMaze b ρ (fuel + 1) rs re cs ce Orient.horizontal true (w, k) = (w, k) := by
  unfold recMaze
  rw [if_neg hne, hpl]
  rfl

theorem recMaze_step_v_nil (b : MazeBoard) (ρ : ℕ → ℕ) (fuel : ℕ)
    (rs re cs ce : ℤ) (w : ZPos → Bool) (k : ℕ)
    (hne : ¬ (re < rs ∨ ce < cs)) (hpl : possibleLines cs ce = []) :
    recMaze b ρ (fuel + 1) rs re cs ce Orient.vertical true (w, k) = (w, k) := by
  unfold recMaze
  rw [if_neg hne, hpl]
  rfl

theorem possibleLines_mem {a b x : ℤ} (h : x ∈ possibleLines a b) :
    a ≤ x ∧ x ≤ b := by
  unfold possibleLines at h
  by_cases hab : b < a
  · rw [if_pos hab] at h
    exact absurd h (List.not_mem_nil x)
  · rw [if_neg hab] at h
    simp only [List.mem_map, List.mem_range] at h
    obtain ⟨i, hi, hx⟩ := h
    push_neg at hab
    have hba : ((b - a).toNat : ℤ) = b - a := Int.toNat_of_nonneg (by omega)
    have h3 : i ≤ (b - a).toNat / 2 := by omega
    have h4 : (b - a).toNat / 2 * 2 ≤ (b - a).toNat := Nat.div_mul_le_self _ 2
    subst hx
    constructor
    · omega
    · omega

theorem getD_mem_of_lt {l : List ℤ} {i : ℕ} (h : i < l.length) :
    l.getD i 0 ∈ l := by
  rw [List.getD_eq_getElem l 0 h]
  exact List.getElem_mem h

theorem addSurroundingWalls_special {b : MazeBoard} {p : ZPos}
    (h : isSpecialZ b p = true) (w : ZPos → Bool) :
    addSurroundingWalls b w p = w p := by
  unfold addSurroundingWalls
  rw [if_neg (fun hco => hco.2.2.2.2.2 h)]

theorem placeHorizWall_special {b : MazeBoard} {p : ZPos}
    (h : isSpecialZ b p = true) (row passage cs ce : ℤ) (w : ZPos → Bool) :
    placeHorizWall b row passage cs ce w p = w p := by
  unfold placeHorizWall
  rw [if_neg (fun hco => hco.2.2.2.2 h)]

theorem placeVertWall_special {b : MazeBoard} {p : ZPos}
    (h : isSpecialZ b p = true) (col passage rs re : ℤ) (w : ZPos → Bool) :
    placeVertWall b col passage rs re w p = w p := by
  unfold placeVertWall
  rw [if_neg (fun hco => hco.2.2.2.2 h)]

theorem addSurroundingWalls_mono {w : ZPos → Bool} {p : ZPos}
    (h : w p = true) (b : MazeBoard) : addSurroundingWalls b w p = true := by
  unfold addSurroundingWalls
  split
  · rfl
  · exact h

theorem placeHorizWall_mono {w : ZPos → Bool} {p : ZPos} (h : w p = true)
    (b : MazeBoard) (row passage cs ce : ℤ) :
    placeHorizWall b row passage cs ce w p = true := by
  unfold placeHorizWall
  split
  · rfl
  · exact h

theorem placeVertWall_mono {w : ZPos → Bool} {p : ZPos} (h : w p = true)
    (b : MazeBoard) (col passage rs re : ℤ) :
    placeVertWall b col passage rs re w p = true := by
  unfold placeVertWall
  split
  · rfl
  · exact h

theorem placeHorizWall_new {b : MazeBoard} {row passage cs ce : ℤ}
    {w : ZPos → Bool} {p : ZPos}
    (h : placeHorizWall b row passage cs ce w p = true) :
    w p = true ∨ (p.1 = row ∧ cs ≤ p.2 ∧ p.2 ≤ ce) := by
  unfold placeHorizWall at h
  by_cases hco : p.1 = row ∧ cs ≤ p.2 ∧ p.2 ≤ ce ∧ p.2 ≠ passage
      ∧ ¬ isSpecialZ b p = true
  · exact Or.inr ⟨hco.1, hco.2.1, hco.2.2.1⟩
  · rw [if_neg hco] at h
    exact Or.inl h

theorem placeVertWall_new {b : MazeBoard} {col passage rs re : ℤ}
    {w : ZPos → Bool} {p : ZPos}
    (h : placeVertWall b col passage rs re w p = true) :
    w p = true ∨ (p.2 = col ∧ rs ≤ p.1 ∧ p.1 ≤ re) := by
  unfold placeVertWall at h
  by_cases hco : p.2 = col ∧ rs ≤ p.1 ∧ p.1 ≤ re ∧ p.1 ≠ passage
      ∧ ¬ isSpecialZ b p = true
  · exact Or.inr ⟨hco.1, hco.2.1, hco.2.2.1⟩
  · rw [if_neg hco] at h
    exact Or.inl h

/-- No wall write of `generateRecursiveMaze` ever touches a special node:
every write site is guarded. -/
theorem recMaze_special (b : MazeBoard) (ρ : ℕ → ℕ) :
    ∀ (fuel : ℕ) (rs re cs ce : ℤ) (orient : Orient) (sw : Bool)
      (w : ZPos → Bool) (k : ℕ) (p : ZPos), isSpecialZ b p = true →
      (recMaze b ρ fuel rs re cs ce orient sw (w, k)).1 p = w p := by
  intro fuel
  induction fuel with
  | zero => intro rs re cs ce orient sw w k p hsp; rfl
  | succ f ih =>
    intro rs re cs ce orient sw w k p hsp
    by_cases hg : re < rs ∨ ce < cs
    · rw [recMaze_stop b ρ f rs re cs ce orient sw w k hg]
    · cases sw with
      | false =>
        rw [recMaze_false_true b ρ f rs re cs ce orient w k hg]
        cases orient with
        | horizontal =>
          rcases hpl : possibleLines rs re with _ | ⟨l0, ls⟩
          · rw [recMaze_step_h_nil b ρ f rs re cs ce _ k hg hpl]
            exact addSurroundingWalls_special hsp w
          · rw [recMaze_step_h b ρ f rs re cs ce _ k l0 ls hg hpl]
            simp only
            rw [ih, ih, placeHorizWall_special hsp, addSurroundingWalls_special hsp w]
            all_goals exact hsp
        | vertical =>
          rcases hpl : possibleLines cs ce with _ | ⟨l0, ls⟩
          · rw [recMaze_step_v_nil b ρ f rs re cs ce _ k hg hpl]
            exact addSurroundingWalls_special hsp w
          · rw [recMaze_step_v b ρ f rs re cs ce _ k l0 ls hg hpl]
            simp only
            rw [ih, ih, placeVertWall_special hsp, addSurroundingWalls_special hsp w]
            all_goals exact hsp
      | true =>
        cases orient with
        | horizontal =>
          rcases hpl : possibleLines rs re with _ | ⟨l0, ls⟩
          · rw [recMaze_step_h_nil b ρ f rs re cs ce w k hg hpl]
          · rw [recMaze_step_h b ρ f rs re cs ce w k l0 ls hg hpl]
            simp only
            rw [ih, ih, placeHorizWall_special hsp]
            all_goals exact hsp
        | vertical =>
          rcases hpl : possibleLines cs ce with _ | ⟨l0, ls⟩
          · rw [recMaze_step_v_nil b ρ f rs re cs ce w k hg hpl]
          · rw [recMaze_step_v b ρ f rs re cs ce w k l0 ls hg hpl]
            simp only
            rw [ih, ih, placeVertWall_special hsp]
            all_goals exact hsp

/-- `generateRecursiveMaze` only adds walls, never removes one. -/
theorem recMaze_mono (b : MazeBoard) (ρ : ℕ → ℕ) :
    ∀ (fuel : ℕ) (rs re cs ce : ℤ) (orient : Orient) (sw : Bool)
      (w : ZPos → Bool) (k : ℕ) (p : ZPos), w p = true →
      (recMaze b ρ fuel rs re cs ce orient sw (w, k)).1 p = true := by
  intro fuel
  induction fuel with
  | zero => intro rs re cs ce orient sw w k p hw; exact hw
  | succ f ih =>
    intro rs re cs ce orient sw w k p hw
    by_cases hg : re < rs ∨ ce < cs
    · rw [recMaze_stop b ρ f rs re cs ce orient sw w k hg]
      exact hw
    · cases sw with
      | false =>
        rw [recMaze_false_true b ρ f rs re cs ce orient w k hg]
        cases orient with
        | horizontal =>
          rcases hpl : possibleLines rs re with _ | ⟨l0, ls⟩
          · rw [recMaze_step_h_nil b ρ f rs re cs ce _ k hg hpl]
            exact addSurroundingWalls_mono hw b
          · rw [recMaze_step_h b ρ f rs re cs ce _ k l0 ls hg hpl]
            simp only
            exact ih _ _ _ _ _ _ _ _ p (ih _ _ _ _ _ _ _ _ p
              (placeHorizWall_mono (addSurroundingWalls_mono hw b) b _ _ cs ce))
        | vertical =>
          rcases hpl : possibleLines cs ce with _ | ⟨l0, ls⟩
          · rw [recMaze_step_v_nil b ρ f rs re cs ce _ k hg hpl]
            exact addSurroundingWalls_mono hw b
          · rw [recMaze_step_v b ρ f rs re cs ce _ k l0 ls hg hpl]
            simp only
            exact ih _ _ _ _ _ _ _ _ p (ih _ _ _ _ _ _ _ _ p
              (placeVertWall_mono (addSurroundingWalls_mono hw b) b _ _ rs re))
      | true =>
        cases orient with
        | horizontal =>
          rcases hpl : possibleLines rs re with _ | ⟨l0, ls⟩
          · rw [recMaze_step_h_nil b ρ f rs re cs ce w k hg hpl]
            exact hw
          · rw [recMaze_step_h b ρ f rs re cs ce w k l0 ls hg hpl]
            simp only
            exact ih _ _ _ _ _ _ _ _ p (ih _ _ _ _ _ _ _ _ p
              (placeHorizWall_mono hw b _ _ cs ce))
        | vertical =>
          rcases hpl : possibleLines cs ce with _ | ⟨l0, ls⟩
          · rw [recMaze_step_v_nil b ρ f rs re cs ce w k hg hpl]
            exact hw
          · rw [recMaze_step_v b ρ f rs re cs ce w k l0 ls hg hpl]
            simp only
            exact ih _ _ _ _ _ _ _ _ p (ih _ _ _ _ _ _ _ _ p
              (placeVertWall_mono hw b _ _ rs re))

/-- With the border already placed (`surroundingWalls = true`), every wall
`generateRecursiveMaze` adds lies in the region `[rs, re] × [cs, ce]`. -/
theorem recMaze_newWalls (b : MazeBoard) (ρ : ℕ → ℕ) :
    ∀ (fuel : ℕ) (rs re cs ce : ℤ) (orient : Orient) (w : ZPos → Bool)
      (k : ℕ) (p : ZPos),
      (recMaze b ρ fuel rs re cs ce orient true (w, k)).1 p = true →
      w p = true ∨ inRect rs re cs ce p := by
  intro fuel
  induction fuel with
  | zero => intro rs re cs ce orient w k p h; exact Or.inl h
  | succ f ih =>
    intro rs re cs ce orient w k p h
    by_cases hg : re < rs ∨ ce < cs
    · rw [recMaze_stop b ρ f rs re cs ce orient true w k hg] at h
      exact Or.inl h
    · cases orient with
      | horizontal =>
        rcases hpl : possibleLines rs re with _ | ⟨l0, ls⟩
        · rw [recMaze_step_h_nil b ρ f rs re cs ce w k hg hpl] at h
          exact Or.inl h
        · rw [recMaze_step_h b ρ f rs re cs ce w k l0 ls hg hpl] at h
          simp only at h
          have hcr : rs ≤ (l0 :: ls).getD (ρ k % (l0 :: ls).length) 0 ∧
              (l0 :: ls).getD (ρ k % (l0 :: ls).length) 0 ≤ re := by
            have hlen : 0 < (l0 :: ls).length := Nat.succ_pos ls.length
            have hmem : (l0 :: ls).getD (ρ k % (l0 :: ls).length) 0
                ∈ l0 :: ls := getD_mem_of_lt (Nat.mod_lt (ρ k) hlen)
            refine possibleLines_mem ?_
            rw [hpl]
            exact hmem
          rcases ih _ _ _ _ _ _ _ _ h with h2 | h2
          · rcases ih _ _ _ _ _ _ _ _ h2 with h3 | h3
            · rcases placeHorizWall_new h3 with h4 | h4
              · exact Or.inl h4
              · refine Or.inr ⟨?_, ?_, h4.2.1, h4.2.2⟩ <;> omega
            · obtain ⟨a1, a2, a3, a4⟩ := h3
              refine Or.inr ⟨?_, ?_, a3, a4⟩ <;> omega
          · obtain ⟨a1, a2, a3, a4⟩ := h2
            refine Or.inr ⟨?_, ?_, a3, a4⟩ <;> omega
      | vertical =>
        rcases hpl : possibleLines cs ce with _ | ⟨l0, ls⟩
        · rw [recMaze_step_v_nil b ρ f rs re cs ce w k hg hpl] at h
          exact Or.inl h
        · rw [recMaze_step_v b ρ f rs re cs ce w k l0 ls hg hpl] at h
          simp only at h
          have hcr : cs ≤ (l0 :: ls).getD (ρ k % (l0 :: ls).length) 0 ∧
              (l0 :: ls).getD (ρ k % (l0 :: ls).length) 0 ≤ ce := by
            have hlen : 0 < (l0 :: ls).length := Nat.succ_pos ls.length
            have hmem : (l0 :: ls).getD (ρ k % (l0 :: ls).length) 0
                ∈ l0 :: ls := getD_mem_of_lt (Nat.mod_lt (ρ k) hlen)
            refine possibleLines_mem ?_
            rw [hpl]
            exact hmem
          rcases ih _ _ _ _ _ _ _ _ h with h2 | h2
          · rcases ih _ _ _ _ _ _ _ _ h2 with h3 | h3
            · rcases placeVertWall_new h3 with h4 | h4
              · exact Or.inl h4
              · refine Or.inr ⟨h4.2.1, h4.2.2, ?_, ?_⟩ <;> omega
            · obtain ⟨a1, a2, a3, a4⟩ := h3
              refine Or.inr ⟨a1, a2, ?_, ?_⟩ <;> omega
          · obtain ⟨a1, a2, a3, a4⟩ := h2
            refine Or.inr ⟨a1, a2, ?_, ?_⟩ <;> omega



/-- The connectivity invariant of recursive division: starting from a fully
open extended region `[rs-1, re+1] × [cs-1, ce+1]` with the border already
placed, any two cells of the extended region left open are joined by a walk
through open cells of the extended region.  Each dividing wall keeps one
passage, the flanking corridor lines are never written by the sub-calls, and
the passage glues the two sub-regions; skipped special cells only add open
cells adjacent to the corridors.  The statement holds for every fuel:
exhausted fuel just stops adding walls. -/
theorem recMaze_conn (b : MazeBoard) (ρ : ℕ → ℕ) :
    ∀ (fuel : ℕ) (rs re cs ce : ℤ) (orient : Orient) (w : ZPos → Bool) (k : ℕ),
      (∀ x, inRect (rs - 1) (re + 1) (cs - 1) (ce + 1) x → w x = false) →
      ∀ p q, inRect (rs - 1) (re + 1) (cs - 1) (ce + 1) p →
        inRect (rs - 1) (re + 1) (cs - 1) (ce + 1) q →
        (recMaze b ρ fuel rs re cs ce orient true (w, k)).1 p = false →
        (recMaze b ρ fuel rs re cs ce orient true (w, k)).1 q = false →
        ZWalk (fun x => inRect (rs - 1) (re + 1) (cs - 1) (ce + 1) x ∧
          (recMaze b ρ fuel rs re cs ce orient true (w, k)).1 x = false) p q := by
  intro fuel
  induction fuel with
  | zero =>
    intro rs re cs ce orient w k hE p q hp hq hpo hqo
    exact (rect_walk _ _ _ _ hp hq).mono (fun x hx => ⟨hx, hE x hx⟩)
  | succ f ih =>
    intro rs re cs ce orient w k hE p q hp hq hpo hqo
    by_cases hg : re < rs ∨ ce < cs
    · refine ((rect_walk _ _ _ _ hp hq).mono (fun x hx => ?_))
      rw [recMaze_stop b ρ f rs re cs ce orient true w k hg]
      exact ⟨hx, hE x hx⟩
    have hle : rs ≤ re ∧ cs ≤ ce := by
      push_neg at hg
      exact hg
    cases orient with
    | horizontal =>
      rcases hpl : possibleLines rs re with _ | ⟨l0, ls⟩
      · exfalso
        unfold possibleLines at hpl
        rw [if_neg (by omega)] at hpl
        simp at hpl
      rw [recMaze_step_h b ρ f rs re cs ce w k l0 ls hg hpl] at hpo hqo ⊢
      simp only at hpo hqo ⊢
      set cR : ℤ := (l0 :: ls).getD (ρ k % (l0 :: ls).length) 0 with hcRdef
      set P : ℤ := cs + ((ρ (k + 1) % ((ce - cs).toNat + 1) : ℕ) : ℤ) with hPdef
      set o1 : Orient := if cR - 2 - rs > ce - cs then Orient.horizontal
        else Orient.vertical with ho1
      set o2 : Orient := if re - (cR + 2) > ce - cs then Orient.horizontal
        else Orient.vertical with ho2
      set w1 : ZPos → Bool := placeHorizWall b cR P cs ce w with hw1def
      set m1 := recMaze b ρ f rs (cR - 2) cs ce o1 true (w1, k + 2) with hm1def
      set RES := recMaze b ρ f (cR + 2) re cs ce o2 true m1 with hRESdef
      have hcrb : rs ≤ cR ∧ cR ≤ re := by
        have hlen : 0 < (l0 :: ls).length := Nat.succ_pos ls.length
        have hmem : cR ∈ l0 :: ls := by
          rw [hcRdef]
          exact getD_mem_of_lt (Nat.mod_lt (ρ k) hlen)
        refine possibleLines_mem ?_
        rw [hpl]
        exact hmem
      have hPb : cs ≤ P ∧ P ≤ ce := by
        have hmod : ρ (k + 1) % ((ce - cs).toNat + 1) < (ce - cs).toNat + 1 :=
          Nat.mod_lt _ (Nat.succ_pos _)
        rw [hPdef]
        constructor
        · omega
        · have hce : cs ≤ ce := hle.2
          omega
      have hw1_of : ∀ x : ZPos, x.1 ≠ cR → w1 x = w x := by
        intro x hx
        rw [hw1def]
        unfold placeHorizWall
        rw [if_neg (fun hco => hx hco.1)]
      have hw1_pass : w1 (cR, P) = w (cR, P) := by
        rw [hw1def]
        unfold placeHorizWall
        rw [if_neg (fun hco => hco.2.2.2.1 rfl)]
      have hm1_of : ∀ x : ZPos, ¬ inRect rs (cR - 2) cs ce x → w1 x = false →
          m1.1 x = false := by
        intro x hnx hw1x
        refine eq_false_of_ne_true (fun ht => ?_)
        have h2 : w1 x = true ∨ inRect rs (cR - 2) cs ce x :=
          recMaze_newWalls b ρ f rs (cR - 2) cs ce o1 w1 (k + 2) x ht
        rcases h2 with h2 | h2
        · rw [hw1x] at h2
          exact Bool.false_ne_true h2
        · exact hnx h2
      have hRES_of : ∀ x : ZPos, ¬ inRect (cR + 2) re cs ce x → m1.1 x = false →
          RES.1 x = false := by
        intro x hnx hmx
        refine eq_false_of_ne_true (fun ht => ?_)
        have h2 : m1.1 x = true ∨ inRect (cR + 2) re cs ce x :=
          recMaze_newWalls b ρ f (cR + 2) re cs ce o2 m1.1 m1.2 x ht
        rcases h2 with h2 | h2
        · rw [hmx] at h2
          exact Bool.false_ne_true h2
        · exact hnx h2
      have hm1_up : ∀ x : ZPos, RES.1 x = false → m1.1 x = false := by
        intro x hx
        refine eq_false_of_ne_true (fun ht => ?_)
        have h2 : RES.1 x = true :=
          recMaze_mono b ρ f (cR + 2) re cs ce o2 true m1.1 m1.2 x ht
        rw [hx] at h2
        exact Bool.false_ne_true h2
      have hopen3 : ∀ x : ZPos, inRect (rs - 1) (re + 1) (cs - 1) (ce + 1) x →
          x.1 ≠ cR → ¬ inRect rs (cR - 2) cs ce x → ¬ inRect (cR + 2) re cs ce x →
          RES.1 x = false := by
        intro x hx hne1 hn1 hn2
        refine hRES_of x hn2 (hm1_of x hn1 ?_)
        rw [hw1_of x hne1]
        exact hE x hx
      have hAr : inRect (rs - 1) (re + 1) (cs - 1) (ce + 1) (cR - 1, P) := by
        refine ⟨?_, ?_, ?_, ?_⟩ <;> · show _ ≤ _; omega
      have hAo : RES.1 (cR - 1, P) = false := by
        refine hopen3 _ hAr ?_ ?_ ?_
        · show cR - 1 ≠ cR
          omega
        · intro hco
          have h2 : cR - 1 ≤ cR - 2 := hco.2.1
          omega
        · intro hco
          have h2 : cR + 2 ≤ cR - 1 := hco.1
          omega
      have hBr : inRect (rs - 1) (re + 1) (cs - 1) (ce + 1) (cR, P) := by
        refine ⟨?_, ?_, ?_, ?_⟩ <;> · show _ ≤ _; omega
      have hBo : RES.1 (cR, P) = false := by
        have hw1B : w1 (cR, P) = false := by
          rw [hw1_pass]
          exact hE _ hBr
        refine hRES_of _ ?_ (hm1_of _ ?_ hw1B)
        · intro hco
          have h2 : cR + 2 ≤ cR := hco.1
          omega
        · intro hco
          have h2 : cR ≤ cR - 2 := hco.2.1
          omega
      have hCr : inRect (rs - 1) (re + 1) (cs - 1) (ce + 1) (cR + 1, P) := by
        refine ⟨?_, ?_, ?_, ?_⟩ <;> · show _ ≤ _; omega
      have hCo : RES.1 (cR + 1, P) = false := by
        refine hopen3 _ hCr ?_ ?_ ?_
        · show cR + 1 ≠ cR
          omega
        · intro hco
          have h2 : cR + 1 ≤ cR - 2 := hco.2.1
          omega
        · intro hco
          have h2 : cR + 2 ≤ cR + 1 := hco.1
          omega
      have hE1 : ∀ x, inRect (rs - 1) (cR - 2 + 1) (cs - 1) (ce + 1) x →
          w1 x = false := by
        intro x hx
        obtain ⟨a1, a2, a3, a4⟩ := hx
        rw [hw1_of x (by omega)]
        exact hE x ⟨a1, by omega, a3, a4⟩
      have hE2 : ∀ x, inRect (cR + 2 - 1) (re + 1) (cs - 1) (ce + 1) x →
          m1.1 x = false := by
        intro x hx
        obtain ⟨a1, a2, a3, a4⟩ := hx
        refine hm1_of x ?_ ?_
        · intro hco
          have h2 : x.1 ≤ cR - 2 := hco.2.1
          omega
        · rw [hw1_of x (by omega)]
          exact hE x ⟨by omega, a2, a3, a4⟩
      have hleft : ∀ x, inRect (rs - 1) (re + 1) (cs - 1) (ce + 1) x →
          x.1 ≤ cR - 1 → RES.1 x = false →
          ZWalk (fun y => inRect (rs - 1) (re + 1) (cs - 1) (ce + 1) y ∧
            RES.1 y = false) x (cR - 1, P) := by
        intro x hx hxr hxo
        have hx1 : inRect (rs - 1) (cR - 2 + 1) (cs - 1) (ce + 1) x :=
          ⟨hx.1, by omega, hx.2.2.1, hx.2.2.2⟩
        have hA1r : inRect (rs - 1) (cR - 2 + 1) (cs - 1) (ce + 1) (cR - 1, P) := by
          refine ⟨?_, ?_, ?_, ?_⟩ <;> · show _ ≤ _; omega
        have hwalk := ih rs (cR - 2) cs ce o1 w1 (k + 2) hE1 x (cR - 1, P)
          hx1 hA1r (hm1_up x hxo) (hm1_up _ hAo)
        refine hwalk.mono ?_
        intro y hy
        obtain ⟨⟨b1, b2, b3, b4⟩, hym⟩ := hy
        refine ⟨⟨b1, by omega, b3, b4⟩, hRES_of y ?_ hym⟩
        intro hco
        have h2 : cR + 2 ≤ y.1 := hco.1
        omega
      have hanchor : ∀ x, inRect (rs - 1) (re + 1) (cs - 1) (ce + 1) x →
          RES.1 x = false →
          ZWalk (fun y => inRect (rs - 1) (re + 1) (cs - 1) (ce + 1) y ∧
            RES.1 y = false) x (cR - 1, P) := by
        intro x hx hxo
        rcases lt_trichotomy x.1 cR with hxc | hxc | hxc
        · exact hleft x hx (by omega) hxo
        · have hx' : inRect (rs - 1) (re + 1) (cs - 1) (ce + 1) (cR - 1, x.2) := by
            refine ⟨?_, ?_, hx.2.2.1, hx.2.2.2⟩ <;> · show _ ≤ _; omega
          have hx'o : RES.1 (cR - 1, x.2) = false := by
            refine hopen3 _ hx' ?_ ?_ ?_
            · show cR - 1 ≠ cR
              omega
            · intro hco
              have h2 : cR - 1 ≤ cR - 2 := hco.2.1
              omega
            · intro hco
              have h2 : cR + 2 ≤ cR - 1 := hco.1
              omega
          refine ZWalk.step ⟨hx, hxo⟩ ?_ (hleft (cR - 1, x.2) hx' (by omega) hx'o)
          exact Or.inr ⟨rfl, Or.inr (by show x.1 = cR - 1 + 1; omega)⟩
        · have hx2 : inRect (cR + 2 - 1) (re + 1) (cs - 1) (ce + 1) x :=
            ⟨by omega, hx.2.1, hx.2.2.1, hx.2.2.2⟩
          have hC2r : inRect (cR + 2 - 1) (re + 1) (cs - 1) (ce + 1) (cR + 1, P) := by
            refine ⟨?_, ?_, ?_, ?_⟩ <;> · show _ ≤ _; omega
          have hwalk := ih (cR + 2) re cs ce o2 m1.1 m1.2 hE2 x (cR + 1, P)
            hx2 hC2r hxo hCo
          have hwalk2 : ZWalk (fun y => inRect (rs - 1) (re + 1) (cs - 1) (ce + 1) y ∧
              RES.1 y = false) x (cR + 1, P) := by
            refine hwalk.mono ?_
            intro y hy
            obtain ⟨⟨b1, b2, b3, b4⟩, hym⟩ := hy
            exact ⟨⟨by omega, b2, b3, b4⟩, hym⟩
          refine hwalk2.trans (ZWalk.step ⟨hCr, hCo⟩ ?_
            (ZWalk.step ⟨hBr, hBo⟩ ?_ (ZWalk.refl _ ⟨hAr, hAo⟩)))
          · exact Or.inr ⟨rfl, Or.inr (by show cR + 1 = cR + 1; rfl)⟩
          · exact Or.inr ⟨rfl, Or.inr (by show cR = cR - 1 + 1; omega)⟩
      exact (hanchor p hp hpo).trans (hanchor q hq hqo).symm
    | vertical =>
      rcases hpl : possibleLines cs ce with _ | ⟨l0, ls⟩
      · exfalso
        unfold possibleLines at hpl
        rw [if_neg (by omega)] at hpl
        simp at hpl
      rw [recMaze_step_v b ρ f rs re cs ce w k l0 ls hg hpl] at hpo hqo ⊢
      simp only at hpo hqo ⊢
      set cC : ℤ := (l0 :: ls).getD (ρ k % (l0 :: ls).length) 0 with hcCdef
      set P : ℤ := rs + ((ρ (k + 1) % ((re - rs).toNat + 1) : ℕ) : ℤ) with hPdef
      set o1 : Orient := if re - rs > cC - 2 - cs then Orient.horizontal
        else Orient.vertical with ho1
      set o2 : Orient := if re - rs > ce - (cC + 2) then Orient.horizontal
        else Orient.vertical with ho2
      set w1 : ZPos → Bool := placeVertWall b cC P rs re w with hw1def
      set m1 := recMaze b ρ f rs re cs (cC - 2) o1 true (w1, k + 2) with hm1def
      set RES := recMaze b ρ f rs re (cC + 2) ce o2 true m1 with hRESdef
      have hcrb : cs ≤ cC ∧ cC ≤ ce := by
        have hlen : 0 < (l0 :: ls).length := Nat.succ_pos ls.length
        have hmem : cC ∈ l0 :: ls := by
          rw [hcCdef]
          exact getD_mem_of_lt (Nat.mod_lt (ρ k) hlen)
        refine possibleLines_mem ?_
        rw [hpl]
        exact hmem
      have hPb : rs ≤ P ∧ P ≤ re := by
        have hmod : ρ (k + 1) % ((re - rs).toNat + 1) < (re - rs).toNat + 1 :=
          Nat.mod_lt _ (Nat.succ_pos _)
        rw [hPdef]
        constructor
        · omega
        · have hre : rs ≤ re := hle.1
          omega
      have hw1_of : ∀ x : ZPos, x.2 ≠ cC → w1 x = w x := by
        intro x hx
        rw [hw1def]
        unfold placeVertWall
        rw [if_neg (fun hco => hx hco.1)]
      have hw1_pass : w1 (P, cC) = w (P, cC) := by
        rw [hw1def]
        unfold placeVertWall
        rw [if_neg (fun hco => hco.2.2.2.1 rfl)]
      have hm1_of : ∀ x : ZPos, ¬ inRect rs re cs (cC - 2) x → w1 x = false →
          m1.1 x = false := by
        intro x hnx hw1x
        refine eq_false_of_ne_true (fun ht => ?_)
        have h2 : w1 x = true ∨ inRect rs re cs (cC - 2) x :=
          recMaze_newWalls b ρ f rs re cs (cC - 2) o1 w1 (k + 2) x ht
        rcases h2 with h2 | h2
        · rw [hw1x] at h2
          exact Bool.false_ne_true h2
        · exact hnx h2
      have hRES_of : ∀ x : ZPos, ¬ inRect rs re (cC + 2) ce x → m1.1 x = false →
          RES.1 x = false := by
        intro x hnx hmx
        refine eq_false_of_ne_true (fun ht => ?_)
        have h2 : m1.1 x = true ∨ inRect rs re (cC + 2) ce x :=
          recMaze_newWalls b ρ f rs re (cC + 2) ce o2 m1.1 m1.2 x ht
        rcases h2 with h2 | h2
        · rw [hmx] at h2
          exact Bool.false_ne_true h2
        · exact hnx h2
      have hm1_up : ∀ x : ZPos, RES.1 x = false → m1.1 x = false := by
        intro x hx
        refine eq_false_of_ne_true (fun ht => ?_)
        have h2 : RES.1 x = true :=
          recMaze_mono b ρ f rs re (cC + 2) ce o2 true m1.1 m1.2 x ht
        rw [hx] at h2
        exact Bool.false_ne_true h2
      have hopen3 : ∀ x : ZPos, inRect (rs - 1) (re + 1) (cs - 1) (ce + 1) x →
          x.2 ≠ cC → ¬ inRect rs re cs (cC - 2) x → ¬ inRect rs re (cC + 2) ce x →
          RES.1 x = false := by
        intro x hx hne1 hn1 hn2
        refine hRES_of x hn2 (hm1_of x hn1 ?_)
        rw [hw1_of x hne1]
        exact hE x hx
      have hAr : inRect (rs - 1) (re + 1) (cs - 1) (ce + 1) (P, cC - 1) := by
        refine ⟨?_, ?_, ?_, ?_⟩ <;> · show _ ≤ _; omega
      have hAo : RES.1 (P, cC - 1) = false := by
        refine hopen3 _ hAr ?_ ?_ ?_
        · show cC - 1 ≠ cC
          omega
        · intro hco
          have h2 : cC - 1 ≤ cC - 2 := hco.2.2.2
          omega
        · intro hco
          have h2 : cC + 2 ≤ cC - 1 := hco.2.2.1
          omega
      have hBr : inRect (rs - 1) (re + 1) (cs - 1) (ce + 1) (P, cC) := by
        refine ⟨?_, ?_, ?_, ?_⟩ <;> · show _ ≤ _; omega
      have hBo : RES.1 (P, cC) = false := by
        have hw1B : w1 (P, cC) = false := by
          rw [hw1_pass]
          exact hE _ hBr
        refine hRES_of _ ?_ (hm1_of _ ?_ hw1B)
        · intro hco
          have h2 : cC + 2 ≤ cC := hco.2.2.1
          omega
        · intro hco
          have h2 : cC ≤ cC - 2 := hco.2.2.2
          omega
      have hCr : inRect (rs - 1) (re + 1) (cs - 1) (ce + 1) (P, cC + 1) := by
        refine ⟨?_, ?_, ?_, ?_⟩ <;> · show _ ≤ _; omega
      have hCo : RES.1 (P, cC + 1) = false := by
        refine hopen3 _ hCr ?_ ?_ ?_
        · show cC + 1 ≠ cC
          omega
        · intro hco
          have h2 : cC + 1 ≤ cC - 2 := hco.2.2.2
          omega
        · intro hco
          have h2 : cC + 2 ≤ cC + 1 := hco.2.2.1
          omega
      have hE1 : ∀ x, inRect (rs - 1) (re + 1) (cs - 1) (cC - 2 + 1) x →
          w1 x = false := by
        intro x hx
        obtain ⟨a1, a2, a3, a4⟩ := hx
        rw [hw1_of x (by omega)]
        exact hE x ⟨a1, a2, a3, by omega⟩
      have hE2 : ∀ x, inRect (rs - 1) (re + 1) (cC + 2 - 1) (ce + 1) x →
          m1.1 x = false := by
        intro x hx
        obtain ⟨a1, a2, a3, a4⟩ := hx
        refine hm1_of x ?_ ?_
        · intro hco
          have h2 : x.2 ≤ cC - 2 := hco.2.2.2
          omega
        · rw [hw1_of x (by omega)]
          exact hE x ⟨a1, a2, by omega, a4⟩
      have hleft : ∀ x, inRect (rs - 1) (re + 1) (cs - 1) (ce + 1) x →
          x.2 ≤ cC - 1 → RES.1 x = false →
          ZWalk (fun y => inRect (rs - 1) (re + 1) (cs - 1) (ce + 1) y ∧
            RES.1 y = false) x (P, cC - 1) := by
        intro x hx hxr hxo
        have hx1 : inRect (rs - 1) (re + 1) (cs - 1) (cC - 2 + 1) x :=
          ⟨hx.1, hx.2.1, hx.2.2.1, by omega⟩
        have hA1r : inRect (rs - 1) (re + 1) (cs - 1) (cC - 2 + 1) (P, cC - 1) := by
          refine ⟨?_, ?_, ?_, ?_⟩ <;> · show _ ≤ _; omega
        have hwalk := ih rs re cs (cC - 2) o1 w1 (k + 2) hE1 x (P, cC - 1)
          hx1 hA1r (hm1_up x hxo) (hm1_up _ hAo)
        refine hwalk.mono ?_
        intro y hy
        obtain ⟨⟨b1, b2, b3, b4⟩, hym⟩ := hy
        refine ⟨⟨b1, b2, b3, by omega⟩, hRES_of y ?_ hym⟩
        intro hco
        have h2 : cC + 2 ≤ y.2 := hco.2.2.1
        omega
      have hanchor : ∀ x, inRect (rs - 1) (re + 1) (cs - 1) (ce + 1) x →
          RES.1 x = false →
          ZWalk (fun y => inRect (rs - 1) (re + 1) (cs - 1) (ce + 1) y ∧
            RES.1 y = false) x (P, cC - 1) := by
        intro x hx hxo
        rcases lt_trichotomy x.2 cC with hxc | hxc | hxc
        · exact hleft x hx (by omega) hxo
        · have hx' : inRect (rs - 1) (re + 1) (cs - 1) (ce + 1) (x.1, cC - 1) := by
            refine ⟨hx.1, hx.2.1, ?_, ?_⟩ <;> · show _ ≤ _; omega
          have hx'o : RES.1 (x.1, cC - 1) = false := by
            refine hopen3 _ hx' ?_ ?_ ?_
            · show cC - 1 ≠ cC
              omega
            · intro hco
              have h2 : cC - 1 ≤ cC - 2 := hco.2.2.2
              omega
            · intro hco
              have h2 : cC + 2 ≤ cC - 1 := hco.2.2.1
              omega
          refine ZWalk.step ⟨hx, hxo⟩ ?_ (hleft (x.1, cC - 1) hx' (by omega) hx'o)
          exact Or.inl ⟨rfl, Or.inr (by show x.2 = cC - 1 + 1; omega)⟩
        · have hx2 : inRect (rs - 1) (re + 1) (cC + 2 - 1) (ce + 1) x :=
            ⟨hx.1, hx.2.1, by omega, hx.2.2.2⟩
          have hC2r : inRect (rs - 1) (re + 1) (cC + 2 - 1) (ce + 1) (P, cC + 1) := by
            refine ⟨?_, ?_, ?_, ?_⟩ <;> · show _ ≤ _; omega
          have hwalk := ih rs re (cC + 2) ce o2 m1.1 m1.2 hE2 x (P, cC + 1)
            hx2 hC2r hxo hCo
          have hwalk2 : ZWalk (fun y => inRect (rs - 1) (re + 1) (cs - 1) (ce + 1) y ∧
              RES.1 y = false) x (P, cC + 1) := by
            refine hwalk.mono ?_
            intro y hy
            obtain ⟨⟨b1, b2, b3, b4⟩, hym⟩ := hy
            exact ⟨⟨b1, b2, by omega, b4⟩, hym⟩
          refine hwalk2.trans (ZWalk.step ⟨hCr, hCo⟩ ?_
            (ZWalk.step ⟨hBr, hBo⟩ ?_ (ZWalk.refl _ ⟨hAr, hAo⟩)))
          · exact Or.inl ⟨rfl, Or.inr (by show cC + 1 = cC + 1; rfl)⟩
          · exact Or.inl ⟨rfl, Or.inr (by show cC = cC - 1 + 1; omega)⟩
      exact (hanchor p hp hpo).trans (hanchor q hq hqo).symm

/-- A `ℤ`-walk through open cells of the interior rectangle lifts to
reachability on the induced grid. -/
theorem zwalk_to_reach (b : MazeBoard) (W : ZPos → Bool) {p q : ZPos}
    (h : ZWalk (fun x => inRect 1 ((b.height : ℤ) - 2) 1 ((b.width : ℤ) - 2) x ∧
      W x = false) p q) :
    (gridOfMaze b W).reach (p.1.toNat, p.2.toNat) (q.1.toNat, q.2.toNat) := by
  induction h with
  | refl x hx =>
    obtain ⟨⟨a1, a2, a3, a4⟩, hw⟩ := hx
    refine reach_refl ⟨?_, ?_⟩ ?_
    · show x.1.toNat < b.height
      omega
    · show x.2.toNat < b.width
      omega
    · show W (zOf (x.1.toNat, x.2.toNat)) = false
      have hzz : zOf (x.1.toNat, x.2.toNat) = x := by
        unfold zOf
        exact Prod.ext (by show ((x.1.toNat : ℤ)) = x.1; omega)
          (by show ((x.2.toNat : ℤ)) = x.2; omega)
      rw [hzz]
      exact hw
  | step hp hadj ht ih =>
    next x y r =>
      obtain ⟨⟨a1, a2, a3, a4⟩, hpw⟩ := hp
      obtain ⟨⟨b1, b2, b3, b4⟩, hqw⟩ := ht.head
      refine reach_trans (reach_of_openAdj ⟨⟨⟨?_, ?_⟩, ⟨?_, ?_⟩, ?_⟩, ?_, ?_⟩) ih
      · show x.1.toNat < b.height
        omega
      · show x.2.toNat < b.width
        omega
      · show y.1.toNat < b.height
        omega
      · show y.2.toNat < b.width
        omega
      · rcases hadj with ⟨h1, h2 | h2⟩ | ⟨h1, h2 | h2⟩
        · exact Or.inl ⟨show x.1.toNat = y.1.toNat by omega,
            Or.inr (show y.2.toNat = x.2.toNat + 1 by omega)⟩
        · exact Or.inl ⟨show x.1.toNat = y.1.toNat by omega,
            Or.inl (show x.2.toNat = y.2.toNat + 1 by omega)⟩
        · exact Or.inr ⟨show x.2.toNat = y.2.toNat by omega,
            Or.inr (show y.1.toNat = x.1.toNat + 1 by omega)⟩
        · exact Or.inr ⟨show x.2.toNat = y.2.toNat by omega,
            Or.inl (show x.1.toNat = y.1.toNat + 1 by omega)⟩
      · show W (zOf (x.1.toNat, x.2.toNat)) = false
        have hzz : zOf (x.1.toNat, x.2.toNat) = x := by
          unfold zOf
          exact Prod.ext (by show ((x.1.toNat : ℤ)) = x.1; omega)
            (by show ((x.2.toNat : ℤ)) = x.2; omega)
        rw [hzz]
        exact hpw
      · show W (zOf (y.1.toNat, y.2.toNat)) = false
        have hzz : zOf (y.1.toNat, y.2.toNat) = y := by
          unfold zOf
          exact Prod.ext (by show ((y.1.toNat : ℤ)) = y.1; omega)
            (by show ((y.2.toNat : ℤ)) = y.2; omega)
        rw [hzz]
        exact hqw

/-- **C3 (amended).**  For every random stream, the recursive-division
generator run on a wall-free board whose start and target both lie strictly
inside the border frame (coordinates in `[1, height-2] × [1, width-2]`)
leaves the target reachable from the start: every division keeps one
passage, so the interior stays connected.  (The unrestricted original claim
is false: a special node placed on the border row or column is sealed off by
the surrounding-wall prologue, which never clears around special nodes.) -/
theorem c3_recursive_division_connectivity (b : MazeBoard) (ρ : ℕ → ℕ)
    (hh : 5 ≤ b.height) (hwd : 5 ≤ b.width)
    (hs1 : 1 ≤ b.start.1) (hs2 : b.start.1 ≤ b.height - 2)
    (hs3 : 1 ≤ b.start.2) (hs4 : b.start.2 ≤ b.width - 2)
    (ht1 : 1 ≤ b.target.1) (ht2 : b.target.1 ≤ b.height - 2)
    (ht3 : 1 ≤ b.target.2) (ht4 : b.target.2 ≤ b.width - 2) :
    (gridOfMaze b (generateRecursiveMazeTop b ρ (fun _ => false))).reach
      b.start b.target := by
  obtain ⟨f, hf⟩ : ∃ f, b.height + b.width = f + 1 := ⟨b.height + b.width - 1, by omega⟩
  have hne : ¬ (((b.height : ℤ) - 3) < 2 ∨ ((b.width : ℤ) - 3) < 2) := by
    intro hco
    rcases hco with hco | hco <;> omega
  have htop : generateRecursiveMazeTop b ρ (fun _ => false)
      = (recMaze b ρ (f + 1) 2 ((b.height : ℤ) - 3) 2 ((b.width : ℤ) - 3)
          Orient.horizontal true
          (addSurroundingWalls b (fun _ => false), 0)).1 := by
    unfold generateRecursiveMazeTop
    rw [hf, recMaze_false_true b ρ f _ _ _ _ _ _ 0 hne]
  have hE0 : ∀ x, inRect (2 - 1) (((b.height : ℤ) - 3) + 1) (2 - 1)
      (((b.width : ℤ) - 3) + 1) x →
      addSurroundingWalls b (fun _ => false) x = false := by
    intro x hx
    obtain ⟨a1, a2, a3, a4⟩ := hx
    unfold addSurroundingWalls
    rw [if_neg ?_]
    intro hco
    rcases hco.1 with e | e | e | e <;> omega
  have hsp_s : isSpecialZ b (zOf b.start) = true := by
    simp [isSpecialZ]
  have hsp_t : isSpecialZ b (zOf b.target) = true := by
    simp [isSpecialZ]
  have hso : (recMaze b ρ (f + 1) 2 ((b.height : ℤ) - 3) 2 ((b.width : ℤ) - 3)
      Orient.horizontal true (addSurroundingWalls b (fun _ => false), 0)).1
      (zOf b.start) = false := by
    rw [recMaze_special b ρ (f + 1) _ _ _ _ _ _ _ _ _ hsp_s,
      addSurroundingWalls_special hsp_s]
  have hto : (recMaze b ρ (f + 1) 2 ((b.height : ℤ) - 3) 2 ((b.width : ℤ) - 3)
      Orient.horizontal true (addSurroundingWalls b (fun _ => false), 0)).1
      (zOf b.target) = false := by
    rw [recMaze_special b ρ (f + 1) _ _ _ _ _ _ _ _ _ hsp_t,
      addSurroundingWalls_special hsp_t]
  have hsrect : inRect (2 - 1) (((b.height : ℤ) - 3) + 1) (2 - 1)
      (((b.width : ℤ) - 3) + 1) (zOf b.start) := by
    refine ⟨?_, ?_, ?_, ?_⟩ <;> · show _ ≤ _; simp [zOf]; omega
  have htrect : inRect (2 - 1) (((b.height : ℤ) - 3) + 1) (2 - 1)
      (((b.width : ℤ) - 3) + 1) (zOf b.target) := by
    refine ⟨?_, ?_, ?_, ?_⟩ <;> · show _ ≤ _; simp [zOf]; omega
  have hwalk := recMaze_conn b ρ (f + 1) 2 ((b.height : ℤ) - 3) 2
    ((b.width : ℤ) - 3) Orient.horizontal
    (addSurroundingWalls b (fun _ => false)) 0 hE0
    (zOf b.start) (zOf b.target) hsrect htrect hso hto
  have hwalk2 : ZWalk (fun x =>
      inRect 1 ((b.height : ℤ) - 2) 1 ((b.width : ℤ) - 2) x ∧
      (recMaze b ρ (f + 1) 2 ((b.height : ℤ) - 3) 2 ((b.width : ℤ) - 3)
        Orient.horizontal true
        (addSurroundingWalls b (fun _ => false), 0)).1 x = false)
      (zOf b.start) (zOf b.target) := by
    refine hwalk.mono ?_
    intro y hy
    obtain ⟨⟨a1, a2, a3, a4⟩, hyo⟩ := hy
    exact ⟨⟨by omega, by omega, by omega, by omega⟩, hyo⟩
  have hlift := zwalk_to_reach b _ hwalk2
  have hcoords : ∀ u : Pos, ((zOf u).1.toNat, (zOf u).2.toNat) = u := by
    intro u
    unfold zOf
    exact Prod.ext (by simp) (by simp)
  rw [hcoords, hcoords] at hlift
  rw [htop]
  exact hlift

theorem stairLoop_special {b : MazeBoard} {p : Pos}
    (hsp : isSpecialNodeStair b p = true) :
    ∀ (fuel : ℕ) (r c : ℕ) (w : Pos → Bool), stairLoop b fuel r c w p = w p := by
  intro fuel
  induction fuel with
  | zero => intro r c w; rfl
  | succ f ih =>
    intro r c w
    show (if r < b.height - 2 ∧ c < b.width - 2 then _ else w) p = w p
    split
    · rw [ih]
      simp only
      rw [if_neg (fun hco => hco.2.2.2 hsp), if_neg (fun hco => hco.2.2.2 hsp)]
    · rfl

theorem addBorderStair_special {b : MazeBoard} {p : Pos}
    (hsp : isSpecialNodeStair b p = true) (w : Pos → Bool) :
    addBorderStair b w p = w p := by
  unfold addBorderStair
  rw [if_neg (fun hco => hco.2.2.2 hsp)]

theorem stairMaze_special {b : MazeBoard} {p : Pos}
    (hsp : isSpecialNodeStair b p = true) (w : Pos → Bool) :
    stairMaze b w p = w p := by
  unfold stairMaze
  rw [addBorderStair_special hsp, stairLoop_special hsp]

theorem foldl_wall_preserved {α : Type} (l : List α)
    (F : (Pos → Bool) × ℕ → α → (Pos → Bool) × ℕ) (p : Pos)
    (hF : ∀ st a, (F st a).1 p = st.1 p) :
    ∀ st, (l.foldl F st).1 p = st.1 p := by
  induction l with
  | nil => intro st; rfl
  | cons a l ih =>
    intro st
    show (l.foldl F (F st a)).1 p = st.1 p
    rw [ih (F st a), hF st a]

theorem foldl_fun_preserved {α : Type} (l : List α)
    (F : (Pos → Bool) → α → Pos → Bool) (p : Pos)
    (hF : ∀ w a, F w a p = w p) :
    ∀ w, (l.foldl F w) p = w p := by
  induction l with
  | nil => intro w; rfl
  | cons a l ih =>
    intro w
    show (l.foldl F (F w a)) p = w p
    rw [ih (F w a), hF w a]

theorem setF_ne_special {b : MazeBoard} {p q : Pos}
    (hsp : isSpecialNodeObj b p = true) (hq : isSpecialNodeObj b q = false)
    (w : Pos → Bool) (v : Bool) : setF w q v p = w p := by
  refine setF_other w q p v (fun he => ?_)
  rw [he] at hsp
  rw [hsp] at hq
  exact absurd hq (by simp)

theorem basicCell_special {b : MazeBoard} {β : ℕ → Bool} {ρ : ℕ → ℕ} {p : Pos}
    (hsp : isSpecialNodeObj b p = true) (st : (Pos → Bool) × ℕ) (cell : Pos) :
    (basicCell b β ρ st cell).1 p = st.1 p := by
  unfold basicCell
  by_cases hc : isSpecialNodeObj b cell = true
  · rw [if_pos hc]
  · rw [if_neg hc]
    split
    · simp only
      rw [foldl_fun_preserved _ _ p ?_]
      · exact setF_ne_special hsp (eq_false_of_ne_true hc) st.1 true
      · intro w d
        split
        · next hnd =>
          exact setF_ne_special hsp (eq_false_of_ne_true hnd) w true
        · rfl
    · rfl

theorem densityPass1Cell_special {b : MazeBoard} {β : ℕ → Bool} {p : Pos}
    (hsp : isSpecialNodeObj b p = true) (st : (Pos → Bool) × ℕ) (cell : Pos) :
    (densityPass1Cell b β st cell).1 p = st.1 p := by
  unfold densityPass1Cell
  by_cases hc : isSpecialNodeObj b cell = true
  · rw [if_pos hc]
  · rw [if_neg hc]
    simp only
    split
    · exact setF_ne_special hsp (eq_false_of_ne_true hc) st.1 true
    · rfl

theorem densityPass2Cell_special {b : MazeBoard} {β : ℕ → Bool} {p : Pos}
    (hsp : isSpecialNodeObj b p = true) (st : (Pos → Bool) × ℕ) (cell : Pos) :
    (densityPass2Cell b β st cell).1 p = st.1 p := by
  unfold densityPass2Cell
  by_cases hc : isSpecialNodeObj b cell = true
  · rw [if_pos hc]
  · rw [if_neg hc]
    split
    · simp only
      split
      · exact setF_ne_special hsp (eq_false_of_ne_true hc) st.1 true
      · rfl
    · rfl

theorem densityPass3Cell_special {b : MazeBoard} {β : ℕ → Bool} {p : Pos}
    (hsp : isSpecialNodeObj b p = true) (st : (Pos → Bool) × ℕ) (cell : Pos) :
    (densityPass3Cell b β st cell).1 p = st.1 p := by
  unfold densityPass3Cell
  by_cases hc : isSpecialNodeObj b cell = true
  · rw [if_pos hc]
  · rw [if_neg hc]
    simp only
    split
    · exact setF_ne_special hsp (eq_false_of_ne_true hc) st.1 false
    · rfl

theorem clearAroundNode_special {b : MazeBoard} {p : Pos}
    (hsp : isSpecialNodeObj b p = true) (sp : Pos) (w : Pos → Bool) :
    clearAroundNode b sp w p = w p := by
  unfold clearAroundNode
  rw [if_neg (fun hco => hco.2.2.2.2 hsp)]

theorem addBorderObj_special {b : MazeBoard} {p : Pos}
    (hsp : isSpecialNodeObj b p = true) (w : Pos → Bool) :
    addBorderObj b w p = w p := by
  unfold addBorderObj
  rw [if_neg (fun hco => hco.2.2.2 hsp)]

theorem clearAroundNode_keeps_false {b : MazeBoard} {x : Pos} {w : Pos → Bool}
    (h : w x = false) (sp : Pos) : clearAroundNode b sp w x = false := by
  unfold clearAroundNode
  split
  · rfl
  · exact h

theorem clearAroundNode_sets {b : MazeBoard} {sp x : Pos}
    (h1 : ((x.1 : ℤ) - sp.1).natAbs ≤ 2) (h2 : ((x.2 : ℤ) - sp.2).natAbs ≤ 2)
    (hb1 : x.1 < b.height) (hb2 : x.2 < b.width)
    (hns : isSpecialNodeObj b x = false) (w : Pos → Bool) :
    clearAroundNode b sp w x = false := by
  unfold clearAroundNode
  rw [if_pos ⟨h1, h2, hb1, hb2, fun ht => absurd (ht ▸ hns) (by simp)⟩]

theorem clear_foldl_keeps_false {b : MazeBoard} {x : Pos} (l : List Pos) :
    ∀ w : Pos → Bool, w x = false →
      (l.foldl (fun wacc s => clearAroundNode b s wacc) w) x = false := by
  induction l with
  | nil => intro w h; exact h
  | cons a l ih =>
    intro w h
    show (l.foldl _ (clearAroundNode b a w)) x = false
    exact ih _ (clearAroundNode_keeps_false h a)

theorem clear_foldl_sets {b : MazeBoard} {sp x : Pos} (l : List Pos)
    (hsp : sp ∈ l)
    (h1 : ((x.1 : ℤ) - sp.1).natAbs ≤ 2) (h2 : ((x.2 : ℤ) - sp.2).natAbs ≤ 2)
    (hb1 : x.1 < b.height) (hb2 : x.2 < b.width)
    (hns : isSpecialNodeObj b x = false) :
    ∀ w, (l.foldl (fun wacc s => clearAroundNode b s wacc) w) x = false := by
  induction l with
  | nil => exact absurd hsp (List.not_mem_nil sp)
  | cons a l ih =>
    intro w
    rcases List.mem_cons.mp hsp with he | hm
    · show (l.foldl _ (clearAroundNode b a w)) x = false
      refine clear_foldl_keeps_false l _ ?_
      rw [← he]
      exact clearAroundNode_sets h1 h2 hb1 hb2 hns w
    · exact ih hm (clearAroundNode b a w)

/-- **C4 (amended).**  What the four generators actually guarantee about
special nodes.  (1) Recursive division never writes a wall onto the start,
the target, or the object — but it clears no neighbourhood around them.
(2) The stair generator never walls the start or the target — its special
check omits the object, which it can wall over, and it clears nothing.
(3) Basic-random never walls any special node (object included) and, at the
end, every in-bounds non-special cell within Chebyshev radius 2 of the start
or of the target is open; the object gets no such clearing.  (4) The
density-random generator never walls any special node and clears radius 2
around all three special nodes. -/
theorem c4_generators_special_nodes (b : MazeBoard) :
    (∀ (ρ : ℕ → ℕ) (fuel : ℕ) (rs re cs ce : ℤ) (orient : Orient) (sw : Bool)
      (w : ZPos → Bool) (k : ℕ) (p : ZPos), isSpecialZ b p = true →
      (recMaze b ρ fuel rs re cs ce orient sw (w, k)).1 p = w p) ∧
    (∀ (w : Pos → Bool) (p : Pos), isSpecialNodeStair b p = true →
      stairMaze b w p = w p) ∧
    (∀ (β : ℕ → Bool) (ρ : ℕ → ℕ) (w : Pos → Bool) (p : Pos),
      isSpecialNodeObj b p = true → generateBasicRandomMaze b β ρ w p = w p) ∧
    (∀ (β : ℕ → Bool) (w : Pos → Bool) (p : Pos),
      isSpecialNodeObj b p = true → generateRandomMaze b β w p = w p) ∧
    (∀ (β : ℕ → Bool) (ρ : ℕ → ℕ) (w : Pos → Bool) (x : Pos),
      x.1 < b.height → x.2 < b.width → isSpecialNodeObj b x = false →
      ((((x.1 : ℤ) - b.start.1).natAbs ≤ 2 ∧ ((x.2 : ℤ) - b.start.2).natAbs ≤ 2) ∨
       (((x.1 : ℤ) - b.target.1).natAbs ≤ 2 ∧ ((x.2 : ℤ) - b.target.2).natAbs ≤ 2)) →
      generateBasicRandomMaze b β ρ w x = false) ∧
    (∀ (β : ℕ → Bool) (w : Pos → Bool) (x : Pos) (sp : Pos),
      sp ∈ specialsList b → x.1 < b.height → x.2 < b.width →
      isSpecialNodeObj b x = false →
      ((x.1 : ℤ) - sp.1).natAbs ≤ 2 → ((x.2 : ℤ) - sp.2).natAbs ≤ 2 →
      generateRandomMaze b β w x = false) := by
  refine ⟨?_, ?_, ?_, ?_, ?_, ?_⟩
  · intro ρ fuel rs re cs ce orient sw w k p hsp
    exact recMaze_special b ρ fuel rs re cs ce orient sw w k p hsp
  · intro w p hsp
    exact stairMaze_special hsp w
  · intro β ρ w p hsp
    unfold generateBasicRandomMaze
    rw [foldl_fun_preserved _ _ p (fun wacc a => clearAroundNode_special hsp a wacc)]
    rw [foldl_wall_preserved _ _ p (fun st a => basicCell_special hsp st a)]
    exact addBorderObj_special hsp w
  · intro β w p hsp
    unfold generateRandomMaze clearAroundSpecialNodes
    rw [foldl_fun_preserved _ _ p (fun wacc a => clearAroundNode_special hsp a wacc)]
    rw [foldl_wall_preserved _ _ p (fun st a => densityPass3Cell_special hsp st a)]
    rw [foldl_wall_preserved _ _ p (fun st a => densityPass2Cell_special hsp st a)]
    rw [foldl_wall_preserved _ _ p (fun st a => densityPass1Cell_special hsp st a)]
    show (if p.1 < b.height ∧ p.2 < b.width ∧ ¬ isSpecialNodeObj b p = true
      then false else w p) = w p
    rw [if_neg (fun hco => hco.2.2 hsp)]
  · intro β ρ w x hb1 hb2 hns hnear
    unfold generateBasicRandomMaze
    rcases hnear with ⟨h1, h2⟩ | ⟨h1, h2⟩
    · exact clear_foldl_sets [b.start, b.target] (by simp) h1 h2 hb1 hb2 hns _
    · exact clear_foldl_sets [b.start, b.target] (by simp) h1 h2 hb1 hb2 hns _
  · intro β w x sp hmem hb1 hb2 hns h1 h2
    unfold generateRandomMaze clearAroundSpecialNodes
    exact clear_foldl_sets (specialsList b) hmem h1 h2 hb1 hb2 hns _

/-- A 6×6 board whose object checkpoint sits at `(2,2)`, in the stair
generator's path. -/
def bstair6 : MazeBoard := ⟨6, 6, (1, 1), (4, 4), some (2, 2)⟩

/-- A 7×7 board with the start in the top-left corner of the grid. -/
def b7corner : MazeBoard := ⟨7, 7, (0, 0), (3, 3), none⟩

/-- A 7×7 board with both special nodes strictly inside the border frame. -/
def b7interior : MazeBoard := ⟨7, 7, (1, 1), (5, 5), none⟩

/-- The original C4 is false twice over: the stair generator walls the
object checkpoint at `(2,2)` (its special-node check omits `board.object`),
and recursive division leaves a wall — here the border cell `(0,0)` — within
Chebyshev radius 2 of the start, clearing nothing around special nodes. -/
theorem c4_stair_walls_checkpoint :
    (bstair6.object = some (2, 2) ∧
      stairMaze bstair6 (fun _ => false) (2, 2) = true) ∧
    (generateRecursiveMazeTop b7interior (fun _ => 0) (fun _ => false)
        (zOf (0, 0)) = true ∧
      ((0 : ℤ) - (b7interior.start.1 : ℤ)).natAbs ≤ 2 ∧
      ((0 : ℤ) - (b7interior.start.2 : ℤ)).natAbs ≤ 2 ∧
      isSpecialZ b7interior (zOf (0, 0)) = false) := by
  refine ⟨⟨rfl, by decide⟩, by decide, by decide, by decide, by decide⟩

/-- The original C3 is false: with the start on the border — here the corner
`(0,0)` of a 7×7 board — the surrounding-walls prologue walls both of its
neighbours `(0,1)` and `(1,0)` (they are not special), sealing the start off
from the target for every random stream; shown here for the all-zeros
stream. -/
theorem c3_corner_start_disconnected :
    ¬ (gridOfMaze b7corner (generateRecursiveMazeTop b7corner (fun _ => 0)
        (fun _ => false))).reach (0, 0) (3, 3) := by
  intro hr
  obtain ⟨c, hc⟩ := reach_ne_has_nbr (reach_symm hr) (by decide)
  have hC : c.1 < 7 ∧ c.2 < 7 := hc.1.1
  have hrel := hc.1.2.2
  have hw := hc.2.1
  have hcc : c = (0, 1) ∨ c = (1, 0) := by
    obtain ⟨a, d⟩ := c
    simp only [Prod.mk.injEq]
    have h1 : a < 7 := hC.1
    have h2 : d < 7 := hC.2
    rcases hrel with ⟨e1, e2 | e2⟩ | ⟨e1, e2 | e2⟩
    · left
      have f1 : a = 0 := e1
      have f2 : d = 0 + 1 := e2
      omega
    · left
      have f2 : (0 : ℕ) = d + 1 := e2
      omega
    · right
      have f1 : d = 0 := e1
      have f2 : a = 0 + 1 := e2
      omega
    · right
      have f2 : (0 : ℕ) = a + 1 := e2
      omega
  rcases hcc with h | h <;> rw [h] at hw
  · exact absurd hw (by decide)
  · exact absurd hw (by decide)

/-- Concrete instance of the amended C3 on the 7×7 board with interior
start `(1,1)` and target `(5,5)`: the generated maze keeps them
connected. -/
theorem c3_recursive_division_connectivity_witness :
    (gridOfMaze b7interior (generateRecursiveMazeTop b7interior (fun _ => 0)
        (fun _ => false))).reach (1, 1) (5, 5) :=
  c3_recursive_division_connectivity b7interior (fun _ => 0)
    (by decide) (by decide) (by decide) (by decide) (by decide) (by decide)
    (by decide) (by decide) (by decide) (by decide)
